import Mathlib

/-!
# bitcraft: lexer and single-pass interpreter

A shallow embedding of `main.cc`: the pull lexer (`Lexer::nextToken` and its
helpers) and the recursive-descent parser/evaluator (`Parser::parse`, `eat`,
`formatDouble`, `expression`, `expressionAsDouble`, `termAsDouble`, `factor`).

Conventions of the embedding.

* Text is `List Char`; one `Char` stands for one C++ `char`.
* A lexer is its source together with the cursor `index`.  Every read of the
  source is at or after the cursor, so the scanning helpers take the unread text
  `src[index ..]` and return the token together with the number of characters
  by which the cursor advances.
* `double` and the two library conversions the program uses on it
  (`std::stod`, `operator<<` under `std::fixed`) are parameters, collected in
  `Arith`.  All general theorems hold for every `Arith`.
* `exit(1)`, an uncaught exception and an out-of-range string access end the
  run; the result records which, with the interpreter state at that moment.
* Loops and the mutual recursion of the evaluator are driven by a fuel counter;
  `Result.outOfFuel` means the counter ran out, and carries the interpreter
  state reached by then.
-/

namespace Bitcraft

/-! ## Tokens -/

/-- Token kinds, in the order of `enum class TokenType`. -/
inductive TokenType
  | Number | Identifier | Plus | Minus | Star | Slash | Equals | Semicolon
  | LParen | RParen | Comma | Print | End | Unknown | String
  deriving DecidableEq

/-- A token: kind and text payload (`struct Token`). -/
structure Token where
  type : TokenType
  value : List Char
  deriving DecidableEq

/-! ## Character classes (`<cctype>`, "C" locale) -/

/-- The `std::isspace` class: space, `\t`, `\n`, `\v`, `\f`, `\r`. -/
def isspace (c : Char) : Bool :=
  c.toNat = 32 || (9 ≤ c.toNat && c.toNat ≤ 13)

/-- The `std::isdigit` class. -/
def isdigit (c : Char) : Bool :=
  48 ≤ c.toNat && c.toNat ≤ 57

/-- The `std::isalpha` class. -/
def isalpha (c : Char) : Bool :=
  (65 ≤ c.toNat && c.toNat ≤ 90) || (97 ≤ c.toNat && c.toNat ≤ 122)

/-- The `std::isalnum` class. -/
def isalnum (c : Char) : Bool :=
  isalpha c || isdigit c

/-! ## Lexer -/

/-- The lexer object: the source and the cursor (`src`, `index`). -/
structure Lexer where
  src : List Char
  index : Nat
  deriving DecidableEq

/-- The unread text `src[index ..]`. -/
def Lexer.rest (L : Lexer) : List Char :=
  L.src.drop L.index

/-- The read `s[i]` of a `std::string`: the character at `i`, and the
terminating `'\0'` at `i == size()`. -/
def charAt (s : List Char) (i : Nat) : Char :=
  s.getD i '\x00'

/-- Number of iterations of a loop
`while (index < src.size() && p(src[index])) ++index;` on unread text `s`. -/
def runLength (p : Char → Bool) (s : List Char) : Nat :=
  (s.takeWhile p).length

/-- The loop of `parseNumber` on the unread text, with the flag `hasDecimal`:
the number of characters it consumes. -/
def numberLoop : List Char → Bool → Nat
  | [], _ => 0
  | c :: cs, hasDecimal =>
    if isdigit c || c == '.' then
      if c == '.' then
        if hasDecimal then 0 else 1 + numberLoop cs true
      else 1 + numberLoop cs hasDecimal
    else 0

/-- The method `Lexer::parseNumber` on the unread text `s`. -/
def parseNumber (s : List Char) : Token × Nat :=
  let i := if charAt s 0 = '-' then 1 else 0
  let n := i + numberLoop (s.drop i) false
  (⟨.Number, s.take n⟩, n)

/-- The method `Lexer::parseString` on the unread text `s` (which starts with the
opening quote).  `start` and `i` are `start` and `index` relative to the cursor
at entry.  The length argument `index - start - 1` of `substr` is computed in
`size_t`; it wraps only when `index == start`, which happens only when `start`
is the end of the source, where `substr` yields the empty string as the
truncated subtraction does. -/
def parseString (s : List Char) : Token × Nat :=
  let start := 1
  let i := start + runLength (fun c => c != '"') (s.drop start)
  let i := if i < s.length then i + 1 else i
  (⟨.String, (s.drop start).take (i - start - 1)⟩, i)

/-- The method `Lexer::parseKeywordOrIdentifier` on the unread text `s`. -/
def parseKeywordOrIdentifier (s : List Char) : Token × Nat :=
  let n := runLength (fun c => isalnum c || c == '_') s
  let word := s.take n
  if word = "print".toList then (⟨.Print, word⟩, n) else (⟨.Identifier, word⟩, n)

/-- The body of `Lexer::nextToken` on the unread text `s`: the token and the
number of characters consumed.  `ws` is the white space skipped by the first
loop, `t` the text from there, and `r` the token found at `t` with the number
of characters of `t` it consumes.  The first argument bounds the depth of the
recursion through `parseComment`. -/
def nextTokenAux : Nat → List Char → Token × Nat
  | 0, _ => (⟨.End, []⟩, 0)
  | fuel + 1, s =>
    let ws := runLength isspace s
    let t := s.drop ws
    let r : Token × Nat :=
      match t with
      | [] => (⟨.End, []⟩, 0)
      | current :: _ =>
        if current = '/' ∧ charAt t 1 = '/' then
          -- parseComment
          let c := runLength (fun c => c != '\n') t
          let r := nextTokenAux fuel (t.drop c)
          (r.1, c + r.2)
        else if current = '"' then parseString t
        else if isdigit current ∨ (current = '-' ∧ isdigit (charAt t 1)) then parseNumber t
        else if isalpha current then parseKeywordOrIdentifier t
        else if current = '+' then (⟨.Plus, ['+']⟩, 1)
        else if current = '-' then (⟨.Minus, ['-']⟩, 1)
        else if current = '*' then (⟨.Star, ['*']⟩, 1)
        else if current = '/' then (⟨.Slash, ['/']⟩, 1)
        else if current = '=' then (⟨.Equals, ['=']⟩, 1)
        else if current = ';' then (⟨.Semicolon, [';']⟩, 1)
        else if current = '(' then (⟨.LParen, ['(']⟩, 1)
        else if current = ')' then (⟨.RParen, [')']⟩, 1)
        else if current = ',' then (⟨.Comma, [',']⟩, 1)
        else (⟨.Unknown, [current]⟩, 0)
    (r.1, ws + r.2)

/-- The method `Lexer::nextToken`: the token returned and the lexer afterwards.
Each pass through `parseComment` consumes at least the two slashes, so the
recursion is no deeper than the unread text is long. -/
def nextToken (L : Lexer) : Token × Lexer :=
  let r := nextTokenAux (L.rest.length + 1) L.rest
  (r.1, { L with index := L.index + r.2 })

/-- The first `n` tokens pulled from a lexer. -/
def tokens : Nat → Lexer → List Token
  | 0, _ => []
  | n + 1, L => (nextToken L).1 :: tokens n (nextToken L).2

/-- A fresh lexer on a source text (`Lexer(src)`). -/
def Lexer.new (src : List Char) : Lexer :=
  ⟨src, 0⟩

/-! ## Numbers, environment and interpreter state -/

/-- The `double` type as the program uses it: its four operations, the value
of a value-initialised `double`, `std::stod` (`none` when it throws) and the
text written by `oss << std::fixed << value`. -/
structure Arith where
  D : Type
  zero : D
  add : D → D → D
  sub : D → D → D
  mul : D → D → D
  div : D → D → D
  stod : List Char → Option D
  fixed : D → List Char

/-- The variable table `std::map<std::string, double>`, as the partial function
it represents. -/
abbrev Env (A : Arith) := List Char → Option A.D

/-- The empty table. -/
def Env.empty (A : Arith) : Env A :=
  fun _ => none

/-- The assignment `variables[name] = value`: insert or overwrite. -/
def Env.assign {A : Arith} (m : Env A) (name : List Char) (value : A.D) : Env A :=
  fun k => if k = name then some value else m k

/-- The read `variables[name]` through `std::map::operator[]`: the bound value;
for a name that is not bound, a value-initialised `double` is inserted under
that name and returned. -/
def Env.subscript {A : Arith} (m : Env A) (name : List Char) : A.D × Env A :=
  match m name with
  | some v => (v, m)
  | none => (A.zero, m.assign name A.zero)

/-- Messages written to `std::cerr`. -/
inductive Diag
  | unexpectedToken (value : List Char)
  | expected (want got : TokenType)
  | undefinedVariable (name : List Char)
  | expectedFactor
  deriving DecidableEq

/-- The interpreter state: the members of `Parser` (with the lexer it refers
to; `vars` is the member `variables`), the lines written to `std::cout` and
the messages written to `std::cerr`, oldest first. -/
structure Parser (A : Arith) where
  lexer : Lexer
  currentToken : Token
  vars : Env A
  out : List (List Char)
  err : List Diag

/-- How a run ends other than by returning. -/
inductive Halt
  | exit1
  | uncaughtException
  | outOfRange
  deriving DecidableEq

/-- Result of running a piece of the interpreter: it returns a value, or the
process ends, or the fuel of the model runs out; each with the interpreter
state at that moment. -/
inductive Result (A : Arith) (α : Type)
  | ok (a : α) (p : Parser A)
  | halted (h : Halt) (p : Parser A)
  | outOfFuel (p : Parser A)

/-- The constructor `Parser(lexer)`, generalised to a given variable table and
given earlier output: the current token is the first token pulled. -/
def Parser.load (A : Arith) (src : List Char) (vars : Env A) (out : List (List Char)) :
    Parser A :=
  let r := nextToken (Lexer.new src)
  { lexer := r.2, currentToken := r.1, vars := vars, out := out, err := [] }

/-- The interpreter as `main` sets it up on a source text. -/
def Parser.new (A : Arith) (src : List Char) : Parser A :=
  Parser.load A src (Env.empty A) []

/-! ## Parser and evaluator -/

/-- The method `Parser::eat`. -/
def eat {A : Arith} (ty : TokenType) (p : Parser A) : Result A Unit :=
  if p.currentToken.type = ty then
    let r := nextToken p.lexer
    .ok () { p with currentToken := r.1, lexer := r.2 }
  else
    .halted .exit1 { p with err := p.err ++ [.expected ty p.currentToken.type] }

/-- The call `str.find_last_not_of(c)`; `none` is `npos`. -/
def findLastNotOf (c : Char) (str : List Char) : Option Nat :=
  let k := runLength (fun d => d == c) str.reverse
  if k = str.length then none else some (str.length - 1 - k)

/-- The trailing-zero removal of `formatDouble` on the rendered text.  With `pos`
the index of the last character other than `'0'`: when that character is the
point, `pos--` followed by `erase(pos + 1)` keeps the first `pos` characters
(also for `pos == 0`, where the decrement wraps and `pos + 1` is `0` again);
otherwise `erase(pos + 1)` keeps the first `pos + 1`.  When there is no such
character, `str[npos]` is read out of range: `none`. -/
def stripZeros (str : List Char) : Option (List Char) :=
  match findLastNotOf '0' str with
  | none => none
  | some pos => if charAt str pos = '.' then some (str.take pos) else some (str.take (pos + 1))

/-- The method `Parser::formatDouble`. -/
def formatDouble (A : Arith) (value : A.D) : Option (List Char) :=
  stripZeros (A.fixed value)

/-- One sub-term of the display loop of `Parser::expression`: the first
`if / else if` chain of the loop body, on the text accumulated so far. -/
def displayTerm {A : Arith} (acc : List Char) (p : Parser A) : Result A (List Char) :=
  if p.currentToken.type = .String then
    match eat .String p with
    | .ok _ p1 => .ok (acc ++ p.currentToken.value) p1
    | .halted h p1 => .halted h p1
    | .outOfFuel q => .outOfFuel q
  else if p.currentToken.type = .Identifier then
    let r := p.vars.subscript p.currentToken.value
    let p0 := { p with vars := r.2 }
    match formatDouble A r.1 with
    | none => .halted .outOfRange p0
    | some text =>
      match eat .Identifier p0 with
      | .ok _ p1 => .ok (acc ++ text) p1
      | .halted h p1 => .halted h p1
      | .outOfFuel q => .outOfFuel q
  else if p.currentToken.type = .Number then
    match A.stod p.currentToken.value with
    | none => .halted .uncaughtException p
    | some value =>
      match formatDouble A value with
      | none => .halted .outOfRange p
      | some text =>
        match eat .Number p with
        | .ok _ p1 => .ok (acc ++ text) p1
        | .halted h p1 => .halted h p1
        | .outOfFuel q => .outOfFuel q
  else .ok acc p

/-- One iteration of the loop of `Parser::expression`: a sub-term, then the
comma skip. -/
def displayStep {A : Arith} (acc : List Char) (p : Parser A) : Result A (List Char) :=
  match displayTerm acc p with
  | .ok acc1 p1 =>
    if p1.currentToken.type = .Comma then
      match eat .Comma p1 with
      | .ok _ p2 => .ok acc1 p2
      | .halted h p2 => .halted h p2
      | .outOfFuel q => .outOfFuel q
    else .ok acc1 p1
  | .halted h p1 => .halted h p1
  | .outOfFuel q => .outOfFuel q

/-- The loop of `Parser::expression`, from the text accumulated so far in
`resultStream`. -/
def expressionLoop {A : Arith} : Nat → List Char → Parser A → Result A (List Char)
  | 0, _, p => .outOfFuel p
  | fuel + 1, acc, p =>
    if p.currentToken.type ≠ .End ∧ p.currentToken.type ≠ .Semicolon ∧
        p.currentToken.type ≠ .RParen then
      match displayStep acc p with
      | .ok acc1 p1 => expressionLoop fuel acc1 p1
      | .halted h p1 => .halted h p1
      | .outOfFuel q => .outOfFuel q
    else .ok acc p

/-- The method `Parser::expression` (the display expression). -/
def expression {A : Arith} (fuel : Nat) (p : Parser A) : Result A (List Char) :=
  expressionLoop fuel [] p

mutual

/-- The method `Parser::expressionAsDouble`. -/
def expressionAsDouble {A : Arith} : Nat → Parser A → Result A A.D
  | 0, p => .outOfFuel p
  | fuel + 1, p =>
    match termAsDouble fuel p with
    | .ok result p1 => exprLoop fuel result p1
    | .halted h p1 => .halted h p1
    | .outOfFuel q => .outOfFuel q

/-- The loop of `expressionAsDouble`, from the running `result`. -/
def exprLoop {A : Arith} : Nat → A.D → Parser A → Result A A.D
  | 0, _, p => .outOfFuel p
  | fuel + 1, result, p =>
    if p.currentToken.type = .Plus ∨ p.currentToken.type = .Minus then
      if p.currentToken.type = .Plus then
        match eat .Plus p with
        | .ok _ p1 =>
          match termAsDouble fuel p1 with
          | .ok t p2 => exprLoop fuel (A.add result t) p2
          | .halted h p2 => .halted h p2
          | .outOfFuel q => .outOfFuel q
        | .halted h p1 => .halted h p1
        | .outOfFuel q => .outOfFuel q
      else
        match eat .Minus p with
        | .ok _ p1 =>
          match termAsDouble fuel p1 with
          | .ok t p2 => exprLoop fuel (A.sub result t) p2
          | .halted h p2 => .halted h p2
          | .outOfFuel q => .outOfFuel q
        | .halted h p1 => .halted h p1
        | .outOfFuel q => .outOfFuel q
    else .ok result p

/-- The method `Parser::termAsDouble`. -/
def termAsDouble {A : Arith} : Nat → Parser A → Result A A.D
  | 0, p => .outOfFuel p
  | fuel + 1, p =>
    match factor fuel p with
    | .ok result p1 => termLoop fuel result p1
    | .halted h p1 => .halted h p1
    | .outOfFuel q => .outOfFuel q

/-- The loop of `termAsDouble`, from the running `result`. -/
def termLoop {A : Arith} : Nat → A.D → Parser A → Result A A.D
  | 0, _, p => .outOfFuel p
  | fuel + 1, result, p =>
    if p.currentToken.type = .Star ∨ p.currentToken.type = .Slash then
      if p.currentToken.type = .Star then
        match eat .Star p with
        | .ok _ p1 =>
          match factor fuel p1 with
          | .ok f p2 => termLoop fuel (A.mul result f) p2
          | .halted h p2 => .halted h p2
          | .outOfFuel q => .outOfFuel q
        | .halted h p1 => .halted h p1
        | .outOfFuel q => .outOfFuel q
      else
        match eat .Slash p with
        | .ok _ p1 =>
          match factor fuel p1 with
          | .ok f p2 => termLoop fuel (A.div result f) p2
          | .halted h p2 => .halted h p2
          | .outOfFuel q => .outOfFuel q
        | .halted h p1 => .halted h p1
        | .outOfFuel q => .outOfFuel q
    else .ok result p

/-- The method `Parser::factor`. -/
def factor {A : Arith} : Nat → Parser A → Result A A.D
  | 0, p => .outOfFuel p
  | fuel + 1, p =>
    if p.currentToken.type = .Number then
      match A.stod p.currentToken.value with
      | none => .halted .uncaughtException p
      | some value =>
        match eat .Number p with
        | .ok _ p1 => .ok value p1
        | .halted h p1 => .halted h p1
        | .outOfFuel q => .outOfFuel q
    else if p.currentToken.type = .Identifier then
      let varName := p.currentToken.value
      match eat .Identifier p with
      | .ok _ p1 =>
        match p1.vars varName with
        | some value => .ok value p1
        | none =>
          .halted .exit1 { p1 with err := p1.err ++ [.undefinedVariable varName] }
      | .halted h p1 => .halted h p1
      | .outOfFuel q => .outOfFuel q
    else if p.currentToken.type = .LParen then
      match eat .LParen p with
      | .ok _ p1 =>
        match expressionAsDouble fuel p1 with
        | .ok result p2 =>
          match eat .RParen p2 with
          | .ok _ p3 => .ok result p3
          | .halted h p3 => .halted h p3
          | .outOfFuel q => .outOfFuel q
        | .halted h p2 => .halted h p2
        | .outOfFuel q => .outOfFuel q
      | .halted h p1 => .halted h p1
      | .outOfFuel q => .outOfFuel q
    else
      .halted .exit1 { p with err := p.err ++ [.expectedFactor] }

end

/-- The print branch of the statement loop of `Parser::parse`. -/
def printStatement {A : Arith} (fuel : Nat) (p : Parser A) : Result A Unit :=
  match eat .Print p with
  | .ok _ p1 =>
    match eat .LParen p1 with
    | .ok _ p2 =>
      match expression fuel p2 with
      | .ok output p3 =>
        let p4 := { p3 with out := p3.out ++ [output] }
        match eat .RParen p4 with
        | .ok _ p5 => eat .Semicolon p5
        | .halted h p5 => .halted h p5
        | .outOfFuel q => .outOfFuel q
      | .halted h p3 => .halted h p3
      | .outOfFuel q => .outOfFuel q
    | .halted h p2 => .halted h p2
    | .outOfFuel q => .outOfFuel q
  | .halted h p1 => .halted h p1
  | .outOfFuel q => .outOfFuel q

/-- The assignment branch of the statement loop of `Parser::parse`. -/
def assignStatement {A : Arith} (fuel : Nat) (p : Parser A) : Result A Unit :=
  let varName := p.currentToken.value
  match eat .Identifier p with
  | .ok _ p1 =>
    match eat .Equals p1 with
    | .ok _ p2 =>
      match expressionAsDouble fuel p2 with
      | .ok value p3 =>
        eat .Semicolon { p3 with vars := p3.vars.assign varName value }
      | .halted h p3 => .halted h p3
      | .outOfFuel q => .outOfFuel q
    | .halted h p2 => .halted h p2
    | .outOfFuel q => .outOfFuel q
  | .halted h p1 => .halted h p1
  | .outOfFuel q => .outOfFuel q

/-- The method `Parser::parse`.  A return after the unexpected-token message is
a normal return whose state carries that message in `err`. -/
def parse {A : Arith} : Nat → Parser A → Result A Unit
  | 0, p => .outOfFuel p
  | fuel + 1, p =>
    if p.currentToken.type ≠ .End then
      if p.currentToken.type = .Print then
        match printStatement fuel p with
        | .ok _ p1 => parse fuel p1
        | .halted h p1 => .halted h p1
        | .outOfFuel q => .outOfFuel q
      else if p.currentToken.type = .Identifier then
        match assignStatement fuel p with
        | .ok _ p1 => parse fuel p1
        | .halted h p1 => .halted h p1
        | .outOfFuel q => .outOfFuel q
      else
        .ok () { p with err := p.err ++ [.unexpectedToken p.currentToken.value] }
    else .ok () p

/-! ## An exact arithmetic for concrete runs

The general theorems hold for every `Arith`.  To run concrete programs the
development uses `Exact.arith`: rational numbers extended by the negative
zero, the two infinities and a not-a-number value, decimal literals read
exactly, and the fixed rendering with six fractional digits.  On the values
used in the concrete runs below (small integers and halves, the two zeros) it
agrees with IEEE double arithmetic, which is exact there.  It has no rounding
to binary64, no overflow and no sign on the not-a-number value, so it stands
for the platform on those runs only; what is claimed of the program in general
is stated for every `Arith`. -/

/-- Values of the exact arithmetic.  `fin 0` is the positive zero and `negZero`
the negative zero of IEEE arithmetic. -/
inductive XNum
  | fin (q : ℚ)
  | inf (negative : Bool)
  | nan
  | negZero
  deriving DecidableEq

namespace Exact

/-- Sign test used by multiplication and division (`fin 0` is the positive
zero). -/
def isNeg (q : ℚ) : Bool :=
  decide (q < 0)

/-- The zero of the given sign. -/
def signedZero (negative : Bool) : XNum :=
  if negative then .negZero else .fin 0

/-- Addition; a sum of finite values that is zero is the positive zero, except
that the sum of two negative zeros is the negative zero. -/
def add : XNum → XNum → XNum
  | .fin a, .fin b => .fin (a + b)
  | .fin a, .negZero => .fin a
  | .negZero, .fin b => .fin b
  | .negZero, .negZero => .negZero
  | .fin _, .inf s => .inf s
  | .negZero, .inf s => .inf s
  | .inf s, .fin _ => .inf s
  | .inf s, .negZero => .inf s
  | .inf s, .inf t => if s = t then .inf s else .nan
  | _, _ => .nan

/-- Negation. -/
def neg : XNum → XNum
  | .fin a => if a = 0 then .negZero else .fin (-a)
  | .negZero => .fin 0
  | .inf s => .inf (!s)
  | .nan => .nan

/-- Subtraction. -/
def sub (x y : XNum) : XNum :=
  add x (neg y)

/-- Multiplication; the sign of a zero product is the product of the signs. -/
def mul : XNum → XNum → XNum
  | .fin a, .fin b =>
    if a = 0 ∨ b = 0 then signedZero (xor (isNeg a) (isNeg b)) else .fin (a * b)
  | .fin a, .negZero => signedZero (!isNeg a)
  | .negZero, .fin b => signedZero (!isNeg b)
  | .negZero, .negZero => .fin 0
  | .fin a, .inf s => if a = 0 then .nan else .inf (xor (isNeg a) s)
  | .inf s, .fin b => if b = 0 then .nan else .inf (xor s (isNeg b))
  | .inf s, .inf t => .inf (xor s t)
  | _, _ => .nan

/-- Division; a finite non-zero value divided by a zero is an infinity, a zero
divided by a zero is not a number, and the sign of a zero quotient is the
quotient of the signs. -/
def div : XNum → XNum → XNum
  | .fin a, .fin b =>
    if b = 0 then (if a = 0 then .nan else .inf (isNeg a))
    else if a = 0 then signedZero (isNeg b) else .fin (a / b)
  | .fin a, .negZero => if a = 0 then .nan else .inf (!isNeg a)
  | .negZero, .fin b => if b = 0 then .nan else signedZero (!isNeg b)
  | .negZero, .negZero => .nan
  | .fin a, .inf s => signedZero (xor (isNeg a) s)
  | .negZero, .inf s => signedZero (!s)
  | .inf s, .fin b => .inf (xor s (isNeg b))
  | .inf s, .negZero => .inf (!s)
  | _, _ => .nan

/-- Value of a run of decimal digits. -/
def digitsValue (ds : List Char) : Nat :=
  ds.foldl (fun n c => 10 * n + (c.toNat - 48)) 0

/-- Value of an unsigned decimal literal `digits` or `digits.digits`. -/
def unsignedValue (s : List Char) : Option ℚ :=
  let ip := s.takeWhile isdigit
  match ip, s.dropWhile isdigit with
  | [], _ => none
  | _ :: _, [] => some (digitsValue ip : ℚ)
  | _ :: _, '.' :: fr =>
    if fr.all isdigit then
      some ((digitsValue ip : ℚ) + (digitsValue fr : ℚ) / ((10 ^ fr.length : Nat) : ℚ))
    else none
  | _ :: _, _ :: _ => none

/-- The conversion `std::stod` on the texts of Number tokens: an optional minus
sign and a decimal literal, read exactly; a zero literal with the minus sign
is the negative zero. -/
def stod : List Char → Option XNum
  | '-' :: s => (unsignedValue s).map (fun q => if q = 0 then .negZero else .fin (-q))
  | s => (unsignedValue s).map (fun q => .fin q)

/-- Nearest integer to `n / d`, ties to even. -/
def roundHalfEven (n d : Nat) : Nat :=
  let q := n / d
  let r := n % d
  if 2 * r < d then q
  else if d < 2 * r then q + 1
  else if q % 2 = 0 then q else q + 1

/-- Six fractional digits of a value below one million, zero padded. -/
def sixDigits (f : Nat) : List Char :=
  let ds := Nat.toDigits 10 f
  List.replicate (6 - ds.length) '0' ++ ds

/-- The rendering `oss << std::fixed << value` (precision six). -/
def fixed : XNum → List Char
  | .fin q =>
    let scaled := roundHalfEven (q.num.natAbs * 1000000) q.den
    (if isNeg q then ['-'] else []) ++ Nat.toDigits 10 (scaled / 1000000) ++ ['.'] ++
      sixDigits (scaled % 1000000)
  | .inf s => (if s then ['-'] else []) ++ "inf".toList
  | .nan => "nan".toList
  | .negZero => "-0.000000".toList

/-- The exact arithmetic. -/
def arith : Arith where
  D := XNum
  zero := .fin 0
  add := add
  sub := sub
  mul := mul
  div := div
  stod := stod
  fixed := fixed

end Exact

instance : DecidableEq Exact.arith.D :=
  inferInstanceAs (DecidableEq XNum)

/-- Run a whole program text in the exact arithmetic, as `main` does. -/
def run (fuel : Nat) (src : String) : Result Exact.arith Unit :=
  parse fuel (Parser.new Exact.arith src.toList)

/-- The `std::cout` lines of a result (`none` when the fuel ran out). -/
def Result.output {A : Arith} {α : Type} : Result A α → Option (List (List Char))
  | .ok _ p => some p.out
  | .halted _ p => some p.out
  | .outOfFuel _ => none

/-- The value bound to a name when the run returned normally. -/
def Result.lookup {A : Arith} {α : Type} (r : Result A α) (name : List Char) : Option A.D :=
  match r with
  | .ok _ p => p.vars name
  | _ => none

/-- How the run ended: `some none` for a normal return, `some (some h)` when the
process ended by `h`, `none` when the fuel ran out. -/
def Result.ending {A : Arith} {α : Type} : Result A α → Option (Option Halt)
  | .ok _ _ => some none
  | .halted h _ => some (some h)
  | .outOfFuel _ => none

/-! ## Pure view of the lexer -/

/-- One call of `nextToken` seen on the unread text alone: the token and the
text left unread. -/
def lexStep (s : List Char) : Token × List Char :=
  let r := nextTokenAux (s.length + 1) s
  (r.1, s.drop r.2)

/-- A character of an identifier after its first: letter, digit or underscore. -/
def wordChar (c : Char) : Bool :=
  isalnum c || c == '_'

/-- A word: a letter followed by letters, digits and underscores. -/
def isWord : List Char → Bool
  | [] => false
  | c :: cs => isalpha c && cs.all wordChar

/-- An identifier of the language: a word other than the keyword `print`. -/
def isIdentifier (w : List Char) : Bool :=
  isWord w && decide (w ≠ "print".toList)

/-- A character of a numeric literal: digit or point. -/
def numberChar (c : Char) : Bool :=
  isdigit c || c == '.'

/-- A non-negative numeric literal: it begins with a digit and consists of
digits and at most one point. -/
def isLiteral : List Char → Bool
  | [] => false
  | c :: cs => isdigit c && cs.all numberChar && decide (cs.count '.' ≤ 1)

/-- The interpreter state after the current token has been consumed: the next
token is pulled from the lexer (the success branch of `eat`). -/
def Parser.advance {A : Arith} (p : Parser A) : Parser A :=
  { p with currentToken := (nextToken p.lexer).1, lexer := (nextToken p.lexer).2 }

/-- A text without its trailing zeros. -/
def dropTrailingZeros (s : List Char) : List Char :=
  (s.reverse.dropWhile (fun c => c == '0')).reverse

/-- The plain decimal numeral of an integer. -/
def numeral (n : ℤ) : List Char :=
  (if n < 0 then ['-'] else []) ++ Nat.toDigits 10 n.natAbs

/-- Only white space and comments remain: the text consists of white space
characters and `//` comments, each running to the end of its line or to the
end of the text. -/
inductive OnlyBlank : List Char → Prop
  | nil : OnlyBlank []
  | space (c : Char) (s : List Char) : isspace c = true → OnlyBlank s → OnlyBlank (c :: s)
  | commentToEnd (c : List Char) : '\n' ∉ c → OnlyBlank ('/' :: '/' :: c)
  | commentLine (c s : List Char) : '\n' ∉ c → OnlyBlank s →
      OnlyBlank ('/' :: '/' :: (c ++ '\n' :: s))

/-- The `std::cerr` messages of a result (`none` when the fuel ran out). -/
def Result.errors {A : Arith} {α : Type} : Result A α → Option (List Diag)
  | .ok _ p => some p.err
  | .halted _ p => some p.err
  | .outOfFuel _ => none

/-- The arithmetic operator kinds. -/
def isOperator (ty : TokenType) : Bool :=
  ty = .Plus || ty = .Minus || ty = .Star || ty = .Slash


/-- A non-empty run of decimal digits. -/
def isDigits : List Char → Bool
  | [] => false
  | c :: cs => isdigit c && cs.all isdigit

/-- The operation an operator character stands for. -/
def applyOp (A : Arith) (op : Char) : A.D → A.D → A.D :=
  if op = '+' then A.add else if op = '-' then A.sub else if op = '*' then A.mul else A.div

/-- Text of the further operands of a chain `t1 op1 t2 op2 ... tn`: each operand
preceded by a blank, its operator and a blank. -/
def chainText : List (Char × List Char) → List Char
  | [] => []
  | (op, lit) :: rest => ' ' :: op :: ' ' :: (lit ++ chainText rest)

/-- The value of a chain folded from the left, starting from the value of the
first operand; `none` when `std::stod` throws on an operand. -/
def chainValue (A : Arith) (v : A.D) : List (Char × List Char) → Option A.D
  | [] => some v
  | (op, lit) :: rest =>
    match A.stod lit with
    | none => none
    | some w => chainValue A (applyOp A op v w) rest

/-! # Properties -/

/-! ## Scanning loops -/

theorem runLength_nil (p : Char → Bool) : runLength p [] = 0 := rfl

theorem runLength_cons_pos {p : Char → Bool} {c : Char} (h : p c = true) (s : List Char) :
    runLength p (c :: s) = runLength p s + 1 := by
  simp [runLength, List.takeWhile, h]

theorem runLength_cons_neg {p : Char → Bool} {c : Char} (h : p c = false) (s : List Char) :
    runLength p (c :: s) = 0 := by
  simp [runLength, List.takeWhile, h]

theorem runLength_le (p : Char → Bool) (s : List Char) : runLength p s ≤ s.length := by
  induction s with
  | nil => simp [runLength]
  | cons c s ih =>
    by_cases h : p c = true
    · rw [runLength_cons_pos h]; simp; exact ih
    · rw [runLength_cons_neg (by simpa using h)]; simp

/-- A run of characters satisfying `p`, followed by the end of the text or by a
character that does not, is consumed exactly. -/
theorem runLength_append {p : Char → Bool} (w r : List Char) (hw : ∀ c ∈ w, p c = true)
    (hr : ∀ c ∈ r.head?, p c = false) : runLength p (w ++ r) = w.length := by
  induction w with
  | nil =>
    cases r with
    | nil => rfl
    | cons d r => simpa using runLength_cons_neg (hr d (by simp)) r
  | cons c w ih =>
    rw [List.cons_append, runLength_cons_pos (hw c (by simp))]
    simp [ih (fun d hd => hw d (by simp [hd]))]

/-- The text left after a run starts with a character that ends the run. -/
theorem head_drop_runLength (p : Char → Bool) (s : List Char) :
    ∀ c ∈ (s.drop (runLength p s)).head?, p c = false := by
  induction s with
  | nil => simp [runLength]
  | cons d s ih =>
    by_cases h : p d = true
    · rw [runLength_cons_pos h]; simpa using ih
    · have h' : p d = false := by simpa using h
      rw [runLength_cons_neg h']; simpa using h'

/-! ## The recursion through comments is bounded -/

theorem two_le_comment_run (s : List Char) :
    2 ≤ runLength (fun c => c != '\n') ('/' :: '/' :: s) := by
  rw [runLength_cons_pos (by decide), runLength_cons_pos (by decide)]
  omega

theorem charAt_one_cons (c : Char) (s : List Char) : charAt (c :: s) 1 = s.headD '\x00' := by
  cases s <;> simp [charAt]

/-- The result of `nextTokenAux` does not depend on the bound once the bound
exceeds the length of the text. -/
theorem nextTokenAux_bound (n : Nat) : ∀ (s : List Char) (f g : Nat), s.length ≤ n →
    s.length < f → s.length < g → nextTokenAux f s = nextTokenAux g s := by
  induction n using Nat.strong_induction_on with
  | _ n ih =>
    intro s f g hn hf hg
    obtain ⟨f, rfl⟩ : ∃ k, f = k + 1 := ⟨f - 1, by omega⟩
    obtain ⟨g, rfl⟩ : ∃ k, g = k + 1 := ⟨g - 1, by omega⟩
    simp only [nextTokenAux]
    cases ht : s.drop (runLength isspace s) with
    | nil => rfl
    | cons current t =>
      simp only []
      have hlen : (current :: t).length ≤ s.length := by
        rw [← ht]; simp
      by_cases hc : current = '/' ∧ charAt (current :: t) 1 = '/'
      · rw [if_pos hc, if_pos hc]
        obtain ⟨rfl, h2⟩ := hc
        rw [charAt_one_cons] at h2
        cases t with
        | nil => simp at h2
        | cons d t =>
          simp at h2
          subst h2
          have h2le := two_le_comment_run t
          have hdrop : (List.drop (runLength (fun c => c != '\n') ('/' :: '/' :: t))
              ('/' :: '/' :: t)).length ≤ s.length - 2 := by
            simp only [List.length_drop]
            simp only [List.length_cons] at hlen ⊢
            omega
          simp only [List.length_cons] at hlen
          rw [ih (s.length - 2) (by omega) _ f g hdrop (by omega) (by omega)]
      · rw [if_neg hc, if_neg hc]

theorem nextTokenAux_eq (s : List Char) (f : Nat) (hf : s.length < f) :
    nextTokenAux f s = nextTokenAux (s.length + 1) s :=
  nextTokenAux_bound s.length s f _ le_rfl hf (by omega)

/-! ## One lexer step on texts of a known shape -/

theorem nextToken_fst (L : Lexer) : (nextToken L).1 = (lexStep L.rest).1 := rfl

theorem nextToken_snd_rest (L : Lexer) : (nextToken L).2.rest = (lexStep L.rest).2 := by
  simp [nextToken, Lexer.rest, lexStep, List.drop_drop]

theorem nextToken_snd_src (L : Lexer) : (nextToken L).2.src = L.src := rfl

theorem rest_new (src : List Char) : (Lexer.new src).rest = src := rfl

theorem nextTokenAux_space {c : Char} (hc : isspace c = true) (f : Nat) (s : List Char) :
    nextTokenAux (f + 1) (c :: s) =
      ((nextTokenAux (f + 1) s).1, (nextTokenAux (f + 1) s).2 + 1) := by
  simp only [nextTokenAux, runLength_cons_pos hc, List.drop_succ_cons, Prod.mk.injEq, true_and]
  omega

theorem lexStep_nil : lexStep [] = (⟨.End, []⟩, []) := rfl

theorem lexStep_space {c : Char} (hc : isspace c = true) (s : List Char) :
    lexStep (c :: s) = lexStep s := by
  unfold lexStep
  simp only [List.length_cons]
  rw [nextTokenAux_space hc, nextTokenAux_eq s (s.length + 1 + 1) (by omega)]
  simp

/-- Unfolding of `nextTokenAux` on a text that starts with a character other
than white space. -/
theorem nextTokenAux_cons {c : Char} (hc : isspace c = false) (f : Nat) (s : List Char) :
    nextTokenAux (f + 1) (c :: s) =
      if c = '/' ∧ charAt (c :: s) 1 = '/' then
        ((nextTokenAux f ((c :: s).drop (runLength (fun c => c != '\n') (c :: s)))).1,
          runLength (fun c => c != '\n') (c :: s) +
            (nextTokenAux f ((c :: s).drop (runLength (fun c => c != '\n') (c :: s)))).2)
      else if c = '"' then parseString (c :: s)
      else if isdigit c ∨ (c = '-' ∧ isdigit (charAt (c :: s) 1)) then parseNumber (c :: s)
      else if isalpha c then parseKeywordOrIdentifier (c :: s)
      else if c = '+' then (⟨.Plus, ['+']⟩, 1)
      else if c = '-' then (⟨.Minus, ['-']⟩, 1)
      else if c = '*' then (⟨.Star, ['*']⟩, 1)
      else if c = '/' then (⟨.Slash, ['/']⟩, 1)
      else if c = '=' then (⟨.Equals, ['=']⟩, 1)
      else if c = ';' then (⟨.Semicolon, [';']⟩, 1)
      else if c = '(' then (⟨.LParen, ['(']⟩, 1)
      else if c = ')' then (⟨.RParen, [')']⟩, 1)
      else if c = ',' then (⟨.Comma, [',']⟩, 1)
      else (⟨.Unknown, [c]⟩, 0) := by
  simp only [nextTokenAux, runLength_cons_neg hc, List.drop_zero, Nat.zero_add]

theorem lexStep_plus (s : List Char) : lexStep ('+' :: s) = (⟨.Plus, ['+']⟩, s) := by
  unfold lexStep
  rw [List.length_cons, nextTokenAux_cons (by decide)]
  simp [isdigit, isalpha]

theorem lexStep_star (s : List Char) : lexStep ('*' :: s) = (⟨.Star, ['*']⟩, s) := by
  unfold lexStep
  rw [List.length_cons, nextTokenAux_cons (by decide)]
  simp [isdigit, isalpha]

theorem lexStep_equals (s : List Char) : lexStep ('=' :: s) = (⟨.Equals, ['=']⟩, s) := by
  unfold lexStep
  rw [List.length_cons, nextTokenAux_cons (by decide)]
  simp [isdigit, isalpha]

theorem lexStep_semicolon (s : List Char) :
    lexStep (';' :: s) = (⟨.Semicolon, [';']⟩, s) := by
  unfold lexStep
  rw [List.length_cons, nextTokenAux_cons (by decide)]
  simp [isdigit, isalpha]

theorem lexStep_lparen (s : List Char) : lexStep ('(' :: s) = (⟨.LParen, ['(']⟩, s) := by
  unfold lexStep
  rw [List.length_cons, nextTokenAux_cons (by decide)]
  simp [isdigit, isalpha]

theorem lexStep_rparen (s : List Char) : lexStep (')' :: s) = (⟨.RParen, [')']⟩, s) := by
  unfold lexStep
  rw [List.length_cons, nextTokenAux_cons (by decide)]
  simp [isdigit, isalpha]

theorem lexStep_minus (s : List Char) (hs : ∀ c ∈ s.head?, isdigit c = false) :
    lexStep ('-' :: s) = (⟨.Minus, ['-']⟩, s) := by
  have h : isdigit (s.headD '\x00') = false := by
    cases s with
    | nil => decide
    | cons d s => simpa using hs d (by simp)
  unfold lexStep
  rw [List.length_cons, nextTokenAux_cons (by decide), charAt_one_cons,
    if_neg (fun h => absurd h.1 (by decide)), if_neg (by decide),
    if_neg (by rw [h]; decide), if_neg (by decide), if_neg (by decide), if_pos rfl]
  rfl

theorem lexStep_slash (s : List Char) (hs : ∀ c ∈ s.head?, c ≠ '/') :
    lexStep ('/' :: s) = (⟨.Slash, ['/']⟩, s) := by
  have h : s.headD '\x00' ≠ '/' := by
    cases s with
    | nil => decide
    | cons d s => simpa using hs d (by simp)
  unfold lexStep
  rw [List.length_cons, nextTokenAux_cons (by decide), charAt_one_cons,
    if_neg (fun h' => h h'.2), if_neg (by decide),
    if_neg (fun h' => by rcases h' with h' | h'; exact absurd h' (by decide);
                         exact absurd h'.1 (by decide)),
    if_neg (by decide), if_neg (by decide), if_neg (by decide), if_neg (by decide),
    if_pos rfl]
  rfl

/-- A comment is skipped: the step continues from the end of its line. -/
theorem lexStep_comment (t : List Char) :
    lexStep ('/' :: '/' :: t) =
      lexStep (('/' :: '/' :: t).drop (runLength (fun c => c != '\n') ('/' :: '/' :: t))) := by
  have h2 := two_le_comment_run t
  have hle := runLength_le (fun c => c != '\n') ('/' :: '/' :: t)
  unfold lexStep
  rw [List.length_cons, nextTokenAux_cons (by decide), if_pos ⟨rfl, by simp [charAt]⟩]
  simp only [List.length_cons] at hle
  rw [nextTokenAux_eq _ (('/' :: t).length + 1)
    (by simp only [List.length_drop, List.length_cons]; omega)]
  simp only [List.drop_drop]

theorem lexStep_comment_line (c s : List Char) (hc : '\n' ∉ c) :
    lexStep ('/' :: '/' :: (c ++ '\n' :: s)) = lexStep s := by
  have hrun : runLength (fun c => c != '\n') ('/' :: '/' :: (c ++ '\n' :: s)) = c.length + 2 := by
    rw [runLength_cons_pos (by decide), runLength_cons_pos (by decide), runLength_append]
    · intro d hd
      have : d ≠ '\n' := fun h => hc (h ▸ hd)
      simpa using this
    · simp
  rw [lexStep_comment, hrun]
  have : List.drop (c.length + 2) ('/' :: '/' :: (c ++ '\n' :: s)) = '\n' :: s := by
    simp
  rw [this, lexStep_space (by decide)]

theorem lexStep_comment_end (c : List Char) (hc : '\n' ∉ c) :
    lexStep ('/' :: '/' :: c) = (⟨.End, []⟩, []) := by
  have hrun : runLength (fun c => c != '\n') ('/' :: '/' :: c) = c.length + 2 := by
    rw [runLength_cons_pos (by decide), runLength_cons_pos (by decide)]
    have := runLength_append (p := fun c => c != '\n') c [] (by
      intro d hd
      have : d ≠ '\n' := fun h => hc (h ▸ hd)
      simpa using this) (by simp)
    simpa using this
  rw [lexStep_comment, hrun]
  have : List.drop (c.length + 2) ('/' :: '/' :: c) = [] := by simp
  rw [this, lexStep_nil]

/-! ### Words, literals, strings -/

theorem isWord_cons {c : Char} {cs : List Char} (h : isWord (c :: cs) = true) :
    isalpha c = true ∧ ∀ d ∈ cs, wordChar d = true := by
  simpa [isWord] using h

theorem isalpha_facts {c : Char} (h : isalpha c = true) :
    isspace c = false ∧ isdigit c = false ∧ c ≠ '/' ∧ c ≠ '"' ∧ c ≠ '-' ∧
      wordChar c = true := by
  have e1 : ('/' : Char).toNat = 47 := rfl
  have e2 : ('"' : Char).toNat = 34 := rfl
  have e3 : ('-' : Char).toNat = 45 := rfl
  simp only [isalpha, Bool.or_eq_true, Bool.and_eq_true, decide_eq_true_eq] at h
  refine ⟨?_, ?_, ?_, ?_, ?_, ?_⟩
  · simp only [isspace, Bool.or_eq_false_iff, Bool.and_eq_false_iff, decide_eq_false_iff_not]
    omega
  · simp only [isdigit, Bool.and_eq_false_iff, decide_eq_false_iff_not]
    omega
  · rintro rfl; omega
  · rintro rfl; omega
  · rintro rfl; omega
  · simp only [wordChar, isalnum, isalpha, Bool.or_eq_true, Bool.and_eq_true, decide_eq_true_eq]
    omega

/-- A word followed by a character that cannot continue it is one token: the
keyword when it is `print`, an identifier otherwise. -/
theorem lexStep_word (w r : List Char) (hw : isWord w = true)
    (hr : ∀ c ∈ r.head?, wordChar c = false) :
    lexStep (w ++ r) =
      (if w = "print".toList then ⟨.Print, w⟩ else ⟨.Identifier, w⟩, r) := by
  cases w with
  | nil => simp [isWord] at hw
  | cons c cs =>
    obtain ⟨hc, hcs⟩ := isWord_cons hw
    obtain ⟨h1, h2, h3, h4, h5, h6⟩ := isalpha_facts hc
    have hrun : runLength (fun c => isalnum c || c == '_') (c :: cs ++ r) = (c :: cs).length :=
      runLength_append (c :: cs) r (by
        intro d hd
        rcases List.mem_cons.1 hd with rfl | hd
        · exact h6
        · exact hcs d hd) hr
    unfold lexStep
    rw [List.cons_append, List.length_cons, nextTokenAux_cons h1]
    simp only [h3, h4, h5, h2, hc, false_and, if_false, if_true, or_self, Bool.false_eq_true]
    rw [← List.cons_append]
    simp only [parseKeywordOrIdentifier, hrun, List.take_left']
    split <;> simp

theorem lexStep_identifier (w r : List Char) (hw : isIdentifier w = true)
    (hr : ∀ c ∈ r.head?, wordChar c = false) :
    lexStep (w ++ r) = (⟨.Identifier, w⟩, r) := by
  simp only [isIdentifier, Bool.and_eq_true, decide_eq_true_eq] at hw
  rw [lexStep_word w r hw.1 hr, if_neg hw.2]

/-- The loop of `parseNumber` consumes a run of digits and points exactly when
the run has no second point and is followed by the end of the text or by a
character that is neither. -/
theorem numberLoop_append (w r : List Char) (hr : ∀ c ∈ r.head?, numberChar c = false) :
    ∀ hasDecimal : Bool, (∀ c ∈ w, numberChar c = true) →
      w.count '.' + (if hasDecimal then 1 else 0) ≤ 1 →
      numberLoop (w ++ r) hasDecimal = w.length := by
  induction w with
  | nil =>
    intro hasDecimal _ _
    cases r with
    | nil => rfl
    | cons d r =>
      have hd : (isdigit d || d == '.') = false := hr d (by simp)
      simp [numberLoop, hd]
  | cons c w ih =>
    intro hasDecimal hw hcount
    have hc : (isdigit c || c == '.') = true := hw c (by simp)
    have hw' : ∀ d ∈ w, numberChar d = true := fun d hd => hw d (by simp [hd])
    rw [List.cons_append, numberLoop, if_pos hc]
    by_cases hdot : c = '.'
    · subst hdot
      rw [List.count_cons_self] at hcount
      have hfalse : hasDecimal = false := by
        cases hasDecimal
        · rfl
        · simp at hcount
      subst hfalse
      rw [if_pos (by decide), if_neg (by decide), ih true hw' (by simpa using hcount)]
      simp [Nat.add_comm]
    · rw [List.count_cons_of_ne (Ne.symm hdot)] at hcount
      rw [if_neg (by simpa using hdot), ih hasDecimal hw' hcount]
      simp [Nat.add_comm]

theorem isdigit_facts {c : Char} (h : isdigit c = true) :
    isspace c = false ∧ c ≠ '/' ∧ c ≠ '"' ∧ c ≠ '-' ∧ c ≠ '.' ∧ numberChar c = true := by
  have e1 : ('/' : Char).toNat = 47 := rfl
  have e2 : ('"' : Char).toNat = 34 := rfl
  have e3 : ('-' : Char).toNat = 45 := rfl
  have e4 : ('.' : Char).toNat = 46 := rfl
  have h' := h
  simp only [isdigit, Bool.and_eq_true, decide_eq_true_eq] at h
  refine ⟨?_, ?_, ?_, ?_, ?_, ?_⟩
  · simp only [isspace, Bool.or_eq_false_iff, Bool.and_eq_false_iff, decide_eq_false_iff_not]
    omega
  · rintro rfl; omega
  · rintro rfl; omega
  · rintro rfl; omega
  · rintro rfl; omega
  · simp [numberChar, h']

/-- A non-negative literal followed by a character that cannot continue it is
one Number token whose payload is the literal. -/
theorem lexStep_literal (a r : List Char) (ha : isLiteral a = true)
    (hr : ∀ c ∈ r.head?, numberChar c = false) :
    lexStep (a ++ r) = (⟨.Number, a⟩, r) := by
  cases a with
  | nil => simp [isLiteral] at ha
  | cons c cs =>
    simp only [isLiteral, Bool.and_eq_true, decide_eq_true_eq, List.all_eq_true] at ha
    obtain ⟨⟨hc, hcs⟩, hcount⟩ := ha
    obtain ⟨h1, h2, h3, h4, h5, h6⟩ := isdigit_facts hc
    have hloop : numberLoop (c :: cs ++ r) false = (c :: cs).length :=
      numberLoop_append (c :: cs) r hr false (by
        intro d hd
        rcases List.mem_cons.1 hd with rfl | hd
        · exact h6
        · exact hcs d hd) (by
        rw [List.count_cons_of_ne (Ne.symm h5)]
        simpa using hcount)
    unfold lexStep
    rw [List.cons_append, List.length_cons, nextTokenAux_cons h1,
      if_neg (fun h => h2 h.1), if_neg h3, if_pos (Or.inl hc)]
    rw [← List.cons_append]
    have h0 : charAt (c :: cs ++ r) 0 = c := rfl
    simp only [parseNumber, h0, if_neg h4, List.drop_zero, hloop, Nat.zero_add,
      List.take_left', List.drop_left']

theorem lexStep_identifier_then (x : List Char) (d : Char) (r : List Char)
    (hx : isIdentifier x = true) (hd : wordChar d = false) :
    lexStep (x ++ d :: r) = (⟨.Identifier, x⟩, d :: r) :=
  lexStep_identifier x (d :: r) hx (by simpa using hd)

theorem lexStep_literal_then (a : List Char) (d : Char) (r : List Char)
    (ha : isLiteral a = true) (hd : numberChar d = false) :
    lexStep (a ++ d :: r) = (⟨.Number, a⟩, d :: r) :=
  lexStep_literal a (d :: r) ha (by simpa using hd)

theorem lexStep_blank_then {s r : List Char} {tok : Token}
    (h : lexStep s = (tok, r)) : lexStep (' ' :: s) = (tok, r) := by
  rw [lexStep_space (by decide), h]

theorem lexStep_print (d : Char) (r : List Char) (hd : wordChar d = false) :
    lexStep ('p' :: 'r' :: 'i' :: 'n' :: 't' :: d :: r) = (⟨.Print, "print".toList⟩, d :: r) := by
  have h := lexStep_word "print".toList (d :: r) (by decide) (by simpa using hd)
  rw [if_pos rfl] at h
  exact h

/-- The tokens pulled from a lexer depend on its unread text only. -/
theorem tokens_congr (n : Nat) : ∀ L L' : Lexer, L.rest = L'.rest → tokens n L = tokens n L' := by
  induction n with
  | zero => intro _ _ _; rfl
  | succ n ih =>
    intro L L' h
    simp only [tokens, nextToken_fst, h]
    rw [ih (nextToken L).2 (nextToken L').2 (by rw [nextToken_snd_rest, nextToken_snd_rest, h])]

theorem tokens_succ (n : Nat) (L : Lexer) :
    tokens (n + 1) L = (lexStep L.rest).1 :: tokens n (nextToken L).2 := rfl

/-- From an exhausted text every pull is `End`. -/
theorem tokens_of_rest_nil (n : Nat) : ∀ L : Lexer, L.rest = [] →
    tokens n L = List.replicate n ⟨.End, []⟩ := by
  induction n with
  | zero => intro _ _; rfl
  | succ n ih =>
    intro L h
    rw [tokens_succ, h, lexStep_nil, ih _ (by rw [nextToken_snd_rest, h, lexStep_nil])]
    rfl

theorem ite_ind {α : Type} (P : α → Prop) (c : Prop) [Decidable c] (a b : α)
    (ha : P a) (hb : P b) : P (if c then a else b) := by
  split <;> assumption

theorem parseKeywordOrIdentifier_type (s : List Char) :
    (parseKeywordOrIdentifier s).1.type ≠ .End :=
  ite_ind (fun r : Token × Nat => r.1.type ≠ .End) _ _ _
    (fun h => TokenType.noConfusion h) (fun h => TokenType.noConfusion h)

/-- A text that starts with something other than white space or a comment does
not yield `End`. -/
theorem lexStep_cons_type {c : Char} (hc : isspace c = false) (s : List Char)
    (hcomment : ¬ (c = '/' ∧ charAt (c :: s) 1 = '/')) :
    (lexStep (c :: s)).1.type ≠ .End := by
  unfold lexStep
  rw [List.length_cons, nextTokenAux_cons hc, if_neg hcomment]
  refine ite_ind (fun r : Token × Nat => r.1.type ≠ .End) _ _ _
    (fun h => TokenType.noConfusion h) ?_
  refine ite_ind (fun r : Token × Nat => r.1.type ≠ .End) _ _ _
    (fun h => TokenType.noConfusion h) ?_
  refine ite_ind (fun r : Token × Nat => r.1.type ≠ .End) _ _ _
    (parseKeywordOrIdentifier_type _) ?_
  iterate 9
    refine ite_ind (fun r : Token × Nat => r.1.type ≠ .End) _ _ _
      (fun h => TokenType.noConfusion h) ?_
  exact fun h => TokenType.noConfusion h

theorem drop_runLength (p : Char → Bool) (s : List Char) :
    s.drop (runLength p s) = s.dropWhile p := by
  induction s with
  | nil => rfl
  | cons c s ih =>
    by_cases h : p c = true
    · rw [runLength_cons_pos h, List.drop_succ_cons, ih, List.dropWhile_cons_of_pos h]
    · rw [runLength_cons_neg (by simpa using h), List.drop_zero, List.dropWhile_cons_of_neg h]

/-- Shape of a text that starts with `//`: the comment text without newline,
then the end of the text or a newline. -/
theorem comment_shape (t : List Char) :
    ∃ c r, '\n' ∉ c ∧ t = c ++ r ∧ (r = [] ∨ ∃ r', r = '\n' :: r') ∧
      ('/' :: '/' :: t).drop (runLength (fun c => c != '\n') ('/' :: '/' :: t)) = r := by
  refine ⟨t.takeWhile (fun c => c != '\n'), t.dropWhile (fun c => c != '\n'), ?_, ?_, ?_, ?_⟩
  · intro h
    have := List.mem_takeWhile_imp h
    simp at this
  · exact (List.takeWhile_append_dropWhile _ t).symm
  · have hh := head_drop_runLength (fun c => c != '\n') t
    rw [drop_runLength] at hh
    cases hd : t.dropWhile (fun c => c != '\n') with
    | nil => exact Or.inl rfl
    | cons d r' =>
      right
      rw [hd] at hh
      have : d = '\n' := by simpa using hh d (by simp)
      exact ⟨r', by rw [this]⟩
  · rw [runLength_cons_pos (by decide), runLength_cons_pos (by decide), List.drop_succ_cons,
      List.drop_succ_cons, drop_runLength]

theorem charAt_one_eq_slash {c : Char} {s : List Char} (h : charAt (c :: s) 1 = '/') :
    ∃ t, s = '/' :: t := by
  rw [charAt_one_cons] at h
  cases s with
  | nil => exact absurd h (by decide)
  | cons d t => exact ⟨t, by simp at h; rw [h]⟩

/-- When a step returns `End`, the token has the empty payload and nothing is
left unread. -/
theorem lexStep_end (n : Nat) : ∀ s : List Char, s.length ≤ n → (lexStep s).1.type = .End →
    lexStep s = (⟨.End, []⟩, []) := by
  induction n using Nat.strong_induction_on with
  | _ n ih =>
    intro s hn h
    cases s with
    | nil => rfl
    | cons c s =>
      simp only [List.length_cons] at hn
      by_cases hc : isspace c = true
      · rw [lexStep_space hc] at h ⊢
        exact ih (n - 1) (by omega) s (by omega) h
      · have hc' : isspace c = false := by simpa using hc
        by_cases hcomment : c = '/' ∧ charAt (c :: s) 1 = '/'
        · obtain ⟨rfl, h2⟩ := hcomment
          obtain ⟨t, rfl⟩ := charAt_one_eq_slash h2
          have h2le := two_le_comment_run t
          rw [lexStep_comment] at h ⊢
          refine ih (n - 1) (by omega) _ ?_ h
          simp only [List.length_drop, List.length_cons] at hn ⊢
          omega
        · exact absurd h (lexStep_cons_type hc' s hcomment)

theorem OnlyBlank.tail_newline {s : List Char} (h : OnlyBlank ('\n' :: s)) : OnlyBlank s := by
  cases h with
  | space _ _ _ hs => exact hs

/-- A step returns `End` exactly on texts that consist of white space and
comments. -/
theorem lexStep_end_iff (s : List Char) : (lexStep s).1.type = .End ↔ OnlyBlank s := by
  constructor
  · suffices H : ∀ n (s : List Char), s.length ≤ n → (lexStep s).1.type = .End → OnlyBlank s from
      H s.length s le_rfl
    intro n
    induction n using Nat.strong_induction_on with
    | _ n ih =>
      intro s hn h
      cases s with
      | nil => exact OnlyBlank.nil
      | cons c s =>
        simp only [List.length_cons] at hn
        by_cases hc : isspace c = true
        · rw [lexStep_space hc] at h
          exact OnlyBlank.space c s hc (ih (n - 1) (by omega) s (by omega) h)
        · have hc' : isspace c = false := by simpa using hc
          by_cases hcomment : c = '/' ∧ charAt (c :: s) 1 = '/'
          · obtain ⟨rfl, h2⟩ := hcomment
            obtain ⟨t, rfl⟩ := charAt_one_eq_slash h2
            obtain ⟨c, r, hcn, rfl, hr, hdrop⟩ := comment_shape t
            rw [lexStep_comment, hdrop] at h
            rcases hr with rfl | ⟨r', rfl⟩
            · simpa using OnlyBlank.commentToEnd c hcn
            · have hb : OnlyBlank ('\n' :: r') :=
                ih (n - 1) (by omega) _ (by simp at hn ⊢; omega) h
              exact OnlyBlank.commentLine c r' hcn hb.tail_newline
          · exact absurd h (lexStep_cons_type hc' s hcomment)
  · intro h
    induction h with
    | nil => rfl
    | space c s hc _ ih => rw [lexStep_space hc]; exact ih
    | commentToEnd c hc => rw [lexStep_comment_end c hc]
    | commentLine c s hc _ ih => rw [lexStep_comment_line c s hc]; exact ih

/-! ## Consuming tokens -/

section ParserLemmas

variable {A : Arith}

@[simp] theorem advance_currentToken (p : Parser A) :
    p.advance.currentToken = (lexStep p.lexer.rest).1 := rfl

@[simp] theorem advance_rest (p : Parser A) :
    p.advance.lexer.rest = (lexStep p.lexer.rest).2 :=
  nextToken_snd_rest p.lexer

@[simp] theorem advance_vars (p : Parser A) : p.advance.vars = p.vars := rfl

@[simp] theorem advance_out (p : Parser A) : p.advance.out = p.out := rfl

@[simp] theorem advance_err (p : Parser A) : p.advance.err = p.err := rfl

theorem advance_currentToken_eq (p : Parser A) :
    p.advance.currentToken = (nextToken p.lexer).1 := rfl

theorem advance_lexer (p : Parser A) : p.advance.lexer = (nextToken p.lexer).2 := rfl

theorem eat_ok {ty : TokenType} {p : Parser A} (h : p.currentToken.type = ty) :
    eat ty p = .ok () p.advance := by
  simp [eat, h, Parser.advance]

theorem eat_fail {ty : TokenType} {p : Parser A} (h : p.currentToken.type ≠ ty) :
    eat ty p = .halted .exit1 { p with err := p.err ++ [.expected ty p.currentToken.type] } := by
  simp [eat, h]

@[simp] theorem load_currentToken (src : List Char) (vars : Env A) (out : List (List Char)) :
    (Parser.load A src vars out).currentToken = (lexStep src).1 := rfl

@[simp] theorem load_rest (src : List Char) (vars : Env A) (out : List (List Char)) :
    (Parser.load A src vars out).lexer.rest = (lexStep src).2 :=
  nextToken_snd_rest (Lexer.new src)

@[simp] theorem load_vars (src : List Char) (vars : Env A) (out : List (List Char)) :
    (Parser.load A src vars out).vars = vars := rfl

@[simp] theorem load_out (src : List Char) (vars : Env A) (out : List (List Char)) :
    (Parser.load A src vars out).out = out := rfl

@[simp] theorem load_err (src : List Char) (vars : Env A) (out : List (List Char)) :
    (Parser.load A src vars out).err = [] := rfl

/-- Where the parser stands after consuming a token, from where it stood and
one lexer step on the unread text. -/
theorem advance_at {p : Parser A} {r r' : List Char} {tok : Token} (hr : p.lexer.rest = r)
    (h : lexStep r = (tok, r')) :
    p.advance.currentToken = tok ∧ p.advance.lexer.rest = r' := by
  constructor
  · rw [advance_currentToken, hr, h]
  · rw [advance_rest, hr, h]

theorem load_at {src r' : List Char} {tok : Token} (vars : Env A) (out : List (List Char))
    (h : lexStep src = (tok, r')) :
    (Parser.load A src vars out).currentToken = tok ∧
      (Parser.load A src vars out).lexer.rest = r' := by
  constructor
  · rw [load_currentToken, h]
  · rw [load_rest, h]

/-! ## The numeric evaluator, one construct at a time -/

theorem factor_number {p : Parser A} {a : List Char} {v : A.D} (f : Nat)
    (h : p.currentToken = ⟨.Number, a⟩) (hv : A.stod a = some v) :
    factor (f + 1) p = .ok v p.advance := by
  rw [factor, if_pos (by rw [h]), eat_ok (by rw [h])]
  simp only [h, hv]

theorem factor_number_throws {p : Parser A} {a : List Char} (f : Nat)
    (h : p.currentToken = ⟨.Number, a⟩) (hv : A.stod a = none) :
    factor (f + 1) p = .halted .uncaughtException p := by
  rw [factor, if_pos (by rw [h])]
  simp only [h, hv]

theorem factor_identifier {p : Parser A} {u : List Char} {v : A.D} (f : Nat)
    (h : p.currentToken = ⟨.Identifier, u⟩) (hv : p.vars u = some v) :
    factor (f + 1) p = .ok v p.advance := by
  rw [factor, if_neg (by rw [h]; exact fun e => TokenType.noConfusion e),
    if_pos (by rw [h]), eat_ok (by rw [h])]
  simp only [h, advance_vars, hv]

theorem factor_undefined {p : Parser A} {u : List Char} (f : Nat)
    (h : p.currentToken = ⟨.Identifier, u⟩) (hv : p.vars u = none) :
    factor (f + 1) p =
      .halted .exit1 { p.advance with err := p.err ++ [.undefinedVariable u] } := by
  rw [factor, if_neg (by rw [h]; exact fun e => TokenType.noConfusion e),
    if_pos (by rw [h]), eat_ok (by rw [h])]
  simp only [h, advance_vars, hv, advance_err]

theorem factor_paren {p p2 : Parser A} {v : A.D} (f : Nat)
    (h : p.currentToken.type = .LParen) (he : expressionAsDouble f p.advance = .ok v p2)
    (h2 : p2.currentToken.type = .RParen) :
    factor (f + 1) p = .ok v p2.advance := by
  rw [factor, if_neg (by rw [h]; decide), if_neg (by rw [h]; decide), if_pos h, eat_ok h]
  simp only [he, eat_ok h2]

theorem factor_other {p : Parser A} (f : Nat) (h1 : p.currentToken.type ≠ .Number)
    (h2 : p.currentToken.type ≠ .Identifier) (h3 : p.currentToken.type ≠ .LParen) :
    factor (f + 1) p = .halted .exit1 { p with err := p.err ++ [.expectedFactor] } := by
  rw [factor, if_neg h1, if_neg h2, if_neg h3]

theorem termLoop_done {p : Parser A} (f : Nat) (v : A.D) (h1 : p.currentToken.type ≠ .Star)
    (h2 : p.currentToken.type ≠ .Slash) : termLoop (f + 1) v p = .ok v p := by
  rw [termLoop, if_neg (by simp [h1, h2])]

theorem termLoop_star {p p2 : Parser A} {w : A.D} (f : Nat) (v : A.D)
    (h : p.currentToken.type = .Star) (hf : factor f p.advance = .ok w p2) :
    termLoop (f + 1) v p = termLoop f (A.mul v w) p2 := by
  rw [termLoop, if_pos (Or.inl h), if_pos h, eat_ok h]
  simp only [hf]

theorem termLoop_slash {p p2 : Parser A} {w : A.D} (f : Nat) (v : A.D)
    (h : p.currentToken.type = .Slash) (hf : factor f p.advance = .ok w p2) :
    termLoop (f + 1) v p = termLoop f (A.div v w) p2 := by
  rw [termLoop, if_pos (Or.inr h), if_neg (by rw [h]; decide), eat_ok h]
  simp only [hf]

theorem termAsDouble_of {p p1 : Parser A} {v : A.D} (f : Nat) (hf : factor f p = .ok v p1) :
    termAsDouble (f + 1) p = termLoop f v p1 := by
  rw [termAsDouble]
  simp only [hf]

theorem exprLoop_done {p : Parser A} (f : Nat) (v : A.D) (h1 : p.currentToken.type ≠ .Plus)
    (h2 : p.currentToken.type ≠ .Minus) : exprLoop (f + 1) v p = .ok v p := by
  rw [exprLoop, if_neg (by simp [h1, h2])]

theorem exprLoop_plus {p p2 : Parser A} {w : A.D} (f : Nat) (v : A.D)
    (h : p.currentToken.type = .Plus) (ht : termAsDouble f p.advance = .ok w p2) :
    exprLoop (f + 1) v p = exprLoop f (A.add v w) p2 := by
  rw [exprLoop, if_pos (Or.inl h), if_pos h, eat_ok h]
  simp only [ht]

theorem exprLoop_minus {p p2 : Parser A} {w : A.D} (f : Nat) (v : A.D)
    (h : p.currentToken.type = .Minus) (ht : termAsDouble f p.advance = .ok w p2) :
    exprLoop (f + 1) v p = exprLoop f (A.sub v w) p2 := by
  rw [exprLoop, if_pos (Or.inr h), if_neg (by rw [h]; decide), eat_ok h]
  simp only [ht]

theorem expressionAsDouble_of {p p1 : Parser A} {v : A.D} (f : Nat)
    (ht : termAsDouble f p = .ok v p1) :
    expressionAsDouble (f + 1) p = exprLoop f v p1 := by
  rw [expressionAsDouble]
  simp only [ht]

/-! ## Statements -/

theorem assignStatement_of {p p3 : Parser A} {x : List Char} {v : A.D} (f : Nat)
    (h : p.currentToken = ⟨.Identifier, x⟩) (h1 : p.advance.currentToken.type = .Equals)
    (he : expressionAsDouble f p.advance.advance = .ok v p3)
    (h3 : p3.currentToken.type = .Semicolon) :
    assignStatement f p = .ok () ({ p3 with vars := p3.vars.assign x v } : Parser A).advance := by
  rw [assignStatement, eat_ok (by rw [h])]
  simp only [eat_ok h1, he, h]
  exact eat_ok h3

/-- The state after an assignment statement, described by its components. -/
theorem assignStatement_state {p p3 : Parser A} {x : List Char} {v : A.D} (f : Nat)
    (h : p.currentToken = ⟨.Identifier, x⟩) (h1 : p.advance.currentToken.type = .Equals)
    (he : expressionAsDouble f p.advance.advance = .ok v p3)
    (h3 : p3.currentToken.type = .Semicolon) :
    ∃ q, assignStatement f p = .ok () q ∧ q.currentToken = (nextToken p3.lexer).1 ∧
      q.lexer = (nextToken p3.lexer).2 ∧ q.vars = p3.vars.assign x v ∧ q.out = p3.out ∧
      q.err = p3.err :=
  ⟨_, assignStatement_of f h h1 he h3, rfl, rfl, rfl, rfl, rfl⟩

theorem parse_end {p : Parser A} (f : Nat) (h : p.currentToken.type = .End) :
    parse (f + 1) p = .ok () p := by
  rw [parse, if_neg (by simp [h])]

theorem parse_assign {p p1 : Parser A} (f : Nat) (h : p.currentToken.type = .Identifier)
    (hs : assignStatement f p = .ok () p1) : parse (f + 1) p = parse f p1 := by
  rw [parse, if_pos (by rw [h]; decide), if_neg (by rw [h]; decide), if_pos h]
  simp only [hs]

theorem parse_print {p p1 : Parser A} (f : Nat) (h : p.currentToken.type = .Print)
    (hs : printStatement f p = .ok () p1) : parse (f + 1) p = parse f p1 := by
  rw [parse, if_pos (by rw [h]; decide), if_pos h]
  simp only [hs]

end ParserLemmas

/-! ## The display expression -/

section Display

variable {A : Arith}

theorem displayStep_string_last {p : Parser A} {s : List Char} (acc : List Char)
    (h : p.currentToken = ⟨.String, s⟩) (hc : p.advance.currentToken.type ≠ .Comma) :
    displayStep acc p = .ok (acc ++ s) p.advance := by
  unfold displayStep displayTerm
  rw [if_pos (by rw [h]), eat_ok (by rw [h])]
  simp only [h, if_neg hc]

theorem expressionLoop_done {p : Parser A} (f : Nat) (acc : List Char)
    (h : p.currentToken.type = .End ∨ p.currentToken.type = .Semicolon ∨
      p.currentToken.type = .RParen) :
    expressionLoop (f + 1) acc p = .ok acc p := by
  rw [expressionLoop, if_neg]
  intro hn
  rcases h with h | h | h
  · exact hn.1 h
  · exact hn.2.1 h
  · exact hn.2.2 h

theorem expressionLoop_step {p p1 : Parser A} {acc acc1 : List Char} (f : Nat)
    (h1 : p.currentToken.type ≠ .End) (h2 : p.currentToken.type ≠ .Semicolon)
    (h3 : p.currentToken.type ≠ .RParen) (hs : displayStep acc p = .ok acc1 p1) :
    expressionLoop (f + 1) acc p = expressionLoop f acc1 p1 := by
  rw [expressionLoop, if_pos ⟨h1, h2, h3⟩]
  simp only [hs]

/-- The state after a print statement, described by its components. -/
theorem printStatement_state {p p3 : Parser A} {output : List Char} (f : Nat)
    (h : p.currentToken.type = .Print) (h1 : p.advance.currentToken.type = .LParen)
    (he : expression f p.advance.advance = .ok output p3)
    (h3 : p3.currentToken.type = .RParen) (h4 : (nextToken p3.lexer).1.type = .Semicolon) :
    ∃ q, printStatement f p = .ok () q ∧
      q.currentToken = (nextToken (nextToken p3.lexer).2).1 ∧
      q.lexer = (nextToken (nextToken p3.lexer).2).2 ∧ q.vars = p3.vars ∧
      q.out = p3.out ++ [output] ∧ q.err = p3.err := by
  refine ⟨({ p3 with out := p3.out ++ [output] } : Parser A).advance.advance, ?_,
    rfl, rfl, rfl, rfl, rfl⟩
  unfold printStatement
  rw [eat_ok h]
  simp only [eat_ok h1, he]
  have h3' : ({ p3 with out := p3.out ++ [output] } : Parser A).currentToken.type = .RParen := h3
  rw [eat_ok h3']
  exact eat_ok h4

end Display

/-! ## Number formatting -/

theorem findLastNotOf_spec (c d : Char) (pre post : List Char) (hd : d ≠ c)
    (hpost : ∀ x ∈ post, x = c) : findLastNotOf c (pre ++ d :: post) = some pre.length := by
  unfold findLastNotOf
  have hrev : (pre ++ d :: post).reverse = post.reverse ++ d :: pre.reverse := by simp
  have hrun : runLength (fun x => x == c) (post.reverse ++ d :: pre.reverse) =
      post.reverse.length :=
    runLength_append _ _ (by
      intro x hx
      simpa using hpost x (List.mem_reverse.1 hx)) (by simpa using hd)
  simp only [hrev, hrun, List.length_reverse, List.length_append, List.length_cons]
  rw [if_neg (by omega)]
  congr 1
  omega

theorem charAt_append_length (pre post : List Char) (d : Char) :
    charAt (pre ++ d :: post) pre.length = d := by
  induction pre with
  | nil => rfl
  | cons c pre ih => simpa [charAt] using ih

theorem stripZeros_spec (d : Char) (pre post : List Char) (hd : d ≠ '0')
    (hpost : ∀ x ∈ post, x = '0') :
    stripZeros (pre ++ d :: post) = if d = '.' then some pre else some (pre ++ [d]) := by
  unfold stripZeros
  rw [findLastNotOf_spec '0' d pre post hd hpost]
  have h1 : charAt (pre ++ d :: post) pre.length = d := charAt_append_length pre post d
  have h2 : (pre ++ d :: post).take pre.length = pre := by simp
  have h3 : (pre ++ d :: post).take (pre.length + 1) = pre ++ [d] := by
    simp [List.take_append_eq_append_take]
  simp only [h1, h2, h3]

theorem stripZeros_fixed (ip frac : List Char) (hfrac : ∀ c ∈ frac, isdigit c = true) :
    stripZeros (ip ++ '.' :: frac) =
      some (ip ++ (if dropTrailingZeros frac = [] then []
        else '.' :: dropTrailingZeros frac)) := by
  have hsplit : frac = dropTrailingZeros frac ++
      (frac.reverse.takeWhile (fun c => c == '0')).reverse := by
    unfold dropTrailingZeros
    rw [← List.reverse_append, List.takeWhile_append_dropWhile, List.reverse_reverse]
  have hz : ∀ x ∈ (frac.reverse.takeWhile (fun c => c == '0')).reverse, x = '0' := by
    intro x hx
    simpa using List.mem_takeWhile_imp (List.mem_reverse.1 hx)
  generalize (frac.reverse.takeWhile (fun c => c == '0')).reverse = z at hsplit hz
  have hlast : ∀ d ∈ (frac.reverse.dropWhile (fun c => c == '0')).head?, d ≠ '0' := by
    intro d hd
    have := head_drop_runLength (fun c => c == '0') frac.reverse
    rw [drop_runLength] at this
    simpa using this d hd
  cases ht : frac.reverse.dropWhile (fun c => c == '0') with
  | nil =>
    have ht' : dropTrailingZeros frac = [] := by unfold dropTrailingZeros; rw [ht]; rfl
    rw [ht'] at hsplit ⊢
    rw [hsplit, List.nil_append, stripZeros_spec '.' ip z (by decide) hz]
    simp
  | cons d t =>
    have ht' : dropTrailingZeros frac = t.reverse ++ [d] := by
      unfold dropTrailingZeros; rw [ht]; simp
    have hd0 : d ≠ '0' := hlast d (by rw [ht]; simp)
    have hdmem : d ∈ frac := by
      rw [hsplit, ht']; simp
    have hdot : d ≠ '.' := (isdigit_facts (hfrac d hdmem)).2.2.2.2.1
    rw [ht']
    rw [ht'] at hsplit
    have e : ip ++ '.' :: frac = (ip ++ '.' :: t.reverse) ++ d :: z := by
      rw [hsplit]; simp
    rw [e, stripZeros_spec d _ z hd0 hz, if_neg hdot]
    simp

/-- What `dropTrailingZeros` leaves: the text is the result followed by zeros
only, and the result does not end in a zero. -/
theorem dropTrailingZeros_spec (s : List Char) :
    (∃ k, s = dropTrailingZeros s ++ List.replicate k '0') ∧
      (dropTrailingZeros s).getLast? ≠ some '0' := by
  constructor
  · refine ⟨(s.reverse.takeWhile (fun c => c == '0')).length, ?_⟩
    have hz : (s.reverse.takeWhile (fun c => c == '0')).reverse =
        List.replicate (s.reverse.takeWhile (fun c => c == '0')).length '0' := by
      rw [List.eq_replicate_iff]
      refine ⟨by simp, ?_⟩
      intro x hx
      simpa using List.mem_takeWhile_imp (List.mem_reverse.1 hx)
    unfold dropTrailingZeros
    rw [← hz, ← List.reverse_append, List.takeWhile_append_dropWhile, List.reverse_reverse]
  · unfold dropTrailingZeros
    rw [List.getLast?_reverse]
    intro h
    have := head_drop_runLength (fun c => c == '0') s.reverse
    rw [drop_runLength] at this
    simpa using this '0' h

theorem formatDouble_of_fixed (A : Arith) (v : A.D) (ip frac : List Char)
    (hfrac : ∀ c ∈ frac, isdigit c = true) (hfix : A.fixed v = ip ++ '.' :: frac) :
    formatDouble A v =
      some (ip ++ (if dropTrailingZeros frac = [] then []
        else '.' :: dropTrailingZeros frac)) := by
  unfold formatDouble
  rw [hfix, stripZeros_fixed ip frac hfrac]

theorem Exact.roundHalfEven_one (m : Nat) : Exact.roundHalfEven m 1 = m := by
  simp [Exact.roundHalfEven, Nat.mod_one]

theorem Exact.fixed_intCast (n : ℤ) :
    Exact.fixed (.fin (n : ℚ)) = numeral n ++ ['.', '0', '0', '0', '0', '0', '0'] := by
  have h6 : Exact.sixDigits 0 = ['0', '0', '0', '0', '0', '0'] := by decide
  have hneg : Exact.isNeg (n : ℚ) = decide (n < 0) := by
    simp [Exact.isNeg]
  simp only [Exact.fixed, Rat.intCast_num, Rat.intCast_den, Exact.roundHalfEven_one, hneg,
    Nat.mul_div_cancel _ (by decide : 0 < 1000000), Nat.mul_mod_left, h6, numeral]
  by_cases h : n < 0 <;> simp [h]

theorem Exact.formatDouble_intCast (n : ℤ) :
    formatDouble Exact.arith (.fin (n : ℚ)) = some (numeral n) := by
  have h := formatDouble_of_fixed Exact.arith (.fin (n : ℚ)) (numeral n)
    ['0', '0', '0', '0', '0', '0'] (by decide) (Exact.fixed_intCast n)
  rw [h]
  have : dropTrailingZeros ['0', '0', '0', '0', '0', '0'] = [] := by decide
  simp [this]

/-! ## Identifiers in display expressions, failures in numeric expressions -/

section Undefined

variable {A : Arith}

theorem displayStep_identifier_last {p : Parser A} {u text : List Char} (acc : List Char)
    (h : p.currentToken = ⟨.Identifier, u⟩)
    (ht : formatDouble A (p.vars.subscript u).1 = some text)
    (hc : p.advance.currentToken.type ≠ .Comma) :
    ∃ q, displayStep acc p = .ok (acc ++ text) q ∧
      q.currentToken = p.advance.currentToken ∧ q.lexer.rest = p.advance.lexer.rest ∧
      q.vars = (p.vars.subscript u).2 ∧ q.out = p.out ∧ q.err = p.err := by
  refine ⟨({ p with vars := (p.vars.subscript u).2 } : Parser A).advance, ?_,
    rfl, rfl, rfl, rfl, rfl⟩
  have hv : p.currentToken.value = u := by rw [h]
  have hty : p.currentToken.type = .Identifier := by rw [h]
  have h' : ({ p with vars := (p.vars.subscript u).2 } : Parser A).currentToken.type =
      .Identifier := hty
  have hc' : ({ p with vars := (p.vars.subscript u).2 } : Parser A).advance.currentToken.type ≠
      .Comma := hc
  unfold displayStep displayTerm
  rw [if_neg (by rw [hty]; decide), if_pos hty]
  simp only [hv, ht, eat_ok h', if_neg hc']

theorem subscript_unbound {m : Env A} {u : List Char} (h : m u = none) :
    m.subscript u = (A.zero, m.assign u A.zero) := by
  simp [Env.subscript, h]

theorem subscript_bound {m : Env A} {u : List Char} {v : A.D} (h : m u = some v) :
    m.subscript u = (v, m) := by
  simp [Env.subscript, h]

theorem termAsDouble_halted {p q : Parser A} {h : Halt} (f : Nat)
    (hf : factor f p = .halted h q) : termAsDouble (f + 1) p = .halted h q := by
  rw [termAsDouble]
  simp only [hf]

theorem expressionAsDouble_halted {p q : Parser A} {h : Halt} (f : Nat)
    (ht : termAsDouble f p = .halted h q) : expressionAsDouble (f + 1) p = .halted h q := by
  rw [expressionAsDouble]
  simp only [ht]

theorem assignStatement_halted {p q : Parser A} {x : List Char} {hh : Halt} (f : Nat)
    (h : p.currentToken = ⟨.Identifier, x⟩) (h1 : p.advance.currentToken.type = .Equals)
    (he : expressionAsDouble f p.advance.advance = .halted hh q) :
    assignStatement f p = .halted hh q := by
  rw [assignStatement, eat_ok (by rw [h])]
  simp only [eat_ok h1, he]

theorem parse_assign_halted {p q : Parser A} {hh : Halt} (f : Nat)
    (h : p.currentToken.type = .Identifier) (hs : assignStatement f p = .halted hh q) :
    parse (f + 1) p = .halted hh q := by
  rw [parse, if_pos (by rw [h]; decide), if_neg (by rw [h]; decide), if_pos h]
  simp only [hs]

/-- The program `print(u);` for an identifier `u`: it returns normally, prints the
formatted value of `variables[u]` on one line, and leaves the table that the
subscript leaves. -/
theorem print_identifier (u text : List Char) (vars : Env A) (out : List (List Char))
    (hu : isIdentifier u = true) (ht : formatDouble A (vars.subscript u).1 = some text)
    (k : Nat) :
    ∃ q, parse (k + 3) (Parser.load A
        (['p', 'r', 'i', 'n', 't', '('] ++ u ++ [')', ';']) vars out) = .ok () q ∧
      q.out = out ++ [text] ∧ q.vars = (vars.subscript u).2 ∧ q.err = [] := by
  simp only [List.append_assoc, List.cons_append, List.nil_append]
  obtain ⟨c0, r0⟩ := load_at vars out (lexStep_print '(' (u ++ [')', ';']) (by decide))
  obtain ⟨c1, r1⟩ := advance_at r0 (lexStep_lparen _)
  obtain ⟨c2, r2⟩ := advance_at r1 (lexStep_identifier_then u ')' _ hu (by decide))
  obtain ⟨c3, r3⟩ := advance_at r2 (lexStep_rparen _)
  obtain ⟨p3, hstep, d0, d1, dv, dout, de⟩ :=
    displayStep_identifier_last (A := A) [] c2 ht (by rw [c3]; decide)
  rw [c3] at d0
  rw [r3] at d1
  have e : expression (k + 2) (Parser.load A _ vars out).advance.advance = .ok ([] ++ text) p3 :=
    (expressionLoop_step (k + 1) (by rw [c2]; exact fun e => TokenType.noConfusion e)
      (by rw [c2]; exact fun e => TokenType.noConfusion e)
      (by rw [c2]; exact fun e => TokenType.noConfusion e) hstep).trans
      (expressionLoop_done k _ (Or.inr (Or.inr (by rw [d0]))))
  obtain ⟨q, hq, q0, _, qv, qo, qe⟩ := printStatement_state (k + 2) (by rw [c0])
    (by rw [c1]) e (by rw [d0]) (by rw [nextToken_fst, d1, lexStep_semicolon])
  refine ⟨q, (parse_print (k + 2) (by rw [c0]) hq).trans (parse_end (k + 1) ?_), ?_, ?_, ?_⟩
  · rw [q0, nextToken_fst, nextToken_snd_rest, d1, lexStep_semicolon, lexStep_nil]
  · rw [qo, dout]; simp
  · rw [qv, dv]; rfl
  · rw [qe, de]; rfl

/-- The program `x = u;` with `u` not bound: it ends in `exit(1)` with the
undefined-variable message, and the table is the initial one. -/
theorem assign_undefined (x u : List Char) (vars : Env A) (out : List (List Char))
    (hx : isIdentifier x = true) (hu : isIdentifier u = true) (hvars : vars u = none)
    (k : Nat) :
    ∃ q, parse (k + 4) (Parser.load A (x ++ [' ', '=', ' '] ++ u ++ [';']) vars out) =
        .halted .exit1 q ∧
      q.vars = vars ∧ q.out = out ∧ q.err = [.undefinedVariable u] := by
  simp only [List.append_assoc, List.cons_append, List.nil_append]
  obtain ⟨c0, r0⟩ := load_at vars out (lexStep_identifier_then x ' ' _ hx (by decide))
  obtain ⟨c1, r1⟩ := advance_at r0 (lexStep_blank_then (lexStep_equals _))
  obtain ⟨c2, r2⟩ := advance_at r1
    (lexStep_blank_then (lexStep_identifier_then u ';' _ hu (by decide)))
  have e := assignStatement_halted (k + 3) c0 (by rw [c1])
    (expressionAsDouble_halted (k + 2)
      (termAsDouble_halted (k + 1) (factor_undefined k c2 hvars)))
  exact ⟨_, parse_assign_halted (k + 3) (by rw [c0]) e, rfl, rfl, rfl⟩

end Undefined

/-! ## Fuel and frame of the numeric evaluator -/

section Mono

variable {A : Arith}

/-- More fuel does not change a result that was reached: one more unit. -/
theorem evaluator_fuel_succ (n : Nat) :
    (∀ (p : Parser A), (∀ q, expressionAsDouble n p ≠ .outOfFuel q) →
        expressionAsDouble (n + 1) p = expressionAsDouble n p) ∧
    (∀ (v : A.D) (p : Parser A), (∀ q, exprLoop n v p ≠ .outOfFuel q) →
        exprLoop (n + 1) v p = exprLoop n v p) ∧
    (∀ (p : Parser A), (∀ q, termAsDouble n p ≠ .outOfFuel q) →
        termAsDouble (n + 1) p = termAsDouble n p) ∧
    (∀ (v : A.D) (p : Parser A), (∀ q, termLoop n v p ≠ .outOfFuel q) →
        termLoop (n + 1) v p = termLoop n v p) ∧
    (∀ (p : Parser A), (∀ q, factor n p ≠ .outOfFuel q) → factor (n + 1) p = factor n p) := by
  induction n with
  | zero =>
    refine ⟨?_, ?_, ?_, ?_, ?_⟩
    · intro p h; exact absurd (by rw [expressionAsDouble]) (h p)
    · intro v p h; exact absurd (by rw [exprLoop]) (h p)
    · intro p h; exact absurd (by rw [termAsDouble]) (h p)
    · intro v p h; exact absurd (by rw [termLoop]) (h p)
    · intro p h; exact absurd (by rw [factor]) (h p)
  | succ n ih =>
    obtain ⟨ihE, ihEL, ihT, ihTL, ihF⟩ := ih
    refine ⟨?_, ?_, ?_, ?_, ?_⟩
    · intro p h
      rw [expressionAsDouble] at h ⊢
      rw [expressionAsDouble]
      cases ht : termAsDouble n p with
      | ok v p1 =>
        rw [ht] at h
        rw [ihT p (by rw [ht]; exact fun _ e => Result.noConfusion e), ht]
        exact ihEL v p1 h
      | halted hh p1 =>
        rw [ihT p (by rw [ht]; exact fun _ e => Result.noConfusion e), ht]
      | outOfFuel q0 => rw [ht] at h; exact absurd rfl (h q0)
    · intro v p h
      by_cases h1 : p.currentToken.type = .Plus ∨ p.currentToken.type = .Minus
      · by_cases h2 : p.currentToken.type = .Plus
        · simp only [exprLoop, if_pos h1, if_pos h2, eat_ok h2] at h ⊢
          cases ht : termAsDouble n p.advance with
          | ok t p2 =>
            rw [ht] at h
            rw [ihT _ (by rw [ht]; exact fun _ e => Result.noConfusion e), ht]
            exact ihEL _ p2 h
          | halted hh p2 =>
            rw [ihT _ (by rw [ht]; exact fun _ e => Result.noConfusion e), ht]
          | outOfFuel q0 => rw [ht] at h; exact absurd rfl (h q0)
        · have h3 : p.currentToken.type = .Minus := h1.resolve_left h2
          simp only [exprLoop, if_pos h1, if_neg h2, eat_ok h3] at h ⊢
          cases ht : termAsDouble n p.advance with
          | ok t p2 =>
            rw [ht] at h
            rw [ihT _ (by rw [ht]; exact fun _ e => Result.noConfusion e), ht]
            exact ihEL _ p2 h
          | halted hh p2 =>
            rw [ihT _ (by rw [ht]; exact fun _ e => Result.noConfusion e), ht]
          | outOfFuel q0 => rw [ht] at h; exact absurd rfl (h q0)
      · simp only [exprLoop, if_neg h1]
    · intro p h
      simp only [termAsDouble] at h ⊢
      cases ht : factor n p with
      | ok v p1 =>
        rw [ht] at h
        rw [ihF p (by rw [ht]; exact fun _ e => Result.noConfusion e), ht]
        exact ihTL v p1 h
      | halted hh p1 =>
        rw [ihF p (by rw [ht]; exact fun _ e => Result.noConfusion e), ht]
      | outOfFuel q0 => rw [ht] at h; exact absurd rfl (h q0)
    · intro v p h
      by_cases h1 : p.currentToken.type = .Star ∨ p.currentToken.type = .Slash
      · by_cases h2 : p.currentToken.type = .Star
        · simp only [termLoop, if_pos h1, if_pos h2, eat_ok h2] at h ⊢
          cases ht : factor n p.advance with
          | ok t p2 =>
            rw [ht] at h
            rw [ihF _ (by rw [ht]; exact fun _ e => Result.noConfusion e), ht]
            exact ihTL _ p2 h
          | halted hh p2 =>
            rw [ihF _ (by rw [ht]; exact fun _ e => Result.noConfusion e), ht]
          | outOfFuel q0 => rw [ht] at h; exact absurd rfl (h q0)
        · have h3 : p.currentToken.type = .Slash := h1.resolve_left h2
          simp only [termLoop, if_pos h1, if_neg h2, eat_ok h3] at h ⊢
          cases ht : factor n p.advance with
          | ok t p2 =>
            rw [ht] at h
            rw [ihF _ (by rw [ht]; exact fun _ e => Result.noConfusion e), ht]
            exact ihTL _ p2 h
          | halted hh p2 =>
            rw [ihF _ (by rw [ht]; exact fun _ e => Result.noConfusion e), ht]
          | outOfFuel q0 => rw [ht] at h; exact absurd rfl (h q0)
      · simp only [termLoop, if_neg h1]
    · intro p h
      by_cases h1 : p.currentToken.type = .Number
      · simp only [factor, if_pos h1]
      · by_cases h2 : p.currentToken.type = .Identifier
        · simp only [factor, if_neg h1, if_pos h2]
        · by_cases h3 : p.currentToken.type = .LParen
          · simp only [factor, if_neg h1, if_neg h2, if_pos h3, eat_ok h3] at h ⊢
            cases ht : expressionAsDouble n p.advance with
            | ok t p2 =>
              rw [ihE _ (by rw [ht]; exact fun _ e => Result.noConfusion e), ht]
            | halted hh p2 =>
              rw [ihE _ (by rw [ht]; exact fun _ e => Result.noConfusion e), ht]
            | outOfFuel q0 => rw [ht] at h; exact absurd rfl (h q0)
          · simp only [factor, if_neg h1, if_neg h2, if_neg h3]

/-- More fuel does not change a result that the numeric evaluator reached. -/
theorem expressionAsDouble_fuel {n m : Nat} {p p' : Parser A} {v : A.D} (hnm : n ≤ m)
    (h : expressionAsDouble n p = .ok v p') : expressionAsDouble m p = .ok v p' := by
  induction hnm with
  | refl => exact h
  | step _ ih =>
    rw [(evaluator_fuel_succ _).1 p (by rw [ih]; exact fun _ e => Result.noConfusion e), ih]
end Mono

section Frame

variable {A : Arith}

/-- The numeric evaluator, when it returns, has changed neither the variable
table nor the output nor the error stream. -/
theorem evaluator_frame (n : Nat) :
    (∀ (p q : Parser A) (w : A.D), expressionAsDouble n p = .ok w q →
        q.vars = p.vars ∧ q.out = p.out ∧ q.err = p.err) ∧
    (∀ (v : A.D) (p q : Parser A) (w : A.D), exprLoop n v p = .ok w q →
        q.vars = p.vars ∧ q.out = p.out ∧ q.err = p.err) ∧
    (∀ (p q : Parser A) (w : A.D), termAsDouble n p = .ok w q →
        q.vars = p.vars ∧ q.out = p.out ∧ q.err = p.err) ∧
    (∀ (v : A.D) (p q : Parser A) (w : A.D), termLoop n v p = .ok w q →
        q.vars = p.vars ∧ q.out = p.out ∧ q.err = p.err) ∧
    (∀ (p q : Parser A) (w : A.D), factor n p = .ok w q →
        q.vars = p.vars ∧ q.out = p.out ∧ q.err = p.err) := by
  induction n with
  | zero =>
    refine ⟨?_, ?_, ?_, ?_, ?_⟩
    · intro p q w h; rw [expressionAsDouble] at h; exact Result.noConfusion h
    · intro v p q w h; rw [exprLoop] at h; exact Result.noConfusion h
    · intro p q w h; rw [termAsDouble] at h; exact Result.noConfusion h
    · intro v p q w h; rw [termLoop] at h; exact Result.noConfusion h
    · intro p q w h; rw [factor] at h; exact Result.noConfusion h
  | succ n ih =>
    obtain ⟨ihE, ihEL, ihT, ihTL, ihF⟩ := ih
    refine ⟨?_, ?_, ?_, ?_, ?_⟩
    · intro p q w h
      simp only [expressionAsDouble] at h
      cases ht : termAsDouble n p with
      | ok v p1 =>
        rw [ht] at h
        obtain ⟨a1, a2, a3⟩ := ihT p p1 v ht
        obtain ⟨b1, b2, b3⟩ := ihEL v p1 q w h
        exact ⟨b1.trans a1, b2.trans a2, b3.trans a3⟩
      | halted hh p1 => rw [ht] at h; exact Result.noConfusion h
      | outOfFuel q0 => rw [ht] at h; exact Result.noConfusion h
    · intro v p q w h
      by_cases h1 : p.currentToken.type = .Plus ∨ p.currentToken.type = .Minus
      · by_cases h2 : p.currentToken.type = .Plus
        · simp only [exprLoop, if_pos h1, if_pos h2, eat_ok h2] at h
          cases ht : termAsDouble n p.advance with
          | ok t p2 =>
            rw [ht] at h
            obtain ⟨a1, a2, a3⟩ := ihT _ p2 t ht
            obtain ⟨b1, b2, b3⟩ := ihEL _ p2 q w h
            exact ⟨b1.trans a1, b2.trans a2, b3.trans a3⟩
          | halted hh p2 => rw [ht] at h; exact Result.noConfusion h
          | outOfFuel q0 => rw [ht] at h; exact Result.noConfusion h
        · have h3 : p.currentToken.type = .Minus := h1.resolve_left h2
          simp only [exprLoop, if_pos h1, if_neg h2, eat_ok h3] at h
          cases ht : termAsDouble n p.advance with
          | ok t p2 =>
            rw [ht] at h
            obtain ⟨a1, a2, a3⟩ := ihT _ p2 t ht
            obtain ⟨b1, b2, b3⟩ := ihEL _ p2 q w h
            exact ⟨b1.trans a1, b2.trans a2, b3.trans a3⟩
          | halted hh p2 => rw [ht] at h; exact Result.noConfusion h
          | outOfFuel q0 => rw [ht] at h; exact Result.noConfusion h
      · simp only [exprLoop, if_neg h1, Result.ok.injEq] at h
        obtain ⟨_, rfl⟩ := h
        exact ⟨rfl, rfl, rfl⟩
    · intro p q w h
      simp only [termAsDouble] at h
      cases ht : factor n p with
      | ok v p1 =>
        rw [ht] at h
        obtain ⟨a1, a2, a3⟩ := ihF p p1 v ht
        obtain ⟨b1, b2, b3⟩ := ihTL v p1 q w h
        exact ⟨b1.trans a1, b2.trans a2, b3.trans a3⟩
      | halted hh p1 => rw [ht] at h; exact Result.noConfusion h
      | outOfFuel q0 => rw [ht] at h; exact Result.noConfusion h
    · intro v p q w h
      by_cases h1 : p.currentToken.type = .Star ∨ p.currentToken.type = .Slash
      · by_cases h2 : p.currentToken.type = .Star
        · simp only [termLoop, if_pos h1, if_pos h2, eat_ok h2] at h
          cases ht : factor n p.advance with
          | ok t p2 =>
            rw [ht] at h
            obtain ⟨a1, a2, a3⟩ := ihF _ p2 t ht
            obtain ⟨b1, b2, b3⟩ := ihTL _ p2 q w h
            exact ⟨b1.trans a1, b2.trans a2, b3.trans a3⟩
          | halted hh p2 => rw [ht] at h; exact Result.noConfusion h
          | outOfFuel q0 => rw [ht] at h; exact Result.noConfusion h
        · have h3 : p.currentToken.type = .Slash := h1.resolve_left h2
          simp only [termLoop, if_pos h1, if_neg h2, eat_ok h3] at h
          cases ht : factor n p.advance with
          | ok t p2 =>
            rw [ht] at h
            obtain ⟨a1, a2, a3⟩ := ihF _ p2 t ht
            obtain ⟨b1, b2, b3⟩ := ihTL _ p2 q w h
            exact ⟨b1.trans a1, b2.trans a2, b3.trans a3⟩
          | halted hh p2 => rw [ht] at h; exact Result.noConfusion h
          | outOfFuel q0 => rw [ht] at h; exact Result.noConfusion h
      · simp only [termLoop, if_neg h1, Result.ok.injEq] at h
        obtain ⟨_, rfl⟩ := h
        exact ⟨rfl, rfl, rfl⟩
    · intro p q w h
      by_cases h1 : p.currentToken.type = .Number
      · simp only [factor, if_pos h1, eat_ok h1] at h
        cases hs : A.stod p.currentToken.value with
        | none => rw [hs] at h; exact Result.noConfusion h
        | some value =>
          rw [hs] at h
          simp only [Result.ok.injEq] at h
          obtain ⟨_, rfl⟩ := h
          exact ⟨rfl, rfl, rfl⟩
      · by_cases h2 : p.currentToken.type = .Identifier
        · simp only [factor, if_neg h1, if_pos h2, eat_ok h2] at h
          cases hs : p.advance.vars p.currentToken.value with
          | none => rw [hs] at h; exact Result.noConfusion h
          | some value =>
            rw [hs] at h
            simp only [Result.ok.injEq] at h
            obtain ⟨_, rfl⟩ := h
            exact ⟨rfl, rfl, rfl⟩
        · by_cases h3 : p.currentToken.type = .LParen
          · simp only [factor, if_neg h1, if_neg h2, if_pos h3, eat_ok h3] at h
            cases ht : expressionAsDouble n p.advance with
            | ok t p2 =>
              rw [ht] at h
              obtain ⟨a1, a2, a3⟩ := ihE _ p2 t ht
              by_cases h4 : p2.currentToken.type = .RParen
              · simp only [eat_ok h4, Result.ok.injEq] at h
                obtain ⟨_, rfl⟩ := h
                exact ⟨a1, a2, a3⟩
              · simp only [eat_fail h4] at h
                exact Result.noConfusion h
            | halted hh p2 => rw [ht] at h; exact Result.noConfusion h
            | outOfFuel q0 => rw [ht] at h; exact Result.noConfusion h
          · simp only [factor, if_neg h1, if_neg h2, if_neg h3] at h
            exact Result.noConfusion h

end Frame

/-! ## Precedence and grouping -/

section Precedence

variable (A : Arith) (x a b c : List Char) (va vb vc : A.D) (vars : Env A)
  (out : List (List Char))

theorem assign_add_mul (hx : isIdentifier x = true) (ha : isLiteral a = true)
    (hb : isLiteral b = true) (hc : isLiteral c = true) (hva : A.stod a = some va)
    (hvb : A.stod b = some vb) (hvc : A.stod c = some vc) (k : Nat) :
    ∃ q, parse (k + 6) (Parser.load A
        (x ++ [' ', '=', ' '] ++ a ++ [' ', '+', ' '] ++ b ++ [' ', '*', ' '] ++ c ++ [';'])
        vars out) = .ok () q ∧
      q.vars = vars.assign x (A.add va (A.mul vb vc)) ∧ q.out = out ∧ q.err = [] := by
  simp only [List.append_assoc, List.cons_append, List.nil_append]
  obtain ⟨c0, r0⟩ := load_at vars out (lexStep_identifier_then x ' ' _ hx (by decide))
  obtain ⟨c1, r1⟩ := advance_at r0 (lexStep_blank_then (lexStep_equals _))
  obtain ⟨c2, r2⟩ := advance_at r1
    (lexStep_blank_then (lexStep_literal_then a ' ' _ ha (by decide)))
  obtain ⟨c3, r3⟩ := advance_at r2 (lexStep_blank_then (lexStep_plus _))
  obtain ⟨c4, r4⟩ := advance_at r3
    (lexStep_blank_then (lexStep_literal_then b ' ' _ hb (by decide)))
  obtain ⟨c5, r5⟩ := advance_at r4 (lexStep_blank_then (lexStep_star _))
  obtain ⟨c6, r6⟩ := advance_at r5
    (lexStep_blank_then (lexStep_literal_then c ';' _ hc (by decide)))
  obtain ⟨c7, r7⟩ := advance_at r6 (lexStep_semicolon _)
  have e1 : termAsDouble (k + 4) _ = .ok va _ :=
    (termAsDouble_of (k + 3) (factor_number (k + 2) c2 hva)).trans
      (termLoop_done (k + 2) va (by rw [c3]; decide) (by rw [c3]; decide))
  have e2 : termAsDouble (k + 3) _ = .ok (A.mul vb vc) _ :=
    (termAsDouble_of (k + 2) (factor_number (k + 1) c4 hvb)).trans
      ((termLoop_star (k + 1) vb (by rw [c5]) (factor_number k c6 hvc)).trans
        (termLoop_done k _ (by rw [c7]; decide) (by rw [c7]; decide)))
  have e3 : expressionAsDouble (k + 5) _ = .ok (A.add va (A.mul vb vc)) _ :=
    (expressionAsDouble_of (k + 4) e1).trans
      ((exprLoop_plus (k + 3) va (by rw [c3]) e2).trans
        (exprLoop_done (k + 2) _ (by rw [c7]; decide) (by rw [c7]; decide)))
  have e4 := assignStatement_of (k + 5) c0 (by rw [c1]) e3 (by rw [c7])
  refine ⟨_, (parse_assign (k + 5) (by rw [c0]) e4).trans (parse_end (k + 4) ?_), rfl, rfl, rfl⟩
  rw [advance_currentToken]
  show (lexStep (Parser.lexer _).rest).1.type = _
  rw [r7, lexStep_nil]

theorem assign_mul_add (hx : isIdentifier x = true) (ha : isLiteral a = true)
    (hb : isLiteral b = true) (hc : isLiteral c = true) (hva : A.stod a = some va)
    (hvb : A.stod b = some vb) (hvc : A.stod c = some vc) (k : Nat) :
    ∃ q, parse (k + 6) (Parser.load A
        (x ++ [' ', '=', ' '] ++ a ++ [' ', '*', ' '] ++ b ++ [' ', '+', ' '] ++ c ++ [';'])
        vars out) = .ok () q ∧
      q.vars = vars.assign x (A.add (A.mul va vb) vc) ∧ q.out = out ∧ q.err = [] := by
  simp only [List.append_assoc, List.cons_append, List.nil_append]
  obtain ⟨c0, r0⟩ := load_at vars out (lexStep_identifier_then x ' ' _ hx (by decide))
  obtain ⟨c1, r1⟩ := advance_at r0 (lexStep_blank_then (lexStep_equals _))
  obtain ⟨c2, r2⟩ := advance_at r1
    (lexStep_blank_then (lexStep_literal_then a ' ' _ ha (by decide)))
  obtain ⟨c3, r3⟩ := advance_at r2 (lexStep_blank_then (lexStep_star _))
  obtain ⟨c4, r4⟩ := advance_at r3
    (lexStep_blank_then (lexStep_literal_then b ' ' _ hb (by decide)))
  obtain ⟨c5, r5⟩ := advance_at r4 (lexStep_blank_then (lexStep_plus _))
  obtain ⟨c6, r6⟩ := advance_at r5
    (lexStep_blank_then (lexStep_literal_then c ';' _ hc (by decide)))
  obtain ⟨c7, r7⟩ := advance_at r6 (lexStep_semicolon _)
  have e1 : termAsDouble (k + 4) _ = .ok (A.mul va vb) _ :=
    (termAsDouble_of (k + 3) (factor_number (k + 2) c2 hva)).trans
      ((termLoop_star (k + 2) va (by rw [c3]) (factor_number (k + 1) c4 hvb)).trans
        (termLoop_done (k + 1) _ (by rw [c5]; decide) (by rw [c5]; decide)))
  have e2 : termAsDouble (k + 3) _ = .ok vc _ :=
    (termAsDouble_of (k + 2) (factor_number (k + 1) c6 hvc)).trans
      (termLoop_done (k + 1) _ (by rw [c7]; decide) (by rw [c7]; decide))
  have e3 : expressionAsDouble (k + 5) _ = .ok (A.add (A.mul va vb) vc) _ :=
    (expressionAsDouble_of (k + 4) e1).trans
      ((exprLoop_plus (k + 3) _ (by rw [c5]) e2).trans
        (exprLoop_done (k + 2) _ (by rw [c7]; decide) (by rw [c7]; decide)))
  have e4 := assignStatement_of (k + 5) c0 (by rw [c1]) e3 (by rw [c7])
  refine ⟨_, (parse_assign (k + 5) (by rw [c0]) e4).trans (parse_end (k + 4) ?_), rfl, rfl, rfl⟩
  rw [advance_currentToken]
  show (lexStep (Parser.lexer _).rest).1.type = _
  rw [r7, lexStep_nil]

theorem assign_paren_mul (hx : isIdentifier x = true) (ha : isLiteral a = true)
    (hb : isLiteral b = true) (hc : isLiteral c = true) (hva : A.stod a = some va)
    (hvb : A.stod b = some vb) (hvc : A.stod c = some vc) (k : Nat) :
    ∃ q, parse (k + 8) (Parser.load A
        (x ++ [' ', '=', ' ', '('] ++ a ++ [' ', '+', ' '] ++ b ++ [')', ' ', '*', ' '] ++ c ++
          [';'])
        vars out) = .ok () q ∧
      q.vars = vars.assign x (A.mul (A.add va vb) vc) ∧ q.out = out ∧ q.err = [] := by
  simp only [List.append_assoc, List.cons_append, List.nil_append]
  obtain ⟨c0, r0⟩ := load_at vars out (lexStep_identifier_then x ' ' _ hx (by decide))
  obtain ⟨c1, r1⟩ := advance_at r0 (lexStep_blank_then (lexStep_equals _))
  obtain ⟨cp, rp⟩ := advance_at r1 (lexStep_blank_then (lexStep_lparen _))
  obtain ⟨c2, r2⟩ := advance_at rp (lexStep_literal_then a ' ' _ ha (by decide))
  obtain ⟨c3, r3⟩ := advance_at r2 (lexStep_blank_then (lexStep_plus _))
  obtain ⟨c4, r4⟩ := advance_at r3
    (lexStep_blank_then (lexStep_literal_then b ')' _ hb (by decide)))
  obtain ⟨cq, rq⟩ := advance_at r4 (lexStep_rparen _)
  obtain ⟨c5, r5⟩ := advance_at rq (lexStep_blank_then (lexStep_star _))
  obtain ⟨c6, r6⟩ := advance_at r5
    (lexStep_blank_then (lexStep_literal_then c ';' _ hc (by decide)))
  obtain ⟨c7, r7⟩ := advance_at r6 (lexStep_semicolon _)
  have e1 : termAsDouble (k + 3) _ = .ok va _ :=
    (termAsDouble_of (k + 2) (factor_number (k + 1) c2 hva)).trans
      (termLoop_done (k + 1) va (by rw [c3]; decide) (by rw [c3]; decide))
  have e2 : termAsDouble (k + 2) _ = .ok vb _ :=
    (termAsDouble_of (k + 1) (factor_number k c4 hvb)).trans
      (termLoop_done k vb (by rw [cq]; decide) (by rw [cq]; decide))
  have e3 : expressionAsDouble (k + 4) _ = .ok (A.add va vb) _ :=
    (expressionAsDouble_of (k + 3) e1).trans
      ((exprLoop_plus (k + 2) va (by rw [c3]) e2).trans
        (exprLoop_done (k + 1) _ (by rw [cq]; decide) (by rw [cq]; decide)))
  have e4 : factor (k + 5) _ = .ok (A.add va vb) _ :=
    factor_paren (k + 4) (by rw [cp]) e3 (by rw [cq])
  have e5 : termAsDouble (k + 6) _ = .ok (A.mul (A.add va vb) vc) _ :=
    (termAsDouble_of (k + 5) e4).trans
      ((termLoop_star (k + 4) _ (by rw [c5]) (factor_number (k + 3) c6 hvc)).trans
        (termLoop_done (k + 3) _ (by rw [c7]; decide) (by rw [c7]; decide)))
  have e6 : expressionAsDouble (k + 7) _ = .ok (A.mul (A.add va vb) vc) _ :=
    (expressionAsDouble_of (k + 6) e5).trans
      (exprLoop_done (k + 5) _ (by rw [c7]; decide) (by rw [c7]; decide))
  have e7 := assignStatement_of (k + 7) c0 (by rw [c1]) e6 (by rw [c7])
  refine ⟨_, (parse_assign (k + 7) (by rw [c0]) e7).trans (parse_end (k + 6) ?_), rfl, rfl, rfl⟩
  rw [advance_currentToken]
  show (lexStep (Parser.lexer _).rest).1.type = _
  rw [r7, lexStep_nil]

end Precedence

/-! ## Statements that fail, display loops that stall -/

section More

variable {A : Arith}

theorem parse_unexpected {p : Parser A} (f : Nat) (h1 : p.currentToken.type ≠ .Print)
    (h2 : p.currentToken.type ≠ .Identifier) (h3 : p.currentToken.type ≠ .End) :
    parse (f + 1) p =
      .ok () { p with err := p.err ++ [.unexpectedToken p.currentToken.value] } := by
  rw [parse, if_pos h3, if_neg h1, if_neg h2]

theorem parse_print_halted {p q : Parser A} {hh : Halt} (f : Nat)
    (h : p.currentToken.type = .Print) (hs : printStatement f p = .halted hh q) :
    parse (f + 1) p = .halted hh q := by
  rw [parse, if_pos (by rw [h]; decide), if_pos h]
  simp only [hs]

theorem parse_print_outOfFuel {p q : Parser A} (f : Nat)
    (h : p.currentToken.type = .Print) (hs : printStatement f p = .outOfFuel q) :
    parse (f + 1) p = .outOfFuel q := by
  rw [parse, if_pos (by rw [h]; decide), if_pos h]
  simp only [hs]

/-- The display term and the comma skip leave output and error stream alone. -/
theorem displayStep_frame {p q : Parser A} {acc acc1 : List Char}
    (h : displayStep acc p = .ok acc1 q) : q.out = p.out ∧ q.err = p.err := by
  unfold displayStep at h
  cases ht : displayTerm acc p with
  | ok a p1 =>
    rw [ht] at h
    have h1 : p1.out = p.out ∧ p1.err = p.err := by
      unfold displayTerm at ht
      by_cases hs : p.currentToken.type = .String
      · rw [if_pos hs, eat_ok hs] at ht
        simp only [Result.ok.injEq] at ht
        obtain ⟨_, rfl⟩ := ht
        exact ⟨rfl, rfl⟩
      · rw [if_neg hs] at ht
        by_cases hi : p.currentToken.type = .Identifier
        · rw [if_pos hi] at ht
          simp only at ht
          cases hf : formatDouble A (p.vars.subscript p.currentToken.value).1 with
          | none => rw [hf] at ht; exact Result.noConfusion ht
          | some text =>
            rw [hf] at ht
            have hi' : ({ p with vars := (p.vars.subscript p.currentToken.value).2 } :
                Parser A).currentToken.type = .Identifier := hi
            simp only [eat_ok hi', Result.ok.injEq] at ht
            obtain ⟨_, rfl⟩ := ht
            exact ⟨rfl, rfl⟩
        · rw [if_neg hi] at ht
          by_cases hn : p.currentToken.type = .Number
          · rw [if_pos hn] at ht
            cases hv : A.stod p.currentToken.value with
            | none => rw [hv] at ht; exact Result.noConfusion ht
            | some value =>
              rw [hv] at ht
              simp only at ht
              cases hf : formatDouble A value with
              | none => rw [hf] at ht; exact Result.noConfusion ht
              | some text =>
                rw [hf] at ht
                simp only [eat_ok hn, Result.ok.injEq] at ht
                obtain ⟨_, rfl⟩ := ht
                exact ⟨rfl, rfl⟩
          · rw [if_neg hn] at ht
            simp only [Result.ok.injEq] at ht
            obtain ⟨_, rfl⟩ := ht
            exact ⟨rfl, rfl⟩
    simp only at h
    by_cases hc : p1.currentToken.type = .Comma
    · rw [if_pos hc, eat_ok hc] at h
      simp only [Result.ok.injEq] at h
      obtain ⟨_, rfl⟩ := h
      exact h1
    · rw [if_neg hc] at h
      simp only [Result.ok.injEq] at h
      obtain ⟨_, rfl⟩ := h
      exact h1
  | halted hh p1 => rw [ht] at h; exact Result.noConfusion h
  | outOfFuel q0 => rw [ht] at h; exact Result.noConfusion h

theorem expressionLoop_frame (n : Nat) : ∀ (acc acc1 : List Char) (p q : Parser A),
    expressionLoop n acc p = .ok acc1 q → q.out = p.out ∧ q.err = p.err := by
  induction n with
  | zero => intro acc acc1 p q h; rw [expressionLoop] at h; exact Result.noConfusion h
  | succ n ih =>
    intro acc acc1 p q h
    rw [expressionLoop] at h
    split at h
    · cases hs : displayStep acc p with
      | ok a p1 =>
        rw [hs] at h
        obtain ⟨a1, a2⟩ := displayStep_frame hs
        obtain ⟨b1, b2⟩ := ih _ _ _ _ h
        exact ⟨b1.trans a1, b2.trans a2⟩
      | halted hh p1 => rw [hs] at h; exact Result.noConfusion h
      | outOfFuel q0 => rw [hs] at h; exact Result.noConfusion h
    · simp only [Result.ok.injEq] at h
      obtain ⟨_, rfl⟩ := h
      exact ⟨rfl, rfl⟩

theorem expressionLoop_fuel_succ (n : Nat) : ∀ (acc : List Char) (p : Parser A),
    (∀ q, expressionLoop n acc p ≠ .outOfFuel q) →
      expressionLoop (n + 1) acc p = expressionLoop n acc p := by
  induction n with
  | zero => intro acc p h; exact absurd (by rw [expressionLoop]) (h p)
  | succ n ih =>
    intro acc p h
    rw [expressionLoop] at h ⊢
    rw [expressionLoop]
    split
    · rename_i hc
      rw [if_pos hc] at h
      cases hs : displayStep acc p with
      | ok a p1 =>
        rw [hs] at h
        exact ih a p1 h
      | halted hh p1 => rfl
      | outOfFuel q0 => rfl
    · rfl

theorem expression_fuel {n m : Nat} {p q : Parser A} {output : List Char} (hnm : n ≤ m)
    (h : expression n p = .ok output q) : expression m p = .ok output q := by
  unfold expression at h ⊢
  induction hnm with
  | refl => exact h
  | step _ ih =>
    rw [expressionLoop_fuel_succ _ _ _ (by rw [ih]; exact fun _ e => Result.noConfusion e), ih]

/-- A print statement whose display expression stops at something other than
`)`: the line is written, then `eat(RParen)` ends the process. -/
theorem printStatement_unclosed {p p3 : Parser A} {output : List Char} (f : Nat)
    (h : p.currentToken.type = .Print) (h1 : p.advance.currentToken.type = .LParen)
    (he : expression f p.advance.advance = .ok output p3)
    (h3 : p3.currentToken.type ≠ .RParen) :
    printStatement f p = .halted .exit1
      { p3 with out := p3.out ++ [output],
                err := p3.err ++ [.expected .RParen p3.currentToken.type] } := by
  unfold printStatement
  rw [eat_ok h]
  simp only [eat_ok h1, he]
  have h3' : ({ p3 with out := p3.out ++ [output] } : Parser A).currentToken.type ≠ .RParen := h3
  rw [eat_fail h3']

/-- An operator token in the display loop: the iteration changes nothing. -/
theorem displayStep_operator {p : Parser A} (acc : List Char)
    (h : isOperator p.currentToken.type = true) : displayStep acc p = .ok acc p := by
  have h1 : p.currentToken.type ≠ .String := by
    intro e; rw [e] at h; exact absurd h (by decide)
  have h2 : p.currentToken.type ≠ .Identifier := by
    intro e; rw [e] at h; exact absurd h (by decide)
  have h3 : p.currentToken.type ≠ .Number := by
    intro e; rw [e] at h; exact absurd h (by decide)
  have h4 : p.currentToken.type ≠ .Comma := by
    intro e; rw [e] at h; exact absurd h (by decide)
  unfold displayStep displayTerm
  rw [if_neg h1, if_neg h2, if_neg h3]
  simp only [if_neg h4]

theorem expressionLoop_operator {p : Parser A} (h : isOperator p.currentToken.type = true) :
    ∀ (fuel : Nat) (acc : List Char), expressionLoop fuel acc p = .outOfFuel p := by
  have h1 : p.currentToken.type ≠ .End := by
    intro e; rw [e] at h; exact absurd h (by decide)
  have h2 : p.currentToken.type ≠ .Semicolon := by
    intro e; rw [e] at h; exact absurd h (by decide)
  have h3 : p.currentToken.type ≠ .RParen := by
    intro e; rw [e] at h; exact absurd h (by decide)
  intro fuel
  induction fuel with
  | zero => intro acc; rw [expressionLoop]
  | succ n ih =>
    intro acc
    rw [expressionLoop_step n h1 h2 h3 (displayStep_operator acc h)]
    exact ih acc

theorem printStatement_outOfFuel {p q : Parser A} (f : Nat)
    (h : p.currentToken.type = .Print) (h1 : p.advance.currentToken.type = .LParen)
    (he : expression f p.advance.advance = .outOfFuel q) :
    printStatement f p = .outOfFuel q := by
  unfold printStatement
  rw [eat_ok h]
  simp only [eat_ok h1, he]

theorem displayStep_number_last {p : Parser A} {a text : List Char} {v : A.D}
    (acc : List Char) (h : p.currentToken = ⟨.Number, a⟩) (hv : A.stod a = some v)
    (ht : formatDouble A v = some text) (hc : p.advance.currentToken.type ≠ .Comma) :
    displayStep acc p = .ok (acc ++ text) p.advance := by
  have hval : p.currentToken.value = a := by rw [h]
  have hty : p.currentToken.type = .Number := by rw [h]
  unfold displayStep displayTerm
  rw [if_neg (by rw [hty]; decide), if_neg (by rw [hty]; decide), if_pos hty]
  simp only [hval, hv, ht, eat_ok hty, if_neg hc]

theorem eat_ne_outOfFuel (ty : TokenType) (p q : Parser A) : eat ty p ≠ .outOfFuel q := by
  unfold eat
  split <;> exact fun e => Result.noConfusion e

theorem displayTerm_ne_outOfFuel (acc : List Char) (p q : Parser A) :
    displayTerm acc p ≠ .outOfFuel q := by
  intro ht
  unfold displayTerm at ht
  by_cases hs : p.currentToken.type = .String
  · rw [if_pos hs, eat_ok hs] at ht
    exact Result.noConfusion ht
  · rw [if_neg hs] at ht
    by_cases hi : p.currentToken.type = .Identifier
    · rw [if_pos hi] at ht
      simp only at ht
      cases hf : formatDouble A (p.vars.subscript p.currentToken.value).1 with
      | none => rw [hf] at ht; exact Result.noConfusion ht
      | some text =>
        rw [hf] at ht
        have hi' : ({ p with vars := (p.vars.subscript p.currentToken.value).2 } :
            Parser A).currentToken.type = .Identifier := hi
        rw [eat_ok hi'] at ht
        exact Result.noConfusion ht
    · rw [if_neg hi] at ht
      by_cases hn : p.currentToken.type = .Number
      · rw [if_pos hn] at ht
        cases hv : A.stod p.currentToken.value with
        | none => rw [hv] at ht; exact Result.noConfusion ht
        | some value =>
          rw [hv] at ht
          simp only at ht
          cases hf : formatDouble A value with
          | none => rw [hf] at ht; exact Result.noConfusion ht
          | some text =>
            rw [hf] at ht
            rw [eat_ok hn] at ht
            exact Result.noConfusion ht
      · rw [if_neg hn] at ht
        exact Result.noConfusion ht

theorem displayStep_ne_outOfFuel (acc : List Char) (p q : Parser A) :
    displayStep acc p ≠ .outOfFuel q := by
  intro h
  unfold displayStep at h
  cases ht : displayTerm acc p with
  | ok a p1 =>
    rw [ht] at h
    simp only at h
    by_cases hc : p1.currentToken.type = .Comma
    · rw [if_pos hc, eat_ok hc] at h
      exact Result.noConfusion h
    · rw [if_neg hc] at h
      exact Result.noConfusion h
  | halted hh p1 => rw [ht] at h; exact Result.noConfusion h
  | outOfFuel q0 => exact displayTerm_ne_outOfFuel acc p q0 ht

/-- The display loop that has run out of fuel has written nothing: the state
reached has the output and the error stream of the start. -/
theorem expressionLoop_outOfFuel_frame (n : Nat) : ∀ (acc : List Char) (p q : Parser A),
    expressionLoop n acc p = .outOfFuel q → q.out = p.out ∧ q.err = p.err := by
  induction n with
  | zero =>
    intro acc p q h
    rw [expressionLoop] at h
    simp only [Result.outOfFuel.injEq] at h
    subst h
    exact ⟨rfl, rfl⟩
  | succ n ih =>
    intro acc p q h
    rw [expressionLoop] at h
    split at h
    · cases hs : displayStep acc p with
      | ok a p1 =>
        rw [hs] at h
        obtain ⟨a1, a2⟩ := displayStep_frame hs
        obtain ⟨b1, b2⟩ := ih _ _ _ h
        exact ⟨b1.trans a1, b2.trans a2⟩
      | halted hh p1 => rw [hs] at h; exact Result.noConfusion h
      | outOfFuel q0 => exact absurd hs (displayStep_ne_outOfFuel acc p q0)
    · exact Result.noConfusion h

/-- A print statement that has run out of fuel has written nothing: the fuel
ran out inside the display loop, before the line is written. -/
theorem printStatement_outOfFuel_frame {p q : Parser A} (f : Nat)
    (h : printStatement f p = .outOfFuel q) : q.out = p.out ∧ q.err = p.err := by
  unfold printStatement at h
  by_cases h0 : p.currentToken.type = .Print
  · rw [eat_ok h0] at h
    simp only at h
    by_cases h1 : p.advance.currentToken.type = .LParen
    · rw [eat_ok h1] at h
      simp only at h
      cases he : expression f p.advance.advance with
      | ok output p3 =>
        rw [he] at h
        simp only at h
        by_cases h3 : p3.currentToken.type = .RParen
        · have h3' : ({ p3 with out := p3.out ++ [output] } : Parser A).currentToken.type =
              .RParen := h3
          rw [eat_ok h3'] at h
          exact absurd h (eat_ne_outOfFuel _ _ _)
        · have h3' : ({ p3 with out := p3.out ++ [output] } : Parser A).currentToken.type ≠
              .RParen := h3
          rw [eat_fail h3'] at h
          exact Result.noConfusion h
      | halted hh p3 => rw [he] at h; exact Result.noConfusion h
      | outOfFuel q0 =>
        rw [he] at h
        simp only [Result.outOfFuel.injEq] at h
        subst h
        obtain ⟨a1, a2⟩ := expressionLoop_outOfFuel_frame f [] _ _ he
        simp only [advance_out, advance_err] at a1 a2
        exact ⟨a1, a2⟩
    · rw [eat_fail h1] at h
      exact Result.noConfusion h
  · rw [eat_fail h0] at h
    exact Result.noConfusion h

/-- The program `print(1 + 2);` runs out of fuel whatever the fuel: after the
literal `1` the display loop stands at the `+` for ever.  The state reached
when the fuel runs out has the output, the variable table and the error stream
of the start: nothing has been written. -/
theorem print_one_plus_two (v : A.D) (text : List Char) (vars : Env A)
    (out : List (List Char)) (hv : A.stod ['1'] = some v)
    (ht : formatDouble A v = some text) (fuel : Nat) :
    ∃ q, parse fuel (Parser.load A
      ['p', 'r', 'i', 'n', 't', '(', '1', ' ', '+', ' ', '2', ')', ';'] vars out) =
        .outOfFuel q ∧ q.out = out ∧ q.vars = vars ∧ q.err = [] := by
  obtain ⟨c0, r0⟩ := load_at vars out
    (lexStep_print '(' ['1', ' ', '+', ' ', '2', ')', ';'] (by decide))
  obtain ⟨c1, r1⟩ := advance_at r0 (lexStep_lparen _)
  obtain ⟨c2, r2⟩ := advance_at r1
    (lexStep_literal_then ['1'] ' ' ['+', ' ', '2', ')', ';'] (by decide) (by decide))
  obtain ⟨c3, r3⟩ := advance_at r2 (lexStep_blank_then (lexStep_plus _))
  cases fuel with
  | zero => exact ⟨_, by rw [parse], load_out _ _ _, load_vars _ _ _, load_err _ _ _⟩
  | succ f =>
    cases f with
    | zero =>
      refine ⟨_, parse_print_outOfFuel 0 (by rw [c0]) (printStatement_outOfFuel 0 (by rw [c0])
        (by rw [c1]) (by rw [expression, expressionLoop])), ?_, ?_, ?_⟩
      · simp only [advance_out, load_out]
      · simp only [advance_vars, load_vars]
      · simp only [advance_err, load_err]
    | succ f =>
      have he : expression (f + 1) (Parser.load A
          ['p', 'r', 'i', 'n', 't', '(', '1', ' ', '+', ' ', '2', ')', ';'] vars
          out).advance.advance = .outOfFuel (Parser.load A
          ['p', 'r', 'i', 'n', 't', '(', '1', ' ', '+', ' ', '2', ')', ';'] vars
          out).advance.advance.advance := by
        rw [expression, expressionLoop_step f (by rw [c2]; decide) (by rw [c2]; decide)
          (by rw [c2]; decide) (displayStep_number_last [] c2 hv ht (by rw [c3]; decide))]
        exact expressionLoop_operator (by rw [c3]; decide) f _
      refine ⟨_, parse_print_outOfFuel (f + 1) (by rw [c0]) (printStatement_outOfFuel (f + 1)
        (by rw [c0]) (by rw [c1]) he), ?_, ?_, ?_⟩
      · simp only [advance_out, load_out]
      · simp only [advance_vars, load_vars]
      · simp only [advance_err, load_err]

end More

/-! ## Chains of operators, division, missing blanks -/

section Chains

variable {A : Arith}

theorem factor_fuel {n m : Nat} {p p' : Parser A} {v : A.D} (hnm : n ≤ m)
    (h : factor n p = .ok v p') : factor m p = .ok v p' := by
  induction hnm with
  | refl => exact h
  | step _ ih =>
    rw [(evaluator_fuel_succ _).2.2.2.2 p (by rw [ih]; exact fun _ e => Result.noConfusion e), ih]

theorem assignStatement_unterminated {p p3 : Parser A} {x : List Char} {v : A.D} (f : Nat)
    (h : p.currentToken = ⟨.Identifier, x⟩) (h1 : p.advance.currentToken.type = .Equals)
    (he : expressionAsDouble f p.advance.advance = .ok v p3)
    (h3 : p3.currentToken.type ≠ .Semicolon) :
    assignStatement f p = .halted .exit1
      { p3 with vars := p3.vars.assign x v,
                err := p3.err ++ [.expected .Semicolon p3.currentToken.type] } := by
  rw [assignStatement, eat_ok (by rw [h])]
  simp only [eat_ok h1, he, h]
  have h3' : ({ p3 with vars := p3.vars.assign x v } : Parser A).currentToken.type ≠
      .Semicolon := h3
  exact eat_fail h3'

theorem lexStep_blank_minus (s : List Char) :
    lexStep (' ' :: '-' :: ' ' :: s) = (⟨.Minus, ['-']⟩, ' ' :: s) :=
  lexStep_blank_then (lexStep_minus (' ' :: s) (by simp; decide))

theorem lexStep_blank_slash (s : List Char) :
    lexStep (' ' :: '/' :: ' ' :: s) = (⟨.Slash, ['/']⟩, ' ' :: s) :=
  lexStep_blank_then (lexStep_slash (' ' :: s) (by simp))

theorem chain_boundary (chain : List (Char × List Char)) (r : List Char) :
    ∀ c ∈ (chainText chain ++ ';' :: r).head?, numberChar c = false := by
  cases chain with
  | nil => simp [chainText]; decide
  | cons t rest =>
    obtain ⟨op, lit⟩ := t
    simp [chainText]; decide

/-- The token at the head of the rest of an additive chain is `+`, `-` or `;`. -/
theorem additive_chain_head (chain : List (Char × List Char)) (r : List Char)
    (hops : ∀ t ∈ chain, t.1 = '+' ∨ t.1 = '-') :
    (lexStep (chainText chain ++ ';' :: r)).1.type ≠ .Star ∧
      (lexStep (chainText chain ++ ';' :: r)).1.type ≠ .Slash := by
  cases chain with
  | nil =>
    simp only [chainText, List.nil_append, lexStep_semicolon]
    exact ⟨by decide, by decide⟩
  | cons t rest =>
    obtain ⟨op, lit⟩ := t
    rcases hops (op, lit) (by simp) with h | h
    · simp only at h
      subst h
      simp only [chainText, List.cons_append, lexStep_blank_then (lexStep_plus _)]
      exact ⟨by decide, by decide⟩
    · simp only at h
      subst h
      simp only [chainText, List.cons_append, lexStep_blank_minus]
      exact ⟨by decide, by decide⟩

theorem applyOp_plus (v w : A.D) : applyOp A '+' v w = A.add v w := rfl

theorem applyOp_minus (v w : A.D) : applyOp A '-' v w = A.sub v w := by
  simp [applyOp]

theorem applyOp_star (v w : A.D) : applyOp A '*' v w = A.mul v w := by
  simp [applyOp]

theorem applyOp_slash (v w : A.D) : applyOp A '/' v w = A.div v w := by
  simp [applyOp]

/-- The loop of `expressionAsDouble` on the rest of an additive chain of
literals: it folds the operands into the running result from the left and
stops at the `;`. -/
theorem exprLoop_chain (r : List Char) (chain : List (Char × List Char)) :
    ∀ (v res : A.D) (p : Parser A) (k : Nat),
      (∀ t ∈ chain, (t.1 = '+' ∨ t.1 = '-') ∧ isLiteral t.2 = true) →
      chainValue A v chain = some res →
      p.currentToken = (lexStep (chainText chain ++ ';' :: r)).1 →
      p.lexer.rest = (lexStep (chainText chain ++ ';' :: r)).2 →
      ∃ q, exprLoop (k + chain.length + 3) v p = .ok res q ∧
        q.currentToken = ⟨.Semicolon, [';']⟩ ∧ q.lexer.rest = r ∧ q.vars = p.vars ∧
        q.out = p.out ∧ q.err = p.err := by
  induction chain with
  | nil =>
    intro v res p k _ hval hc hr
    simp only [chainText, List.nil_append, lexStep_semicolon] at hc hr
    simp only [chainValue, Option.some.injEq] at hval
    subst hval
    exact ⟨p, exprLoop_done _ v (by rw [hc]; decide) (by rw [hc]; decide), hc, hr,
      rfl, rfl, rfl⟩
  | cons t rest ih =>
    intro v res p k hgood hval hc hr
    obtain ⟨op, lit⟩ := t
    obtain ⟨hop, hlit⟩ := hgood (op, lit) (by simp)
    simp only at hop hlit
    have hgood' : ∀ t ∈ rest, (t.1 = '+' ∨ t.1 = '-') ∧ isLiteral t.2 = true :=
      fun t ht => hgood t (by simp [ht])
    simp only [chainValue] at hval
    cases hw : A.stod lit with
    | none => rw [hw] at hval; exact absurd hval (by simp)
    | some w =>
      rw [hw] at hval
      simp only at hval
      simp only [chainText, List.cons_append, List.append_assoc] at hc hr
      have hl : lexStep (' ' :: (lit ++ (chainText rest ++ ';' :: r))) =
          (⟨.Number, lit⟩, chainText rest ++ ';' :: r) :=
        lexStep_blank_then (lexStep_literal lit _ hlit (chain_boundary rest r))
      have hhead := additive_chain_head rest r (fun t ht => (hgood' t ht).1)
      have e : k + ((op, lit) :: rest).length + 3 = (k + rest.length + 3) + 1 := by
        simp only [List.length_cons]; omega
      rcases hop with rfl | rfl
      · rw [lexStep_blank_then (lexStep_plus _)] at hc hr
        obtain ⟨c1, r1⟩ := advance_at hr hl
        have ht : termAsDouble (k + rest.length + 3) p.advance = .ok w p.advance.advance :=
          (termAsDouble_of (k + rest.length + 2)
            (factor_number (k + rest.length + 1) c1 hw)).trans
            (termLoop_done (k + rest.length + 1) w
              (by rw [advance_currentToken, r1]; exact hhead.1)
              (by rw [advance_currentToken, r1]; exact hhead.2))
        rw [applyOp_plus] at hval
        obtain ⟨q, hq, q1, q2, q3, q4, q5⟩ := ih (A.add v w) res p.advance.advance k hgood'
          hval (by rw [advance_currentToken, r1]) (by rw [advance_rest, r1])
        have hty : p.currentToken.type = .Plus := by rw [hc]
        have hstep := exprLoop_plus (k + rest.length + 3) v hty ht
        rw [e]
        simp only [advance_vars, advance_out, advance_err] at q3 q4 q5
        exact ⟨q, hstep.trans hq, q1, q2, q3, q4, q5⟩
      · rw [lexStep_blank_minus] at hc hr
        obtain ⟨c1, r1⟩ := advance_at hr hl
        have ht : termAsDouble (k + rest.length + 3) p.advance = .ok w p.advance.advance :=
          (termAsDouble_of (k + rest.length + 2)
            (factor_number (k + rest.length + 1) c1 hw)).trans
            (termLoop_done (k + rest.length + 1) w
              (by rw [advance_currentToken, r1]; exact hhead.1)
              (by rw [advance_currentToken, r1]; exact hhead.2))
        rw [applyOp_minus] at hval
        obtain ⟨q, hq, q1, q2, q3, q4, q5⟩ := ih (A.sub v w) res p.advance.advance k hgood'
          hval (by rw [advance_currentToken, r1]) (by rw [advance_rest, r1])
        have hty : p.currentToken.type = .Minus := by rw [hc]
        have hstep := exprLoop_minus (k + rest.length + 3) v hty ht
        rw [e]
        simp only [advance_vars, advance_out, advance_err] at q3 q4 q5
        exact ⟨q, hstep.trans hq, q1, q2, q3, q4, q5⟩

/-- The loop of `termAsDouble` on the rest of a multiplicative chain of literals:
it folds the operands into the running result from the left and stops at the
`;`. -/
theorem termLoop_chain (r : List Char) (chain : List (Char × List Char)) :
    ∀ (v res : A.D) (p : Parser A) (k : Nat),
      (∀ t ∈ chain, (t.1 = '*' ∨ t.1 = '/') ∧ isLiteral t.2 = true) →
      chainValue A v chain = some res →
      p.currentToken = (lexStep (chainText chain ++ ';' :: r)).1 →
      p.lexer.rest = (lexStep (chainText chain ++ ';' :: r)).2 →
      ∃ q, termLoop (k + chain.length + 1) v p = .ok res q ∧
        q.currentToken = ⟨.Semicolon, [';']⟩ ∧ q.lexer.rest = r ∧ q.vars = p.vars ∧
        q.out = p.out ∧ q.err = p.err := by
  induction chain with
  | nil =>
    intro v res p k _ hval hc hr
    simp only [chainText, List.nil_append, lexStep_semicolon] at hc hr
    simp only [chainValue, Option.some.injEq] at hval
    subst hval
    exact ⟨p, termLoop_done _ v (by rw [hc]; decide) (by rw [hc]; decide), hc, hr,
      rfl, rfl, rfl⟩
  | cons t rest ih =>
    intro v res p k hgood hval hc hr
    obtain ⟨op, lit⟩ := t
    obtain ⟨hop, hlit⟩ := hgood (op, lit) (by simp)
    simp only at hop hlit
    have hgood' : ∀ t ∈ rest, (t.1 = '*' ∨ t.1 = '/') ∧ isLiteral t.2 = true :=
      fun t ht => hgood t (by simp [ht])
    simp only [chainValue] at hval
    cases hw : A.stod lit with
    | none => rw [hw] at hval; exact absurd hval (by simp)
    | some w =>
      rw [hw] at hval
      simp only at hval
      simp only [chainText, List.cons_append, List.append_assoc] at hc hr
      have hl : lexStep (' ' :: (lit ++ (chainText rest ++ ';' :: r))) =
          (⟨.Number, lit⟩, chainText rest ++ ';' :: r) :=
        lexStep_blank_then (lexStep_literal lit _ hlit (chain_boundary rest r))
      have e : k + ((op, lit) :: rest).length + 1 = (k + rest.length + 1) + 1 := by
        simp only [List.length_cons]; omega
      rcases hop with rfl | rfl
      · rw [lexStep_blank_then (lexStep_star _)] at hc hr
        obtain ⟨c1, r1⟩ := advance_at hr hl
        rw [applyOp_star] at hval
        obtain ⟨q, hq, q1, q2, q3, q4, q5⟩ := ih (A.mul v w) res p.advance.advance k hgood'
          hval (by rw [advance_currentToken, r1]) (by rw [advance_rest, r1])
        have hty : p.currentToken.type = .Star := by rw [hc]
        have hstep := termLoop_star (k + rest.length + 1) v hty
          (factor_number (k + rest.length) c1 hw)
        rw [e]
        simp only [advance_vars, advance_out, advance_err] at q3 q4 q5
        exact ⟨q, hstep.trans hq, q1, q2, q3, q4, q5⟩
      · rw [lexStep_blank_slash] at hc hr
        obtain ⟨c1, r1⟩ := advance_at hr hl
        rw [applyOp_slash] at hval
        obtain ⟨q, hq, q1, q2, q3, q4, q5⟩ := ih (A.div v w) res p.advance.advance k hgood'
          hval (by rw [advance_currentToken, r1]) (by rw [advance_rest, r1])
        have hty : p.currentToken.type = .Slash := by rw [hc]
        have hstep := termLoop_slash (k + rest.length + 1) v hty
          (factor_number (k + rest.length) c1 hw)
        rw [e]
        simp only [advance_vars, advance_out, advance_err] at q3 q4 q5
        exact ⟨q, hstep.trans hq, q1, q2, q3, q4, q5⟩

/-- The program `x = a op1 t1 ... opn tn;` for an additive chain of literals binds
`x` to the chain folded from the left. -/
theorem assign_additive_chain (x a : List Char) (chain : List (Char × List Char))
    (va res : A.D) (vars : Env A) (out : List (List Char)) (hx : isIdentifier x = true)
    (ha : isLiteral a = true) (hva : A.stod a = some va)
    (hgood : ∀ t ∈ chain, (t.1 = '+' ∨ t.1 = '-') ∧ isLiteral t.2 = true)
    (hval : chainValue A va chain = some res) (k : Nat) :
    ∃ q, parse (k + chain.length + 5) (Parser.load A
        (x ++ [' ', '=', ' '] ++ a ++ chainText chain ++ [';']) vars out) = .ok () q ∧
      q.vars = vars.assign x res ∧ q.out = out ∧ q.err = [] := by
  simp only [List.append_assoc, List.cons_append, List.nil_append]
  obtain ⟨c0, r0⟩ := load_at vars out (lexStep_identifier_then x ' ' _ hx (by decide))
  obtain ⟨c1, r1⟩ := advance_at r0 (lexStep_blank_then (lexStep_equals _))
  obtain ⟨c2, r2⟩ := advance_at r1
    (lexStep_blank_then (lexStep_literal a _ ha (chain_boundary chain [])))
  have hhead := additive_chain_head chain [] (fun t ht => (hgood t ht).1)
  have ht : termAsDouble (k + chain.length + 3) _ = .ok va _ :=
    (termAsDouble_of (k + chain.length + 2) (factor_number (k + chain.length + 1) c2 hva)).trans
      (termLoop_done (k + chain.length + 1) va
        (by rw [advance_currentToken, r2]; exact hhead.1)
        (by rw [advance_currentToken, r2]; exact hhead.2))
  obtain ⟨p4, hp4, d0, d1, dv, dout, de⟩ := exprLoop_chain [] chain va res
    (Parser.load A _ vars out).advance.advance.advance k hgood hval
    (by rw [advance_currentToken, r2]) (by rw [advance_rest, r2])
  have he := (expressionAsDouble_of (k + chain.length + 3) ht).trans hp4
  obtain ⟨q, hq, q0, _, qv, qo, qe⟩ :=
    assignStatement_state (k + chain.length + 4) c0 (by rw [c1]) he (by rw [d0])
  simp only [advance_vars, advance_out, advance_err, load_vars, load_out, load_err] at dv dout de
  refine ⟨q, (parse_assign (k + chain.length + 4) (by rw [c0]) hq).trans
    (parse_end (k + chain.length + 3) ?_), ?_, ?_, ?_⟩
  · rw [q0, nextToken_fst, d1, lexStep_nil]
  · rw [qv, dv]
  · rw [qo, dout]
  · rw [qe, de]

/-- The program `x = a op1 t1 ... opn tn;` for a multiplicative chain of literals
binds `x` to the chain folded from the left. -/
theorem assign_multiplicative_chain (x a : List Char) (chain : List (Char × List Char))
    (va res : A.D) (vars : Env A) (out : List (List Char)) (hx : isIdentifier x = true)
    (ha : isLiteral a = true) (hva : A.stod a = some va)
    (hgood : ∀ t ∈ chain, (t.1 = '*' ∨ t.1 = '/') ∧ isLiteral t.2 = true)
    (hval : chainValue A va chain = some res) (k : Nat) :
    ∃ q, parse (k + chain.length + 5) (Parser.load A
        (x ++ [' ', '=', ' '] ++ a ++ chainText chain ++ [';']) vars out) = .ok () q ∧
      q.vars = vars.assign x res ∧ q.out = out ∧ q.err = [] := by
  simp only [List.append_assoc, List.cons_append, List.nil_append]
  obtain ⟨c0, r0⟩ := load_at vars out (lexStep_identifier_then x ' ' _ hx (by decide))
  obtain ⟨c1, r1⟩ := advance_at r0 (lexStep_blank_then (lexStep_equals _))
  obtain ⟨c2, r2⟩ := advance_at r1
    (lexStep_blank_then (lexStep_literal a _ ha (chain_boundary chain [])))
  obtain ⟨p4, hp4, d0, d1, dv, dout, de⟩ := termLoop_chain [] chain va res
    (Parser.load A _ vars out).advance.advance.advance (k + 1) hgood hval
    (by rw [advance_currentToken, r2]) (by rw [advance_rest, r2])
  have e : k + 1 + chain.length + 1 = k + chain.length + 2 := by omega
  rw [e] at hp4
  have ht : termAsDouble (k + chain.length + 3) _ = .ok res p4 :=
    (termAsDouble_of (k + chain.length + 2)
      (factor_number (k + chain.length + 1) c2 hva)).trans hp4
  have he := (expressionAsDouble_of (k + chain.length + 3) ht).trans
    (exprLoop_done (k + chain.length + 2) res (by rw [d0]; decide) (by rw [d0]; decide))
  obtain ⟨q, hq, q0, _, qv, qo, qe⟩ :=
    assignStatement_state (k + chain.length + 4) c0 (by rw [c1]) he (by rw [d0])
  simp only [advance_vars, advance_out, advance_err, load_vars, load_out, load_err] at dv dout de
  refine ⟨q, (parse_assign (k + chain.length + 4) (by rw [c0]) hq).trans
    (parse_end (k + chain.length + 3) ?_), ?_, ?_, ?_⟩
  · rw [q0, nextToken_fst, d1, lexStep_nil]
  · rw [qv, dv]
  · rw [qo, dout]
  · rw [qe, de]

/-! ### A minus sign directly before a digit -/

theorem isDigits_all {b : List Char} (hb : isDigits b = true) :
    (∃ d ds, b = d :: ds ∧ isdigit d = true) ∧ (∀ c ∈ b, isdigit c = true) := by
  cases b with
  | nil => simp [isDigits] at hb
  | cons d ds =>
    simp only [isDigits, Bool.and_eq_true, List.all_eq_true] at hb
    refine ⟨⟨d, ds, rfl, hb.1⟩, ?_⟩
    intro c hc
    rcases List.mem_cons.1 hc with rfl | hc
    · exact hb.1
    · exact hb.2 c hc

theorem count_point_digits {b : List Char} (hb : ∀ c ∈ b, isdigit c = true) :
    b.count '.' = 0 := by
  rw [List.count_eq_zero]
  intro h
  exact absurd (hb '.' h) (by decide)

theorem isLiteral_of_isDigits {b : List Char} (hb : isDigits b = true) :
    isLiteral b = true := by
  obtain ⟨⟨d, ds, rfl, hd⟩, hall⟩ := isDigits_all hb
  have hds : ∀ c ∈ ds, isdigit c = true := fun c hc => hall c (by simp [hc])
  simp only [isLiteral, Bool.and_eq_true, decide_eq_true_eq, List.all_eq_true]
  refine ⟨⟨hd, fun c hc => (isdigit_facts (hds c hc)).2.2.2.2.2⟩, ?_⟩
  rw [count_point_digits hds]
  exact Nat.zero_le _

/-- A minus sign followed by digits is one Number token whose payload starts
with the minus sign. -/
theorem lexStep_negative (b r : List Char) (hb : isDigits b = true)
    (hr : ∀ c ∈ r.head?, numberChar c = false) :
    lexStep ('-' :: (b ++ r)) = (⟨.Number, '-' :: b⟩, r) := by
  obtain ⟨⟨d, ds, rfl, hd⟩, hall⟩ := isDigits_all hb
  have hloop : numberLoop (d :: ds ++ r) false = (d :: ds).length :=
    numberLoop_append (d :: ds) r hr false
      (fun c hc => (isdigit_facts (hall c hc)).2.2.2.2.2)
      (by rw [count_point_digits hall]; decide)
  unfold lexStep
  rw [List.length_cons, nextTokenAux_cons (by decide),
    if_neg (fun h => absurd h.1 (by decide)), if_neg (by decide),
    if_pos (Or.inr ⟨rfl, by simpa [charAt] using hd⟩)]
  have h0 : charAt ('-' :: (d :: ds ++ r)) 0 = '-' := rfl
  simp only [parseNumber, h0, if_pos, List.drop_succ_cons, List.drop_zero, hloop]
  have e1 : 1 + (d :: ds).length = ('-' :: d :: ds).length := by simp [Nat.add_comm]
  have e2 : '-' :: (d :: ds ++ r) = ('-' :: d :: ds) ++ r := rfl
  rw [e1, e2, List.take_left', List.drop_left']
  all_goals rfl

/-- The program `x = a` followed directly by a token that is not `;`: the value
of `a` is assigned, then `eat(Semicolon)` ends the process. -/
theorem assign_literal_then_junk (x a r r' : List Char) (tok : Token) (va : A.D)
    (vars : Env A) (out : List (List Char)) (hx : isIdentifier x = true)
    (ha : isLiteral a = true) (hva : A.stod a = some va)
    (hnext : lexStep r = (tok, r')) (hr : ∀ c ∈ r.head?, numberChar c = false)
    (h1 : tok.type ≠ .Star) (h2 : tok.type ≠ .Slash) (h3 : tok.type ≠ .Plus)
    (h4 : tok.type ≠ .Minus) (h5 : tok.type ≠ .Semicolon) (k : Nat) :
    ∃ q, parse (k + 5) (Parser.load A (x ++ [' ', '=', ' '] ++ a ++ r) vars out) =
        .halted .exit1 q ∧
      q.err = [.expected .Semicolon tok.type] ∧ q.vars = vars.assign x va ∧ q.out = out := by
  simp only [List.append_assoc, List.cons_append, List.nil_append]
  obtain ⟨c0, r0⟩ := load_at vars out (lexStep_identifier_then x ' ' _ hx (by decide))
  obtain ⟨c1, r1⟩ := advance_at r0 (lexStep_blank_then (lexStep_equals _))
  obtain ⟨c2, r2⟩ := advance_at r1 (lexStep_blank_then (lexStep_literal a r ha hr))
  obtain ⟨c3, r3⟩ := advance_at r2 hnext
  have he : expressionAsDouble (k + 4) _ = .ok va _ :=
    (expressionAsDouble_of (k + 3)
      ((termAsDouble_of (k + 2) (factor_number (k + 1) c2 hva)).trans
        (termLoop_done (k + 1) va (by rw [c3]; exact h1) (by rw [c3]; exact h2)))).trans
      (exprLoop_done (k + 2) va (by rw [c3]; exact h3) (by rw [c3]; exact h4))
  have hs := assignStatement_unterminated (k + 4) c0 (by rw [c1]) he (by rw [c3]; exact h5)
  refine ⟨_, parse_assign_halted (k + 4) (by rw [c0]) hs, ?_, rfl, rfl⟩
  show (Parser.err _) ++ [Diag.expected .Semicolon (Parser.currentToken _).type] = _
  rw [c3]
  rfl

theorem tokens_step {L : Lexer} {s s' : List Char} {tok : Token} (n : Nat)
    (hr : L.rest = s) (h : lexStep s = (tok, s')) :
    tokens (n + 1) L = tok :: tokens n (nextToken L).2 ∧ (nextToken L).2.rest = s' := by
  constructor
  · rw [tokens_succ, hr, h]
  · rw [nextToken_snd_rest, hr, h]

end Chains

/-! ## Where a token starts, how far the cursor moves -/

theorem nextToken_eq (L : Lexer) :
    nextToken L = ((nextTokenAux (L.rest.length + 1) L.rest).1,
      ⟨L.src, L.index + (nextTokenAux (L.rest.length + 1) L.rest).2⟩) := rfl

/-- White space and comments before a token are skipped: the unread text is a
blank part followed by a text that starts with neither, the token is the one
found there, and the cursor moves over the blank part and the token. -/
theorem nextTokenAux_skip (n : Nat) : ∀ s : List Char, s.length ≤ n →
    ∃ pre t, s = pre ++ t ∧ OnlyBlank pre ∧
      (∀ c ∈ t.head?, isspace c = false ∧ ¬ (c = '/' ∧ charAt t 1 = '/')) ∧
      nextTokenAux (s.length + 1) s =
        ((nextTokenAux (t.length + 1) t).1, pre.length + (nextTokenAux (t.length + 1) t).2) := by
  induction n using Nat.strong_induction_on with
  | _ n ih =>
    intro s hn
    cases s with
    | nil => exact ⟨[], [], rfl, OnlyBlank.nil, by simp, rfl⟩
    | cons c s =>
      simp only [List.length_cons] at hn
      by_cases hc : isspace c = true
      · obtain ⟨pre, t, hs, hpre, ht, hres⟩ := ih (n - 1) (by omega) s (by omega)
        refine ⟨c :: pre, t, by rw [hs]; rfl, OnlyBlank.space c pre hc hpre, ht, ?_⟩
        rw [List.length_cons, nextTokenAux_space hc,
          nextTokenAux_eq s (s.length + 1 + 1) (by omega), hres]
        simp only [List.length_cons, Prod.mk.injEq, true_and]
        omega
      · have hc' : isspace c = false := by simpa using hc
        by_cases hcomment : c = '/' ∧ charAt (c :: s) 1 = '/'
        · obtain ⟨rfl, h2⟩ := hcomment
          obtain ⟨t, rfl⟩ := charAt_one_eq_slash h2
          obtain ⟨cm, r, hcn, rfl, hr, hdrop⟩ := comment_shape t
          have hle := runLength_le (fun c => c != '\n') ('/' :: '/' :: (cm ++ r))
          have hrun : runLength (fun c => c != '\n') ('/' :: '/' :: (cm ++ r)) =
              cm.length + 2 := by
            have hl := congrArg List.length hdrop
            simp only [List.length_drop, List.length_cons, List.length_append] at hl hle
            omega
          have hstep : nextTokenAux (('/' :: '/' :: (cm ++ r)).length + 1)
              ('/' :: '/' :: (cm ++ r)) =
              ((nextTokenAux (r.length + 1) r).1,
                cm.length + 2 + (nextTokenAux (r.length + 1) r).2) := by
            rw [nextTokenAux_cons (by decide), if_pos ⟨rfl, h2⟩, hdrop, hrun,
              nextTokenAux_eq r _ (by simp only [List.length_cons, List.length_append]; omega)]
          rcases hr with rfl | ⟨r', rfl⟩
          · refine ⟨'/' :: '/' :: cm, [], by simp, OnlyBlank.commentToEnd cm hcn, by simp, ?_⟩
            rw [hstep]
            simp only [List.append_nil, List.length_cons]
          · obtain ⟨pre, t, hs, hpre, ht, hres⟩ := ih (n - 1) (by omega) ('\n' :: r')
              (by simp only [List.length_cons, List.length_append] at hn ⊢; omega)
            cases pre with
            | nil =>
              rw [List.nil_append] at hs
              rw [← hs] at ht
              exact absurd (ht '\n' (by simp)).1 (by decide)
            | cons d pre =>
              have hd : d = '\n' := by
                rw [List.cons_append] at hs
                exact (List.cons.inj hs).1.symm
              subst hd
              have hs' : r' = pre ++ t := (List.cons.inj hs).2
              refine ⟨'/' :: '/' :: (cm ++ '\n' :: pre), t, by rw [hs']; simp,
                OnlyBlank.commentLine cm pre hcn hpre.tail_newline, ht, ?_⟩
              rw [hstep, hres]
              simp only [List.length_cons, List.length_append, Prod.mk.injEq, true_and]
              omega
        · exact ⟨[], c :: s, rfl, OnlyBlank.nil, by
            intro d hd
            simp at hd
            subst hd
            exact ⟨hc', hcomment⟩, by simp⟩

theorem rest_drop (L : Lexer) (n : Nat) :
    (Lexer.mk L.src (L.index + n)).rest = L.rest.drop n := by
  simp only [Lexer.rest, List.drop_drop]

theorem take_runLength (p : Char → Bool) (l : List Char) :
    l.take (l.takeWhile p).length = l.takeWhile p := by
  induction l with
  | nil => rfl
  | cons a l ih =>
    by_cases h : p a = true
    · simp only [List.takeWhile_cons_of_pos h, List.length_cons, List.take_succ_cons, ih]
    · simp only [List.takeWhile_cons_of_neg h, List.length_nil, List.take_zero]

theorem drop_takeWhile_length (p : Char → Bool) (l : List Char) :
    l.drop (l.takeWhile p).length = l.dropWhile p := by
  induction l with
  | nil => rfl
  | cons a l ih =>
    by_cases h : p a = true
    · simp only [List.takeWhile_cons_of_pos h, List.dropWhile_cons_of_pos h, List.length_cons,
        List.drop_succ_cons, ih]
    · simp only [List.takeWhile_cons_of_neg h, List.dropWhile_cons_of_neg h, List.length_nil,
        List.drop_zero]

/-- At a letter the lexer takes the longest run of word characters, and the
cursor moves over that run. -/
theorem nextToken_at_letter (L : Lexer) (c : Char) (s : List Char) (hr : L.rest = c :: s)
    (hc : isalpha c = true) :
    nextToken L =
      (if (c :: s).takeWhile wordChar = "print".toList
        then ⟨.Print, (c :: s).takeWhile wordChar⟩
        else ⟨.Identifier, (c :: s).takeWhile wordChar⟩,
       ⟨L.src, L.index + ((c :: s).takeWhile wordChar).length⟩) := by
  obtain ⟨h1, h2, h3, h4, h5, _⟩ := isalpha_facts hc
  have hw : (fun c => isalnum c || c == '_') = wordChar := rfl
  have htake := take_runLength wordChar (c :: s)
  rw [nextToken_eq, hr, List.length_cons, nextTokenAux_cons h1,
    if_neg (fun h => h3 h.1), if_neg h4,
    if_neg (fun h => h.elim (fun h => by simp [h2] at h) (fun h => h5 h.1)), if_pos hc]
  simp only [parseKeywordOrIdentifier, runLength, hw, htake]
  split <;> rfl

/-! ## Numeric literals -/

/-- What the loop of `parseNumber` consumes: digits and points, with the flag
at most one point, and it stops at the end of the text, at a character that is
neither, or at a point that would be the second. -/
theorem numberLoop_spec : ∀ (s : List Char) (hasDecimal : Bool),
    numberLoop s hasDecimal ≤ s.length ∧
    (∀ c ∈ s.take (numberLoop s hasDecimal), numberChar c = true) ∧
    (s.take (numberLoop s hasDecimal)).count '.' + (if hasDecimal then 1 else 0) ≤ 1 ∧
    (∀ c ∈ (s.drop (numberLoop s hasDecimal)).head?, numberChar c = false ∨
      (c = '.' ∧
        (s.take (numberLoop s hasDecimal)).count '.' + (if hasDecimal then 1 else 0) = 1)) := by
  intro s
  induction s with
  | nil =>
    intro hasDecimal
    refine ⟨Nat.le_refl _, by simp [numberLoop], ?_, by simp [numberLoop]⟩
    cases hasDecimal <;> simp [numberLoop]
  | cons c cs ih =>
    intro hasDecimal
    by_cases hc : (isdigit c || c == '.') = true
    · by_cases hdot : c = '.'
      · subst hdot
        cases hasDecimal with
        | true =>
          have e : numberLoop ('.' :: cs) true = 0 := by
            rw [numberLoop, if_pos hc, if_pos (by decide), if_pos rfl]
          rw [e]
          refine ⟨Nat.zero_le _, by simp, by simp, ?_⟩
          intro d hd
          simp at hd
          subst hd
          exact Or.inr ⟨rfl, by simp⟩
        | false =>
          have e : numberLoop ('.' :: cs) false = numberLoop cs true + 1 := by
            rw [numberLoop, if_pos hc, if_pos (by decide), if_neg (by decide), Nat.add_comm]
          obtain ⟨i1, i2, i3, i4⟩ := ih true
          rw [e]
          simp only [List.take_succ_cons, List.drop_succ_cons, List.count_cons_self,
            List.length_cons, if_true] at i3 i4 ⊢
          refine ⟨by omega, ?_, by simpa using i3, ?_⟩
          · intro d hd
            rcases List.mem_cons.1 hd with rfl | hd
            · rfl
            · exact i2 d hd
          · intro d hd
            rcases i4 d hd with h | ⟨h1, h2⟩
            · exact Or.inl h
            · exact Or.inr ⟨h1, by simpa using h2⟩
      · have e : numberLoop (c :: cs) hasDecimal = numberLoop cs hasDecimal + 1 := by
          rw [numberLoop, if_pos hc, if_neg (by simpa using hdot), Nat.add_comm]
        obtain ⟨i1, i2, i3, i4⟩ := ih hasDecimal
        rw [e]
        simp only [List.take_succ_cons, List.drop_succ_cons, List.length_cons,
          List.count_cons_of_ne (Ne.symm hdot)]
        refine ⟨by omega, ?_, i3, i4⟩
        intro d hd
        rcases List.mem_cons.1 hd with rfl | hd
        · exact hc
        · exact i2 d hd
    · have e : numberLoop (c :: cs) hasDecimal = 0 := by
        rw [numberLoop, if_neg hc]
      rw [e]
      refine ⟨Nat.zero_le _, by simp, ?_, ?_⟩
      · cases hasDecimal <;> simp
      · intro d hd
        simp at hd
        subst hd
        exact Or.inl (by simpa [numberChar] using hc)

/-- The loop of `parseNumber` stops in front of a second point. -/
theorem numberLoop_point (w r : List Char) :
    ∀ hasDecimal : Bool, (∀ c ∈ w, numberChar c = true) →
      w.count '.' + (if hasDecimal then 1 else 0) = 1 →
      numberLoop (w ++ '.' :: r) hasDecimal = w.length := by
  induction w with
  | nil =>
    intro hasDecimal _ hcount
    cases hasDecimal with
    | false => simp at hcount
    | true => simp [numberLoop]
  | cons c w ih =>
    intro hasDecimal hw hcount
    have hc : (isdigit c || c == '.') = true := hw c (by simp)
    have hw' : ∀ d ∈ w, numberChar d = true := fun d hd => hw d (by simp [hd])
    rw [List.cons_append, numberLoop, if_pos hc]
    by_cases hdot : c = '.'
    · subst hdot
      rw [List.count_cons_self] at hcount
      have hfalse : hasDecimal = false := by
        cases hasDecimal
        · rfl
        · simp at hcount
      subst hfalse
      rw [if_pos (by decide), if_neg (by decide), ih true hw' (by simpa using hcount)]
      simp [Nat.add_comm]
    · rw [List.count_cons_of_ne (Ne.symm hdot)] at hcount
      rw [if_neg (by simpa using hdot), ih hasDecimal hw' hcount]
      simp [Nat.add_comm]

theorem parseKeywordOrIdentifier_not_number (s : List Char) :
    (parseKeywordOrIdentifier s).1.type ≠ .Number :=
  ite_ind (fun r : Token × Nat => r.1.type ≠ .Number) _ _ _
    (fun h => TokenType.noConfusion h) (fun h => TokenType.noConfusion h)

/-- A `Number` token comes from `parseNumber` only: the text where the token
starts begins with a digit, or with a minus sign and a digit. -/
theorem nextTokenAux_number {c : Char} (hc : isspace c = false) (f : Nat) (s : List Char)
    (hcomment : ¬ (c = '/' ∧ charAt (c :: s) 1 = '/'))
    (h : (nextTokenAux (f + 1) (c :: s)).1.type = .Number) :
    (isdigit c = true ∨ (c = '-' ∧ isdigit (charAt (c :: s) 1) = true)) ∧
      nextTokenAux (f + 1) (c :: s) = parseNumber (c :: s) := by
  rw [nextTokenAux_cons hc, if_neg hcomment] at h ⊢
  by_cases hq : c = '"'
  · rw [if_pos hq] at h
    exact TokenType.noConfusion h
  · rw [if_neg hq] at h ⊢
    by_cases hnum : isdigit c = true ∨ (c = '-' ∧ isdigit (charAt (c :: s) 1) = true)
    · exact ⟨hnum, by rw [if_pos hnum]⟩
    · rw [if_neg hnum] at h
      exfalso
      revert h
      refine ite_ind (fun r : Token × Nat => r.1.type ≠ .Number) _ _ _
        (parseKeywordOrIdentifier_not_number _) ?_
      iterate 9
        refine ite_ind (fun r : Token × Nat => r.1.type ≠ .Number) _ _ _
          (fun h => TokenType.noConfusion h) ?_
      exact fun h => TokenType.noConfusion h

/-- The shape of what `parseNumber` returns where the lexer calls it: an
optional sign, then a run of digits and points that starts with a digit, has
at most one point, and cannot be continued. -/
theorem parseNumber_shape (c : Char) (s : List Char)
    (h : isdigit c = true ∨ (c = '-' ∧ isdigit (charAt (c :: s) 1) = true)) :
    ∃ sign body rest, c :: s = (sign ++ body) ++ rest ∧
      (sign = [] ∨ sign = ['-']) ∧
      (∃ d ds, body = d :: ds ∧ isdigit d = true) ∧
      (∀ c ∈ body, numberChar c = true) ∧ body.count '.' ≤ 1 ∧
      (∀ c ∈ rest.head?, numberChar c = false ∨ (c = '.' ∧ body.count '.' = 1)) ∧
      parseNumber (c :: s) = (⟨.Number, sign ++ body⟩, (sign ++ body).length) := by
  have key : ∀ (d : Char) (t : List Char), isdigit d = true →
      ∃ body rest, d :: t = body ++ rest ∧
        (∃ d ds, body = d :: ds ∧ isdigit d = true) ∧
        (∀ c ∈ body, numberChar c = true) ∧ body.count '.' ≤ 1 ∧
        (∀ c ∈ rest.head?, numberChar c = false ∨ (c = '.' ∧ body.count '.' = 1)) ∧
        body = (d :: t).take (numberLoop (d :: t) false) ∧
        body.length = numberLoop (d :: t) false := by
    intro d t hd
    obtain ⟨i1, i2, i3, i4⟩ := numberLoop_spec (d :: t) false
    obtain ⟨_, _, _, _, hdot, hnc⟩ := isdigit_facts hd
    have hnc : (isdigit d || d == '.') = true := hnc
    have e : numberLoop (d :: t) false = numberLoop t false + 1 := by
      rw [numberLoop, if_pos hnc, if_neg (by simpa using hdot), Nat.add_comm]
    refine ⟨(d :: t).take (numberLoop (d :: t) false), (d :: t).drop (numberLoop (d :: t) false),
      (List.take_append_drop _ _).symm, ?_, i2, by simpa using i3, ?_, rfl, ?_⟩
    · rw [e, List.take_succ_cons]
      exact ⟨d, _, rfl, hd⟩
    · intro x hx
      rcases i4 x hx with h | ⟨h1, h2⟩
      · exact Or.inl h
      · exact Or.inr ⟨h1, by simpa using h2⟩
    · rw [List.length_take]
      omega
  rcases h with hd | ⟨rfl, hd⟩
  · obtain ⟨_, _, _, hminus, _, _⟩ := isdigit_facts hd
    obtain ⟨body, rest, e1, e2, e3, e4, e5, e6, e7⟩ := key c s hd
    refine ⟨[], body, rest, by simpa using e1, Or.inl rfl, e2, e3, e4, e5, ?_⟩
    have h0 : charAt (c :: s) 0 = c := rfl
    simp only [parseNumber, h0, if_neg hminus, List.drop_zero, Nat.zero_add, List.nil_append,
      ← e6, e7]
  · cases s with
    | nil => exact absurd hd (by decide)
    | cons d t =>
      have hd' : isdigit d = true := hd
      obtain ⟨body, rest, e1, e2, e3, e4, e5, e6, e7⟩ := key d t hd'
      refine ⟨['-'], body, rest, by rw [e1]; rfl, Or.inr rfl, e2, e3, e4, e5, ?_⟩
      have h0 : charAt ('-' :: d :: t) 0 = '-' := rfl
      simp only [parseNumber, h0, if_pos, List.drop_succ_cons, List.drop_zero]
      rw [Nat.add_comm 1, List.take_succ_cons, ← e6, ← e7]
      simp [Nat.add_comm]

/-- At a digit, or at a minus sign before a digit, the lexer returns what
`parseNumber` finds there. -/
theorem nextToken_at_number (L : Lexer) (c : Char) (s : List Char) (hr : L.rest = c :: s)
    (h : isdigit c = true ∨ (c = '-' ∧ isdigit (charAt (c :: s) 1) = true)) :
    nextToken L = ((parseNumber (c :: s)).1, ⟨L.src, L.index + (parseNumber (c :: s)).2⟩) := by
  have hc : isspace c = false := by
    rcases h with h | ⟨rfl, _⟩
    · exact (isdigit_facts h).1
    · rfl
  have h1 : ¬ (c = '/' ∧ charAt (c :: s) 1 = '/') := by
    rintro ⟨rfl, _⟩
    rcases h with h | ⟨h, _⟩
    · exact absurd h (by decide)
    · exact absurd h (by decide)
  have h2 : c ≠ '"' := by
    rintro rfl
    rcases h with h | ⟨h, _⟩
    · exact absurd h (by decide)
    · exact absurd h (by decide)
  rw [nextToken_eq, hr, List.length_cons, nextTokenAux_cons hc, if_neg h1, if_neg h2, if_pos h]

/-- A literal with one point, with or without a sign, in front of another
point: `parseNumber` returns the literal and stops at that point. -/
theorem parseNumber_point (sign body more : List Char) (hsign : sign = [] ∨ sign = ['-'])
    (hb : isLiteral body = true) (hcount : body.count '.' = 1) :
    parseNumber ((sign ++ body) ++ '.' :: more) =
      (⟨.Number, sign ++ body⟩, (sign ++ body).length) := by
  cases body with
  | nil => simp [isLiteral] at hb
  | cons d ds =>
    simp only [isLiteral, Bool.and_eq_true, decide_eq_true_eq, List.all_eq_true] at hb
    obtain ⟨⟨hd, hds⟩, _⟩ := hb
    obtain ⟨_, _, _, hminus, _, hnc⟩ := isdigit_facts hd
    have hloop : numberLoop (d :: ds ++ '.' :: more) false = (d :: ds).length :=
      numberLoop_point (d :: ds) more false (by
        intro x hx
        rcases List.mem_cons.1 hx with rfl | hx
        · exact hnc
        · exact hds x hx) (by simpa using hcount)
    rcases hsign with rfl | rfl
    · have h0 : charAt (d :: ds ++ '.' :: more) 0 = d := rfl
      rw [List.nil_append]
      simp only [parseNumber, h0, if_neg hminus, List.drop_zero, Nat.zero_add, hloop,
        List.take_left']
    · have h0 : charAt ((['-'] ++ d :: ds) ++ '.' :: more) 0 = '-' := rfl
      have e : (['-'] ++ d :: ds) ++ '.' :: more = '-' :: (d :: ds ++ '.' :: more) := rfl
      have ht : List.take (d :: ds).length (d :: ds ++ '.' :: more) = d :: ds :=
        List.take_left' rfl
      simp only [parseNumber, h0, if_pos]
      rw [e, List.drop_succ_cons, List.drop_zero, hloop, Nat.add_comm 1, List.take_succ_cons, ht]
      rfl

/-! ## Progress of the cursor -/

/-- The `Unknown` token is returned with nothing consumed. -/
theorem nextTokenAux_unknown {c : Char} (hc : isspace c = false) (f : Nat) (s : List Char)
    (hcomment : ¬ (c = '/' ∧ charAt (c :: s) 1 = '/'))
    (h : (nextTokenAux (f + 1) (c :: s)).1.type = .Unknown) :
    nextTokenAux (f + 1) (c :: s) = (⟨.Unknown, [c]⟩, 0) := by
  revert h
  rw [nextTokenAux_cons hc, if_neg hcomment]
  refine ite_ind (fun r : Token × Nat => r.1.type = .Unknown → r = (⟨.Unknown, [c]⟩, 0)) _ _ _
    (fun h => TokenType.noConfusion h) ?_
  refine ite_ind (fun r : Token × Nat => r.1.type = .Unknown → r = (⟨.Unknown, [c]⟩, 0)) _ _ _
    (fun h => TokenType.noConfusion h) ?_
  refine ite_ind (fun r : Token × Nat => r.1.type = .Unknown → r = (⟨.Unknown, [c]⟩, 0)) _ _ _
    (ite_ind (fun r : Token × Nat => r.1.type = .Unknown → r = (⟨.Unknown, [c]⟩, 0)) _ _ _
      (fun h => TokenType.noConfusion h) (fun h => TokenType.noConfusion h)) ?_
  iterate 9
    refine ite_ind (fun r : Token × Nat => r.1.type = .Unknown → r = (⟨.Unknown, [c]⟩, 0)) _ _ _
      (fun h => TokenType.noConfusion h) ?_
  exact fun _ => rfl

/-- After an `Unknown` token the lexer is stuck: the next call returns the same
token and leaves the cursor where it is. -/
theorem nextToken_unknown_fixed (L : Lexer) (h : (nextToken L).1.type = .Unknown) :
    nextToken (nextToken L).2 = nextToken L := by
  obtain ⟨pre, t, hs, hpre, ht, hres⟩ := nextTokenAux_skip L.rest.length L.rest (Nat.le_refl _)
  have hL := nextToken_eq L
  rw [hres] at hL
  cases t with
  | nil =>
    rw [hL] at h
    exact TokenType.noConfusion h
  | cons c t =>
    obtain ⟨hc, hcomment⟩ := ht c (by simp)
    have h' : (nextTokenAux ((c :: t).length + 1) (c :: t)).1.type = .Unknown := by
      rw [hL] at h
      exact h
    have heq := nextTokenAux_unknown hc _ t hcomment h'
    have hL' : nextToken L = (⟨.Unknown, [c]⟩, ⟨L.src, L.index + (pre.length + 0)⟩) := by
      rw [nextToken_eq, hres, heq]
    have hrest : (Lexer.mk L.src (L.index + (pre.length + 0))).rest = c :: t := by
      rw [rest_drop, hs, Nat.add_zero, List.drop_left']
      rfl
    rw [hL', nextToken_eq, hrest, heq]
    rfl

theorem tokens_unknown (n : Nat) : ∀ L : Lexer, (nextToken L).1.type = .Unknown →
    tokens n L = List.replicate n (nextToken L).1 := by
  induction n with
  | zero => intro L _; rfl
  | succ n ih =>
    intro L h
    have hfix := nextToken_unknown_fixed L h
    rw [tokens_succ, ih (nextToken L).2 (by rw [hfix]; exact h), hfix]
    rfl

/-- Every token other than `End` and `Unknown` moves the cursor forward. -/
theorem nextToken_advances (L : Lexer) (h1 : (nextToken L).1.type ≠ .End)
    (h2 : (nextToken L).1.type ≠ .Unknown) : L.index < (nextToken L).2.index := by
  obtain ⟨pre, t, hs, hpre, ht, hres⟩ := nextTokenAux_skip L.rest.length L.rest (Nat.le_refl _)
  have hL := nextToken_eq L
  rw [hres] at hL
  cases t with
  | nil =>
    rw [hL] at h1
    exact absurd rfl h1
  | cons c t =>
    obtain ⟨hc, hcomment⟩ := ht c (by simp)
    have h' : (nextTokenAux ((c :: t).length + 1) (c :: t)).1.type ≠ .Unknown := by
      rw [hL] at h2
      exact h2
    have hpos : 0 < (nextTokenAux ((c :: t).length + 1) (c :: t)).2 := by
      revert h'
      rw [nextTokenAux_cons hc, if_neg hcomment]
      by_cases hq : c = '"'
      · rw [if_pos hq]
        intro _
        simp only [parseString]
        split <;> omega
      · rw [if_neg hq]
        by_cases hnum : isdigit c = true ∨ (c = '-' ∧ isdigit (charAt (c :: t) 1) = true)
        · rw [if_pos hnum]
          intro _
          obtain ⟨sign, body, rest, _, _, ⟨d, ds, rfl, _⟩, _, _, _, e7⟩ :=
            parseNumber_shape c t hnum
          rw [e7]
          simp
        · rw [if_neg hnum]
          by_cases ha : isalpha c = true
          · rw [if_pos ha]
            intro _
            have hw : wordChar c = true := (isalpha_facts ha).2.2.2.2.2
            have hrun : 0 < runLength wordChar (c :: t) := by
              rw [runLength_cons_pos hw]
              omega
            simp only [parseKeywordOrIdentifier]
            split <;> exact hrun
          · rw [if_neg ha]
            iterate 9
              refine ite_ind (fun r : Token × Nat => r.1.type ≠ .Unknown → 0 < r.2) _ _ _
                (fun _ => Nat.one_pos) ?_
            exact fun h => absurd rfl h
    rw [hL]
    show L.index < L.index + _
    omega

/-! ## String literals -/

/-- At the opening quote of a terminated string literal the lexer returns the
text between the quotes and leaves the cursor just past the closing quote. -/
theorem nextToken_at_quote_closed (L : Lexer) (t r : List Char)
    (hr : L.rest = '"' :: (t ++ '"' :: r)) (ht : '"' ∉ t) :
    nextToken L = (⟨.String, t⟩, ⟨L.src, L.index + (t.length + 2)⟩) ∧
      (nextToken L).2.rest = r := by
  have hrun : runLength (fun c => c != '"') (t ++ '"' :: r) = t.length :=
    runLength_append t ('"' :: r) (by
      intro d hd
      have : d ≠ '"' := fun h => ht (h ▸ hd)
      simpa using this) (by simp)
  have hp : parseString ('"' :: (t ++ '"' :: r)) = (⟨.String, t⟩, t.length + 2) := by
    simp only [parseString, List.drop_succ_cons, List.drop_zero, hrun, List.length_cons,
      List.length_append]
    rw [if_pos (by omega)]
    have e1 : 1 + t.length + 1 - 1 - 1 = t.length := by omega
    have e2 : 1 + t.length + 1 = t.length + 2 := by omega
    rw [e1, e2, List.take_left' rfl]
  have h : nextToken L = (⟨.String, t⟩, ⟨L.src, L.index + (t.length + 2)⟩) := by
    rw [nextToken_eq, hr, List.length_cons, nextTokenAux_cons (by decide),
      if_neg (fun h => absurd h.1 (by decide)), if_pos rfl, hp]
  refine ⟨h, ?_⟩
  rw [h, rest_drop, hr]
  have e : '"' :: (t ++ '"' :: r) = ('"' :: (t ++ ['"'])) ++ r := by simp
  rw [e, List.drop_left']
  simp

/-- At the opening quote of a string literal that is not terminated, the lexer
moves the cursor to the end of the text, and the payload is the text after the
quote without its last character. -/
theorem nextToken_at_quote_open (L : Lexer) (t : List Char) (hr : L.rest = '"' :: t)
    (ht : '"' ∉ t) :
    nextToken L = (⟨.String, t.dropLast⟩, ⟨L.src, L.index + (t.length + 1)⟩) ∧
      (nextToken L).2.rest = [] := by
  have hrun : runLength (fun c => c != '"') t = t.length := by
    have h : runLength (fun c => c != '"') (t ++ []) = t.length :=
      runLength_append t [] (by
        intro d hd
        have : d ≠ '"' := fun h => ht (h ▸ hd)
        simpa using this) (by simp)
    rw [List.append_nil] at h
    exact h
  have hp : parseString ('"' :: t) = (⟨.String, t.dropLast⟩, t.length + 1) := by
    simp only [parseString, List.drop_succ_cons, List.drop_zero, hrun, List.length_cons]
    rw [if_neg (by omega)]
    have e1 : 1 + t.length - 1 - 1 = t.length - 1 := by omega
    rw [e1, Nat.add_comm 1, List.dropLast_eq_take]
  have h : nextToken L = (⟨.String, t.dropLast⟩, ⟨L.src, L.index + (t.length + 1)⟩) := by
    rw [nextToken_eq, hr, List.length_cons, nextTokenAux_cons (by decide),
      if_neg (fun h => absurd h.1 (by decide)), if_pos rfl, hp]
  refine ⟨h, ?_⟩
  rw [h, rest_drop, hr]
  simp

/-! # The claims -/

/-- Claim C1: round trip through the environment.  The program is `x = e; y = x;`:
the parser stands at the identifier `x`, the next token is `=`, the numeric
expression that follows evaluates without error to `v` and leaves the parser at
a `;`, and the tokens after it are `y`, `=`, `x`, `;` and the end of input.  Then
from any variable table, with enough fuel, `parse` returns normally with both `x`
and `y` bound to exactly `v`; the table is the initial one with these two
bindings inserted or overwritten, and nothing is printed or reported. -/
theorem environment_round_trip (A : Arith) (p p3 : Parser A) (x y : List Char) (v : A.D)
    (f fuel : Nat)
    (h0 : p.currentToken = ⟨.Identifier, x⟩)
    (h1 : p.advance.currentToken.type = .Equals)
    (he : expressionAsDouble f p.advance.advance = .ok v p3)
    (h3 : p3.currentToken.type = .Semicolon)
    (h4 : tokens 5 p3.lexer =
      [⟨.Identifier, y⟩, ⟨.Equals, ['=']⟩, ⟨.Identifier, x⟩, ⟨.Semicolon, [';']⟩, ⟨.End, []⟩])
    (hfuel : f + 5 ≤ fuel) :
    ∃ q, parse fuel p = .ok () q ∧ q.vars x = some v ∧ q.vars y = some v ∧
      q.vars = (p.vars.assign x v).assign y v ∧ q.out = p.out ∧ q.err = p.err := by
  obtain ⟨k, rfl⟩ : ∃ k, fuel = k + 5 := ⟨fuel - 5, by omega⟩
  have e1 : expressionAsDouble (k + 4) p.advance.advance = .ok v p3 :=
    expressionAsDouble_fuel (by omega) he
  obtain ⟨fv, fo, fe⟩ := (evaluator_frame f).1 _ _ _ he
  obtain ⟨q1, s1, a0, a1, av, ao, ae⟩ := assignStatement_state (k + 4) h0 h1 e1 h3
  simp only [tokens, List.cons.injEq, and_true] at h4
  obtain ⟨d0, d1, d2, d3, d4⟩ := h4
  rw [← a1] at d1 d2 d3 d4
  have g0 : q1.currentToken = ⟨.Identifier, y⟩ := a0.trans d0
  have g1 : q1.advance.currentToken = ⟨.Equals, ['=']⟩ := by
    simp only [advance_currentToken_eq, advance_lexer]; exact d1
  have g2 : q1.advance.advance.currentToken = ⟨.Identifier, x⟩ := by
    simp only [advance_currentToken_eq, advance_lexer]; exact d2
  have g3 : q1.advance.advance.advance.currentToken = ⟨.Semicolon, [';']⟩ := by
    simp only [advance_currentToken_eq, advance_lexer]; exact d3
  have gv : q1.vars = p.vars.assign x v := by rw [av, fv]; rfl
  have hx : q1.advance.advance.vars x = some v := by
    simp only [advance_vars, gv]; simp [Env.assign]
  have e2 : expressionAsDouble (k + 3) q1.advance.advance =
      .ok v q1.advance.advance.advance :=
    (expressionAsDouble_of (k + 2)
      ((termAsDouble_of (k + 1) (factor_identifier k g2 hx)).trans
        (termLoop_done k v (by rw [g3]; decide) (by rw [g3]; decide)))).trans
      (exprLoop_done (k + 1) v (by rw [g3]; decide) (by rw [g3]; decide))
  obtain ⟨q2, s2, b0, _, bv, bo, be⟩ :=
    assignStatement_state (k + 3) g0 (by rw [g1]) e2 (by rw [g3])
  have k0 : q2.currentToken.type = .End := by
    rw [b0]
    simp only [advance_lexer]
    rw [d4]
  have kv : q2.vars = (p.vars.assign x v).assign y v := by
    rw [bv]; simp only [advance_vars, gv]
  have ko : q2.out = p.out := by
    rw [bo]; simp only [advance_out, ao, fo]
  have ke : q2.err = p.err := by
    rw [be]; simp only [advance_err, ae, fe]
  refine ⟨q2, (parse_assign (k + 4) (by rw [h0]) s1).trans
    ((parse_assign (k + 3) (by rw [g0]) s2).trans (parse_end (k + 2) k0)), ?_, ?_, kv, ko, ke⟩
  · rw [kv]; simp [Env.assign]
  · rw [kv]; simp [Env.assign]

theorem environment_round_trip_witness :
    ∃ q, parse 8 (Parser.new Exact.arith "x = 1; y = x;".toList) = .ok () q ∧
      q.vars "x".toList = some (XNum.fin 1) ∧ q.vars "y".toList = some (XNum.fin 1) := by
  have c2 : (Parser.new Exact.arith "x = 1; y = x;".toList).advance.advance.currentToken =
      ⟨.Number, ['1']⟩ := by decide
  have c3 : (Parser.new Exact.arith "x = 1; y = x;".toList).advance.advance.advance.currentToken =
      ⟨.Semicolon, [';']⟩ := by decide
  have hv : Exact.arith.stod ['1'] = some (XNum.fin 1) := by decide!
  have he : expressionAsDouble 3 (Parser.new Exact.arith "x = 1; y = x;".toList).advance.advance =
      .ok (XNum.fin 1) (Parser.new Exact.arith "x = 1; y = x;".toList).advance.advance.advance :=
    (expressionAsDouble_of 2
      ((termAsDouble_of 1 (factor_number 0 c2 hv)).trans
        (termLoop_done 0 _ (by rw [c3]; decide) (by rw [c3]; decide)))).trans
      (exprLoop_done 1 _ (by rw [c3]; decide) (by rw [c3]; decide))
  obtain ⟨q, hq, hx, hy, _⟩ := environment_round_trip Exact.arith _ _ "x".toList "y".toList
    (XNum.fin 1) 3 8 (by decide) (by decide) he (by decide) (by decide) (by decide)
  exact ⟨q, hq, hx, hy⟩

/-- Claim C2: operator precedence.  For an identifier `x` and non-negative
numeric literals `a`, `b`, `c` with values `va`, `vb`, `vc`, the program
`x = a + b * c;` binds `x` to `va + (vb * vc)` and the program `x = a * b + c;`
binds `x` to `(va * vb) + vc`; each returns normally, from any variable table,
prints nothing and reports nothing. -/
theorem operator_precedence (A : Arith) (x a b c : List Char) (va vb vc : A.D) (vars : Env A)
    (out : List (List Char)) (hx : isIdentifier x = true) (ha : isLiteral a = true)
    (hb : isLiteral b = true) (hc : isLiteral c = true) (hva : A.stod a = some va)
    (hvb : A.stod b = some vb) (hvc : A.stod c = some vc) (fuel : Nat) (hfuel : 6 ≤ fuel) :
    (∃ q, parse fuel (Parser.load A
        (x ++ [' ', '=', ' '] ++ a ++ [' ', '+', ' '] ++ b ++ [' ', '*', ' '] ++ c ++ [';'])
        vars out) = .ok () q ∧
      q.vars x = some (A.add va (A.mul vb vc)) ∧
      q.vars = vars.assign x (A.add va (A.mul vb vc)) ∧ q.out = out ∧ q.err = []) ∧
    (∃ q, parse fuel (Parser.load A
        (x ++ [' ', '=', ' '] ++ a ++ [' ', '*', ' '] ++ b ++ [' ', '+', ' '] ++ c ++ [';'])
        vars out) = .ok () q ∧
      q.vars x = some (A.add (A.mul va vb) vc) ∧
      q.vars = vars.assign x (A.add (A.mul va vb) vc) ∧ q.out = out ∧ q.err = []) := by
  obtain ⟨k, rfl⟩ : ∃ k, fuel = k + 6 := ⟨fuel - 6, by omega⟩
  constructor
  · obtain ⟨q, hq, hv, ho, he⟩ :=
      assign_add_mul A x a b c va vb vc vars out hx ha hb hc hva hvb hvc k
    exact ⟨q, hq, by rw [hv]; simp [Env.assign], hv, ho, he⟩
  · obtain ⟨q, hq, hv, ho, he⟩ :=
      assign_mul_add A x a b c va vb vc vars out hx ha hb hc hva hvb hvc k
    exact ⟨q, hq, by rw [hv]; simp [Env.assign], hv, ho, he⟩

theorem operator_precedence_witness :
    (∃ q, parse 6 (Parser.new Exact.arith "x = 2 + 3 * 4;".toList) = .ok () q ∧
      q.vars "x".toList = some (XNum.fin 14)) ∧
    Exact.mul (Exact.add (.fin 2) (.fin 3)) (.fin 4) ≠ XNum.fin 14 := by
  obtain ⟨q, hq, hv, _⟩ := (operator_precedence Exact.arith "x".toList "2".toList "3".toList
    "4".toList (.fin 2) (.fin 3) (.fin 4) (Env.empty _) [] (by decide) (by decide) (by decide)
    (by decide) (by decide!) (by decide!) (by decide!) 6 (le_refl 6)).1
  refine ⟨⟨q, hq, ?_⟩, by decide!⟩
  rw [hv]
  decide!

/-- Claim C3: parenthesized grouping.  For an identifier `x` and non-negative
numeric literals `a`, `b`, `c` with values `va`, `vb`, `vc`, the program
`x = (a + b) * c;` binds `x` to `(va + vb) * vc`: the parenthesized factor
evaluates the whole inner expression and consumes the `)` before the
multiplication is applied.  The run returns normally, from any variable table,
prints nothing and reports nothing. -/
theorem parenthesized_grouping (A : Arith) (x a b c : List Char) (va vb vc : A.D)
    (vars : Env A) (out : List (List Char)) (hx : isIdentifier x = true)
    (ha : isLiteral a = true) (hb : isLiteral b = true) (hc : isLiteral c = true)
    (hva : A.stod a = some va) (hvb : A.stod b = some vb) (hvc : A.stod c = some vc)
    (fuel : Nat) (hfuel : 8 ≤ fuel) :
    ∃ q, parse fuel (Parser.load A
        (x ++ [' ', '=', ' ', '('] ++ a ++ [' ', '+', ' '] ++ b ++ [')', ' ', '*', ' '] ++ c ++
          [';'])
        vars out) = .ok () q ∧
      q.vars x = some (A.mul (A.add va vb) vc) ∧
      q.vars = vars.assign x (A.mul (A.add va vb) vc) ∧ q.out = out ∧ q.err = [] := by
  obtain ⟨k, rfl⟩ : ∃ k, fuel = k + 8 := ⟨fuel - 8, by omega⟩
  obtain ⟨q, hq, hv, ho, he⟩ :=
    assign_paren_mul A x a b c va vb vc vars out hx ha hb hc hva hvb hvc k
  exact ⟨q, hq, by rw [hv]; simp [Env.assign], hv, ho, he⟩

theorem parenthesized_grouping_witness :
    ∃ q, parse 8 (Parser.new Exact.arith "x = (2 + 3) * 4;".toList) = .ok () q ∧
      q.vars "x".toList = some (XNum.fin 20) := by
  obtain ⟨q, hq, hv, _⟩ := parenthesized_grouping Exact.arith "x".toList "2".toList "3".toList
    "4".toList (.fin 2) (.fin 3) (.fin 4) (Env.empty _) [] (by decide) (by decide) (by decide)
    (by decide) (by decide!) (by decide!) (by decide!) 8 (le_refl 8)
  refine ⟨q, hq, ?_⟩
  rw [hv]
  decide!

/-- Claim C9: comments are transparent to the token stream.  For every text `c`
without a newline and every source `s`, the tokens pulled from `//c` followed by
a newline and `s` are the tokens pulled from `s`, however many are pulled; and
from a comment that runs to the end of the input every pull returns `End`. -/
theorem comments_transparent (c s : List Char) (hc : '\n' ∉ c) :
    (∀ n, tokens n (Lexer.new ('/' :: '/' :: (c ++ '\n' :: s))) = tokens n (Lexer.new s)) ∧
    (∀ n, tokens n (Lexer.new ('/' :: '/' :: c)) = List.replicate n ⟨.End, []⟩) := by
  constructor
  · intro n
    cases n with
    | zero => rfl
    | succ n =>
      rw [tokens_succ, tokens_succ, rest_new, rest_new, lexStep_comment_line c s hc]
      rw [tokens_congr n (nextToken (Lexer.new ('/' :: '/' :: (c ++ '\n' :: s)))).2
        (nextToken (Lexer.new s)).2
        (by rw [nextToken_snd_rest, nextToken_snd_rest, rest_new, rest_new,
          lexStep_comment_line c s hc])]
  · intro n
    cases n with
    | zero => rfl
    | succ n =>
      rw [tokens_succ, rest_new, lexStep_comment_end c hc,
        tokens_of_rest_nil n _ (by rw [nextToken_snd_rest, rest_new, lexStep_comment_end c hc])]
      rfl

theorem comments_transparent_witness :
    tokens 5 (Lexer.new "// comment\nx = 1;".toList) = tokens 5 (Lexer.new "x = 1;".toList) ∧
    tokens 5 (Lexer.new "x = 1;".toList) =
      [⟨.Identifier, ['x']⟩, ⟨.Equals, ['=']⟩, ⟨.Number, ['1']⟩, ⟨.Semicolon, [';']⟩,
        ⟨.End, []⟩] :=
  ⟨(comments_transparent " comment".toList "x = 1;".toList (by decide)).1 5, by decide⟩

/-- Claim C10: `End` is idempotent.  For every lexer state, if `nextToken` returns
an `End` token then that token has the empty payload and every later call
returns `End` with the empty payload too; and `nextToken` returns `End` exactly
when only white space and comments remain between the cursor and the end of
the source. -/
theorem end_idempotent (L : Lexer) :
    ((nextToken L).1.type = .End →
      (nextToken L).1 = ⟨.End, []⟩ ∧
        ∀ n, tokens n (nextToken L).2 = List.replicate n ⟨.End, []⟩) ∧
    ((nextToken L).1.type = .End ↔ OnlyBlank L.rest) := by
  constructor
  · intro h
    rw [nextToken_fst] at h ⊢
    have hs := lexStep_end L.rest.length L.rest le_rfl h
    refine ⟨by rw [hs], fun n => tokens_of_rest_nil n _ ?_⟩
    rw [nextToken_snd_rest, hs]
  · rw [nextToken_fst]
    exact lexStep_end_iff L.rest

theorem end_idempotent_witness :
    (nextToken ⟨"x; // done\n ".toList, 2⟩).1 = ⟨.End, []⟩ ∧
      tokens 3 (nextToken ⟨"x; // done\n ".toList, 2⟩).2 = List.replicate 3 ⟨.End, []⟩ :=
  let h := (end_idempotent ⟨"x; // done\n ".toList, 2⟩).1 (by decide)
  ⟨h.1, h.2 3⟩

/-- Claim C5 (amended): number formatting strips exactly the redundant tail.
Whenever the fixed-point rendering of a value is an integer part `ip` (sign
included), a decimal point and fractional digits `frac`, `formatDouble` returns
`ip` followed by the point and `frac` without its trailing zeros, or `ip` alone
when no fractional digit remains; the integer part is kept whole.
(`dropTrailingZeros` removes exactly the zeros at the end.)  Hence a value
rendered as an integer part followed by `.000000` displays as that integer
part: for every integer `n`, a value rendered as the plain decimal numeral of
`n` followed by `.000000` displays as that numeral, and a value rendered as
`-0.000000` displays as `-0`.  In the concrete runs `4 / 2` displays as `2`,
`10` as `10`, `0` as `0` and `5 / 2` as `2.5`. -/
theorem format_strips_redundant_tail :
    (∀ (A : Arith) (v : A.D) (ip frac : List Char), (∀ c ∈ frac, isdigit c = true) →
      A.fixed v = ip ++ '.' :: frac →
      formatDouble A v = some (ip ++ (if dropTrailingZeros frac = [] then []
        else '.' :: dropTrailingZeros frac))) ∧
    (∀ frac : List Char, (∃ k, frac = dropTrailingZeros frac ++ List.replicate k '0') ∧
      (dropTrailingZeros frac).getLast? ≠ some '0') ∧
    (∀ (A : Arith) (v : A.D) (ip : List Char),
      A.fixed v = ip ++ ['.', '0', '0', '0', '0', '0', '0'] → formatDouble A v = some ip) ∧
    (∀ (A : Arith) (v : A.D) (n : ℤ),
      A.fixed v = numeral n ++ ['.', '0', '0', '0', '0', '0', '0'] →
      formatDouble A v = some (numeral n)) ∧
    (∀ (A : Arith) (v : A.D),
      A.fixed v = ['-', '0', '.', '0', '0', '0', '0', '0', '0'] →
      formatDouble A v = some ['-', '0']) ∧
    (run 8 "x = 4 / 2; print(x);").output = some ["2".toList] ∧
    (run 8 "x = 10; print(x);").output = some ["10".toList] ∧
    (run 8 "x = 0; print(x);").output = some ["0".toList] ∧
    (run 8 "x = 5 / 2; print(x);").output = some ["2.5".toList] := by
  have h3 : ∀ (A : Arith) (v : A.D) (ip : List Char),
      A.fixed v = ip ++ ['.', '0', '0', '0', '0', '0', '0'] → formatDouble A v = some ip := by
    intro A v ip hfix
    rw [formatDouble_of_fixed A v ip ['0', '0', '0', '0', '0', '0'] (by decide) hfix]
    have : dropTrailingZeros ['0', '0', '0', '0', '0', '0'] = [] := by decide
    simp [this]
  exact ⟨formatDouble_of_fixed, dropTrailingZeros_spec, h3,
    fun A v n hfix => h3 A v (numeral n) hfix, fun A v hfix => h3 A v ['-', '0'] hfix,
    by decide!, by decide!, by decide!, by decide!⟩

theorem format_strips_redundant_tail_witness :
    Exact.arith.fixed (Exact.div (.fin 5) (.fin 2)) = "2.500000".toList ∧
      formatDouble Exact.arith (Exact.div (.fin 5) (.fin 2)) = some "2.5".toList ∧
      Exact.arith.fixed (XNum.fin 10) = numeral 10 ++ ".000000".toList ∧
      formatDouble Exact.arith (XNum.fin 10) = some (numeral 10) ∧
      numeral 10 = "10".toList ∧ numeral (-7) = "-7".toList := by
  have hfix : Exact.arith.fixed (Exact.div (.fin 5) (.fin 2)) = "2.500000".toList := by decide!
  have hten : Exact.arith.fixed (XNum.fin 10) = numeral 10 ++ ".000000".toList := by decide!
  have h := format_strips_redundant_tail.1 Exact.arith (Exact.div (.fin 5) (.fin 2)) ['2']
    ['5', '0', '0', '0', '0', '0'] (by decide) hfix
  exact ⟨hfix, h.trans (by decide), hten,
    format_strips_redundant_tail.2.2.2.1 Exact.arith (XNum.fin 10) 10 hten, by decide,
    by decide⟩

/-- Counterexample to claim C5 as stated: the integer zero does not always
display as `0`.  The negative zero, which is the value of the literal `-0` and
of the product `0 * -1`, is rendered `-0.000000` and displays as `-0`, whereas
the plain decimal numeral of zero is `0`: the programs `print(-0);` and
`x = 0 * -1; print(x);` write the line `-0`. -/
theorem zero_displays_signed :
    Exact.arith.stod "-0".toList = some XNum.negZero ∧
    Exact.arith.mul (XNum.fin 0) (XNum.fin (-1)) = XNum.negZero ∧
    Exact.arith.fixed XNum.negZero = "-0.000000".toList ∧
    formatDouble Exact.arith XNum.negZero = some "-0".toList ∧
    numeral 0 = "0".toList ∧
    formatDouble Exact.arith XNum.negZero ≠ some (numeral 0) ∧
    (run 3 "print(-0);").output = some ["-0".toList] ∧
    (run 3 "print(-0);").ending = some none ∧
    (run 8 "x = 0 * -1; print(x);").output = some ["-0".toList] := by
  refine ⟨by decide!, by decide!, by decide!, by decide!, by decide!, by decide!, by decide!,
    by decide!, by decide!⟩

/-- Claim C6: silent zero in display expressions.  For every identifier `u` that is
not bound in the variable table, the program `print(u);` is not an error: it
returns normally, reports nothing, and emits the single output line `0`
(given that the platform renders a zero `double` as `0.000000`). -/
theorem print_unbound_is_zero (A : Arith) (u : List Char) (vars : Env A)
    (out : List (List Char)) (hu : isIdentifier u = true) (hvars : vars u = none)
    (hzero : A.fixed A.zero = ['0', '.', '0', '0', '0', '0', '0', '0']) (fuel : Nat)
    (hfuel : 3 ≤ fuel) :
    ∃ q, parse fuel (Parser.load A (['p', 'r', 'i', 'n', 't', '('] ++ u ++ [')', ';'])
        vars out) = .ok () q ∧
      q.out = out ++ [['0']] ∧ q.err = [] := by
  obtain ⟨k, rfl⟩ : ∃ k, fuel = k + 3 := ⟨fuel - 3, by omega⟩
  have ht : formatDouble A (vars.subscript u).1 = some ['0'] := by
    rw [subscript_unbound hvars]
    unfold formatDouble
    rw [hzero]
    decide
  obtain ⟨q, hq, ho, _, he⟩ := print_identifier u ['0'] vars out hu ht k
  exact ⟨q, hq, ho, he⟩

theorem print_unbound_is_zero_witness :
    ∃ q, parse 3 (Parser.new Exact.arith "print(undefined_var);".toList) = .ok () q ∧
      q.out = ["0".toList] ∧ q.err = [] :=
  print_unbound_is_zero Exact.arith "undefined_var".toList (Env.empty _) [] (by decide) rfl
    (by decide!) 3 (le_refl 3)

/-- Claim C7: an undefined variable in a numeric expression is fatal.  When the
current token is the identifier `u` and `u` is not bound, `factor` ends in
`exit(1)` with the undefined-variable message and the table as it was; so the
program `x = u;` ends in `exit(1)` and binds nothing.  When `u` is bound,
`factor` returns its bound value without error. -/
theorem undefined_variable_is_fatal (A : Arith) (u : List Char) :
    (∀ (p : Parser A) (fuel : Nat), p.currentToken = ⟨.Identifier, u⟩ → p.vars u = none →
      1 ≤ fuel →
      ∃ q, factor fuel p = .halted .exit1 q ∧ q.vars = p.vars ∧ q.out = p.out ∧
        q.err = p.err ++ [.undefinedVariable u]) ∧
    (∀ (x : List Char) (vars : Env A) (out : List (List Char)) (fuel : Nat),
      isIdentifier x = true → isIdentifier u = true → vars u = none → 4 ≤ fuel →
      ∃ q, parse fuel (Parser.load A (x ++ [' ', '=', ' '] ++ u ++ [';']) vars out) =
          .halted .exit1 q ∧
        q.vars = vars ∧ q.vars x = vars x ∧ q.out = out ∧ q.err = [.undefinedVariable u]) ∧
    (∀ (p : Parser A) (v : A.D) (fuel : Nat), p.currentToken = ⟨.Identifier, u⟩ →
      p.vars u = some v → 1 ≤ fuel →
      ∃ q, factor fuel p = .ok v q ∧ q.vars = p.vars ∧ q.out = p.out ∧ q.err = p.err) := by
  refine ⟨?_, ?_, ?_⟩
  · intro p fuel hc hv hfuel
    obtain ⟨k, rfl⟩ : ∃ k, fuel = k + 1 := ⟨fuel - 1, by omega⟩
    exact ⟨_, factor_undefined k hc hv, rfl, rfl, rfl⟩
  · intro x vars out fuel hx hu hv hfuel
    obtain ⟨k, rfl⟩ : ∃ k, fuel = k + 4 := ⟨fuel - 4, by omega⟩
    obtain ⟨q, hq, h1, h2, h3⟩ := assign_undefined x u vars out hx hu hv k
    exact ⟨q, hq, h1, by rw [h1], h2, h3⟩
  · intro p v fuel hc hv hfuel
    obtain ⟨k, rfl⟩ : ∃ k, fuel = k + 1 := ⟨fuel - 1, by omega⟩
    exact ⟨_, factor_identifier k hc hv, rfl, rfl, rfl⟩

theorem undefined_variable_is_fatal_witness :
    ∃ q, parse 4 (Parser.new Exact.arith "x = u;".toList) = .halted .exit1 q ∧
      q.vars "x".toList = none ∧ q.err = [.undefinedVariable "u".toList] := by
  obtain ⟨q, hq, hv, _, _, he⟩ := (undefined_variable_is_fatal Exact.arith "u".toList).2.1
    "x".toList (Env.empty _) [] 4 (by decide) (by decide) rfl (le_refl 4)
  exact ⟨q, hq, by rw [hv]; rfl, he⟩

/-- Claim C8 (the code departs from it): a print statement whose argument is an
identifier that is not bound changes the variable table.  In the program
`print(u); x = u;` the print statement binds `u` to zero through
`variables[u]`, so the assignment that follows does not fail: the run returns
normally with `u` and `x` both bound to zero, whereas `x = u;` alone ends in
`exit(1)`. -/
theorem print_binds_unbound_identifier :
    (run 10 "print(u); x = u;").ending = some none ∧
    (run 10 "print(u); x = u;").lookup "u".toList = some (XNum.fin 0) ∧
    (run 10 "print(u); x = u;").lookup "x".toList = some (XNum.fin 0) ∧
    (run 10 "print(u); x = u;").output = some ["0".toList] ∧
    (run 10 "print(u);").lookup "u".toList = some (XNum.fin 0) ∧
    (run 10 "x = u;").ending = some (some .exit1) := by
  refine ⟨by decide!, by decide!, by decide!, by decide!, by decide!, by decide!⟩

/-- Claim C11 (the code departs from it): not every token other than `End`
advances the cursor.  On the source `@` the lexer returns the `Unknown` token
`@` and leaves the cursor at 0, so the first `n` tokens are `n` copies of it
for every `n`, and `End` is never among them. -/
theorem unknown_token_stalls :
    nextToken (Lexer.new "@".toList) = (⟨.Unknown, "@".toList⟩, Lexer.new "@".toList) ∧
    (∀ n, tokens n (Lexer.new "@".toList) = List.replicate n ⟨.Unknown, "@".toList⟩) ∧
    (∀ n, (⟨.End, []⟩ : Token) ∉ tokens n (Lexer.new "@".toList)) ∧
    ¬ (∀ L : Lexer, (nextToken L).1.type ≠ .End → L.index < (nextToken L).2.index) := by
  have h : ∀ n, tokens n (Lexer.new "@".toList) = List.replicate n ⟨.Unknown, "@".toList⟩ :=
    fun n => tokens_unknown n (Lexer.new "@".toList) (by decide)
  refine ⟨by decide, h, ?_, ?_⟩
  · intro n hn
    rw [h n] at hn
    exact Token.noConfusion (List.eq_of_mem_replicate hn) (fun e _ => TokenType.noConfusion e)
  · intro hall
    exact absurd (hall (Lexer.new "@".toList) (by decide)) (by decide)

/-- Claim C12 (the code departs from it): a string literal without a closing
quote loses its last character.  On the source `"abc` the lexer returns the
`String` token with payload `ab`, with the cursor at the end of the text.  The
terminated literal `"abc"` yields `abc` with the cursor just past the closing
quote. -/
theorem unterminated_string_drops_last :
    nextToken (Lexer.new "\"abc".toList) = (⟨.String, "ab".toList⟩, ⟨"\"abc".toList, 4⟩) ∧
    (nextToken (Lexer.new "\"abc".toList)).2.rest = [] ∧
    nextToken (Lexer.new "\"abc\" x".toList) =
      (⟨.String, "abc".toList⟩, ⟨"\"abc\" x".toList, 5⟩) ∧
    ¬ (∀ (L : Lexer) (t : List Char), L.rest = '"' :: t → '"' ∉ t →
        (nextToken L).1 = ⟨.String, t⟩) := by
  refine ⟨by decide, by decide, by decide, ?_⟩
  intro hall
  exact absurd (hall (Lexer.new "\"abc".toList) "abc".toList rfl (by decide)) (by decide)

/-- Claim C13: division by zero is not an error.  In the program `x = e1 / e2; ...`
where the factors `e1` and `e2` evaluate without error and `e2` evaluates to
zero, the numeric expression returns the value `e1 / 0` of the platform's
division (not a fatal result), the assignment completes and binds `x` to that
value, and `parse` goes on with the statements that follow.  More generally,
whatever the running result of a term, a `/` followed by a factor that
evaluates to zero continues the loop of the term with the quotient. -/
theorem division_by_zero_continues (A : Arith) (p p3 p4 : Parser A) (x : List Char)
    (v1 v2 : A.D) (f fuel : Nat)
    (h0 : p.currentToken = ⟨.Identifier, x⟩)
    (h1 : p.advance.currentToken.type = .Equals)
    (he1 : factor f p.advance.advance = .ok v1 p3)
    (h3 : p3.currentToken.type = .Slash)
    (he2 : factor f p3.advance = .ok v2 p4)
    (hz : v2 = A.zero)
    (h4 : p4.currentToken.type = .Semicolon)
    (hfuel : f + 4 ≤ fuel) :
    expressionAsDouble (fuel - 1) p.advance.advance = .ok (A.div v1 A.zero) p4 ∧
    (∃ q, assignStatement (fuel - 1) p = .ok () q ∧ parse fuel p = parse (fuel - 1) q ∧
      q.vars = p.vars.assign x (A.div v1 A.zero) ∧ q.currentToken = (nextToken p4.lexer).1 ∧
      q.lexer = (nextToken p4.lexer).2 ∧ q.out = p.out ∧ q.err = p.err) ∧
    (∀ (v : A.D) (g : Nat) (r r2 : Parser A), r.currentToken.type = .Slash →
      factor g r.advance = .ok A.zero r2 →
      termLoop (g + 1) v r = termLoop g (A.div v A.zero) r2) := by
  subst hz
  obtain ⟨k, rfl⟩ : ∃ k, fuel = k + 5 := ⟨fuel - 5, by
    have : 1 ≤ f := by
      cases f with
      | zero => rw [factor] at he1; exact Result.noConfusion he1
      | succ n => omega
    omega⟩
  have hf1 : factor (k + 2) p.advance.advance = .ok v1 p3 := factor_fuel (by omega) he1
  have hf2 : factor (k + 1) p3.advance = .ok A.zero p4 := factor_fuel (by omega) he2
  obtain ⟨a1, a2, a3⟩ := (evaluator_frame f).2.2.2.2 _ _ _ he1
  obtain ⟨b1, b2, b3⟩ := (evaluator_frame f).2.2.2.2 _ _ _ he2
  have he : expressionAsDouble (k + 4) p.advance.advance = .ok (A.div v1 A.zero) p4 :=
    (expressionAsDouble_of (k + 3)
      ((termAsDouble_of (k + 2) hf1).trans
        ((termLoop_slash (k + 1) v1 h3 hf2).trans
          (termLoop_done k _ (by rw [h4]; decide) (by rw [h4]; decide))))).trans
      (exprLoop_done (k + 2) _ (by rw [h4]; decide) (by rw [h4]; decide))
  obtain ⟨q, hq, q0, q1, qv, qo, qe⟩ := assignStatement_state (k + 4) h0 h1 he h4
  simp only [advance_vars, advance_out, advance_err] at a1 a2 a3 b1 b2 b3
  refine ⟨he, ⟨q, hq, parse_assign (k + 4) (by rw [h0]) hq, ?_, q0, q1, ?_, ?_⟩, ?_⟩
  · rw [qv, b1, a1]
  · rw [qo, b2, a2]
  · rw [qe, b3, a3]
  · intro v g r r2 hr hf
    exact termLoop_slash g v hr hf

theorem division_by_zero_continues_witness :
    (∃ q, parse 8 (Parser.new Exact.arith "x = 1 / 0; y = 2;".toList) = parse 7 q ∧
      q.vars "x".toList = some (XNum.inf false)) ∧
    (run 8 "x = 1 / 0; y = 2;").ending = some none ∧
    (run 8 "x = 1 / 0; y = 2;").lookup "x".toList = some (XNum.inf false) ∧
    (run 8 "x = 1 / 0; y = 2;").lookup "y".toList = some (XNum.fin 2) := by
  have c0 : (Parser.new Exact.arith "x = 1 / 0; y = 2;".toList).currentToken =
      ⟨.Identifier, ['x']⟩ := by decide
  have c1 : (Parser.new Exact.arith "x = 1 / 0; y = 2;".toList).advance.currentToken.type =
      .Equals := by decide
  have c2 : (Parser.new Exact.arith "x = 1 / 0; y = 2;".toList).advance.advance.currentToken =
      ⟨.Number, ['1']⟩ := by decide
  have c3 : (Parser.new Exact.arith
      "x = 1 / 0; y = 2;".toList).advance.advance.advance.currentToken.type = .Slash := by
    decide
  have c4 : (Parser.new Exact.arith
      "x = 1 / 0; y = 2;".toList).advance.advance.advance.advance.currentToken =
      ⟨.Number, ['0']⟩ := by decide
  have c5 : (Parser.new Exact.arith
      "x = 1 / 0; y = 2;".toList).advance.advance.advance.advance.advance.currentToken.type =
      .Semicolon := by decide
  have hv1 : Exact.arith.stod ['1'] = some (XNum.fin 1) := by decide!
  have hv0 : Exact.arith.stod ['0'] = some (XNum.fin 0) := by decide!
  obtain ⟨_, ⟨q, _, hq, hv, _⟩, _⟩ := division_by_zero_continues Exact.arith _ _ _ ['x']
    (XNum.fin 1) (XNum.fin 0) 1 8 c0 c1 (factor_number 0 c2 hv1) c3 (factor_number 0 c4 hv0)
    rfl c5 (by decide)
  refine ⟨⟨q, hq, ?_⟩, by decide!, by decide!, by decide!⟩
  rw [hv]
  decide!

/-- Claim C14: an unexpected leading token stops the program without the fatal
exit.  If at the start of a statement the current token is neither `Print`, nor
`Identifier`, nor `End`, then `parse` returns normally; the state it returns is
the state it was called in with the unexpected-token message added to the
error stream: no further token is consumed, no further statement runs, and
the variable table and the output lines of the earlier statements are kept. -/
theorem unexpected_token_stops (A : Arith) (p : Parser A) (fuel : Nat)
    (h1 : p.currentToken.type ≠ .Print) (h2 : p.currentToken.type ≠ .Identifier)
    (h3 : p.currentToken.type ≠ .End) (hfuel : 1 ≤ fuel) :
    parse fuel p =
      .ok () { p with err := p.err ++ [.unexpectedToken p.currentToken.value] } := by
  obtain ⟨k, rfl⟩ : ∃ k, fuel = k + 1 := ⟨fuel - 1, by omega⟩
  exact parse_unexpected k h1 h2 h3

theorem unexpected_token_stops_witness :
    ∃ q, parse 4 (Parser.new Exact.arith "x = 1; 5; y = 2;".toList) = .ok () q ∧
      q.vars "x".toList = some (XNum.fin 1) ∧ q.vars "y".toList = none ∧
      q.err = [.unexpectedToken "5".toList] ∧ q.out = [] := by
  have c0 : (Parser.new Exact.arith "x = 1; 5; y = 2;".toList).currentToken =
      ⟨.Identifier, ['x']⟩ := by decide
  have c1 : (Parser.new Exact.arith "x = 1; 5; y = 2;".toList).advance.currentToken.type =
      .Equals := by decide
  have c2 : (Parser.new Exact.arith "x = 1; 5; y = 2;".toList).advance.advance.currentToken =
      ⟨.Number, ['1']⟩ := by decide
  have c3 : (Parser.new Exact.arith
      "x = 1; 5; y = 2;".toList).advance.advance.advance.currentToken =
      ⟨.Semicolon, [';']⟩ := by decide
  have hv : Exact.arith.stod ['1'] = some (XNum.fin 1) := by decide!
  have he : expressionAsDouble 3
      (Parser.new Exact.arith "x = 1; 5; y = 2;".toList).advance.advance =
      .ok (XNum.fin 1) (Parser.new Exact.arith "x = 1; 5; y = 2;".toList).advance.advance.advance :=
    (expressionAsDouble_of 2
      ((termAsDouble_of 1 (factor_number 0 c2 hv)).trans
        (termLoop_done 0 _ (by rw [c3]; decide) (by rw [c3]; decide)))).trans
      (exprLoop_done 1 _ (by rw [c3]; decide) (by rw [c3]; decide))
  obtain ⟨q1, s1, a0, _, av, ao, ae⟩ := assignStatement_state 3 c0 c1 he (by rw [c3])
  have k0 : q1.currentToken = ⟨.Number, ['5']⟩ := a0.trans (by decide)
  have hq := unexpected_token_stops Exact.arith q1 3 (by rw [k0]; decide) (by rw [k0]; decide)
    (by rw [k0]; decide) (by decide)
  refine ⟨_, (parse_assign 3 (by rw [c0]) s1).trans hq, ?_, ?_, ?_, ?_⟩
  · show q1.vars ['x'] = _
    rw [av]; simp [Env.assign]
  · show q1.vars ['y'] = _
    rw [av]
    have : (['y'] : List Char) ≠ ['x'] := by decide
    simp only [Env.assign, if_neg this, advance_vars]
    rfl
  · show q1.err ++ _ = _
    rw [ae, k0]; rfl
  · show q1.out = _
    rw [ao]; rfl

/-- Claim C15: arithmetic inside `print` stalls.  An iteration of the display loop
that starts at a `Plus`, `Minus`, `Star` or `Slash` token returns the state it
was given, unchanged: the same current token, lexer, accumulated text,
variable table, output and error stream.  Hence the loop never exits from
there: whatever the fuel, it runs out of fuel, still in that state.  A print
statement that has not completed has written no line.  In particular
`print(1 + 2);` never completes its print statement: whatever the fuel, the run
is still under way when the fuel runs out, and the state reached has the output
it started with, so no line is emitted (no `3` either), the variable table it
started with and no error message. -/
theorem arithmetic_in_print_stalls (A : Arith) (p : Parser A) (acc : List Char)
    (h : isOperator p.currentToken.type = true) :
    displayStep acc p = .ok acc p ∧
    (∀ fuel, expressionLoop fuel acc p = .outOfFuel p) ∧
    (∀ (f : Nat) (r q : Parser A), printStatement f r = .outOfFuel q →
      q.out = r.out ∧ q.err = r.err) ∧
    (∀ (v : A.D) (text : List Char) (vars : Env A) (out : List (List Char)),
      A.stod ['1'] = some v → formatDouble A v = some text →
      ∀ fuel, ∃ q, parse fuel (Parser.load A
        ['p', 'r', 'i', 'n', 't', '(', '1', ' ', '+', ' ', '2', ')', ';'] vars out) =
          .outOfFuel q ∧ q.out = out ∧ q.vars = vars ∧ q.err = []) :=
  ⟨displayStep_operator acc h, fun fuel => expressionLoop_operator h fuel acc,
    fun f _ _ hq => printStatement_outOfFuel_frame f hq,
    fun v text vars out hv ht fuel => print_one_plus_two v text vars out hv ht fuel⟩

theorem arithmetic_in_print_stalls_witness :
    (Parser.new Exact.arith "+ 2".toList).currentToken = ⟨.Plus, ['+']⟩ ∧
    expressionLoop 1000 [] (Parser.new Exact.arith "+ 2".toList) =
      .outOfFuel (Parser.new Exact.arith "+ 2".toList) ∧
    (∃ q, parse 1000 (Parser.new Exact.arith "print(1 + 2);".toList) = .outOfFuel q ∧
      q.out = [] ∧ q.vars = Env.empty Exact.arith ∧ q.err = []) :=
  let h := arithmetic_in_print_stalls Exact.arith (Parser.new Exact.arith "+ 2".toList) []
    (by decide)
  ⟨by decide, h.2.1 1000,
    h.2.2.2 (XNum.fin 1) ['1'] (Env.empty _) [] (by decide!) (by decide!) 1000⟩

/-- Claim C16: left-associativity within a precedence level.  For an identifier
`x` and non-negative numeric literals `a`, `b`, `c` with values `va`, `vb`, `vc`,
the program `x = a - b - c;` binds `x` to `(va - vb) - vc` and `x = a / b / c;`
binds `x` to `(va / vb) / vc`.  More generally the program `x = a op1 t1 ... opn tn;`
for literals `t1 ... tn` and operators that are all `+` or `-`, or all `*` or
`/`, binds `x` to the chain folded from the left (`chainValue`). -/
theorem left_associative (A : Arith) (x a b c : List Char) (va vb vc : A.D) (vars : Env A)
    (out : List (List Char)) (hx : isIdentifier x = true) (ha : isLiteral a = true)
    (hb : isLiteral b = true) (hc : isLiteral c = true) (hva : A.stod a = some va)
    (hvb : A.stod b = some vb) (hvc : A.stod c = some vc) (fuel : Nat) (hfuel : 7 ≤ fuel) :
    (∃ q, parse fuel (Parser.load A
        (x ++ [' ', '=', ' '] ++ a ++ [' ', '-', ' '] ++ b ++ [' ', '-', ' '] ++ c ++ [';'])
        vars out) = .ok () q ∧
      q.vars x = some (A.sub (A.sub va vb) vc) ∧
      q.vars = vars.assign x (A.sub (A.sub va vb) vc) ∧ q.out = out ∧ q.err = []) ∧
    (∃ q, parse fuel (Parser.load A
        (x ++ [' ', '=', ' '] ++ a ++ [' ', '/', ' '] ++ b ++ [' ', '/', ' '] ++ c ++ [';'])
        vars out) = .ok () q ∧
      q.vars x = some (A.div (A.div va vb) vc) ∧
      q.vars = vars.assign x (A.div (A.div va vb) vc) ∧ q.out = out ∧ q.err = []) ∧
    (∀ (chain : List (Char × List Char)) (res : A.D) (g : Nat),
      (∀ t ∈ chain, (t.1 = '+' ∨ t.1 = '-') ∧ isLiteral t.2 = true) →
      chainValue A va chain = some res → chain.length + 5 ≤ g →
      ∃ q, parse g (Parser.load A
          (x ++ [' ', '=', ' '] ++ a ++ chainText chain ++ [';']) vars out) = .ok () q ∧
        q.vars x = some res ∧ q.vars = vars.assign x res ∧ q.out = out ∧ q.err = []) ∧
    (∀ (chain : List (Char × List Char)) (res : A.D) (g : Nat),
      (∀ t ∈ chain, (t.1 = '*' ∨ t.1 = '/') ∧ isLiteral t.2 = true) →
      chainValue A va chain = some res → chain.length + 5 ≤ g →
      ∃ q, parse g (Parser.load A
          (x ++ [' ', '=', ' '] ++ a ++ chainText chain ++ [';']) vars out) = .ok () q ∧
        q.vars x = some res ∧ q.vars = vars.assign x res ∧ q.out = out ∧ q.err = []) := by
  have hadd : ∀ (chain : List (Char × List Char)) (res : A.D) (g : Nat),
      (∀ t ∈ chain, (t.1 = '+' ∨ t.1 = '-') ∧ isLiteral t.2 = true) →
      chainValue A va chain = some res → chain.length + 5 ≤ g →
      ∃ q, parse g (Parser.load A
          (x ++ [' ', '=', ' '] ++ a ++ chainText chain ++ [';']) vars out) = .ok () q ∧
        q.vars x = some res ∧ q.vars = vars.assign x res ∧ q.out = out ∧ q.err = [] := by
    intro chain res g hgood hval hg
    obtain ⟨k, rfl⟩ : ∃ k, g = k + chain.length + 5 := ⟨g - chain.length - 5, by omega⟩
    obtain ⟨q, hq, hv, ho, he⟩ :=
      assign_additive_chain x a chain va res vars out hx ha hva hgood hval k
    exact ⟨q, hq, by rw [hv]; simp [Env.assign], hv, ho, he⟩
  have hmul : ∀ (chain : List (Char × List Char)) (res : A.D) (g : Nat),
      (∀ t ∈ chain, (t.1 = '*' ∨ t.1 = '/') ∧ isLiteral t.2 = true) →
      chainValue A va chain = some res → chain.length + 5 ≤ g →
      ∃ q, parse g (Parser.load A
          (x ++ [' ', '=', ' '] ++ a ++ chainText chain ++ [';']) vars out) = .ok () q ∧
        q.vars x = some res ∧ q.vars = vars.assign x res ∧ q.out = out ∧ q.err = [] := by
    intro chain res g hgood hval hg
    obtain ⟨k, rfl⟩ : ∃ k, g = k + chain.length + 5 := ⟨g - chain.length - 5, by omega⟩
    obtain ⟨q, hq, hv, ho, he⟩ :=
      assign_multiplicative_chain x a chain va res vars out hx ha hva hgood hval k
    exact ⟨q, hq, by rw [hv]; simp [Env.assign], hv, ho, he⟩
  refine ⟨?_, ?_, hadd, hmul⟩
  · have h := hadd [('-', b), ('-', c)] (A.sub (A.sub va vb) vc) fuel
      (by simp [hb, hc]) (by simp [chainValue, hvb, hvc, applyOp_minus]) hfuel
    simpa [chainText] using h
  · have h := hmul [('/', b), ('/', c)] (A.div (A.div va vb) vc) fuel
      (by simp [hb, hc]) (by simp [chainValue, hvb, hvc, applyOp_slash]) hfuel
    simpa [chainText] using h

theorem left_associative_witness :
    (∃ q, parse 7 (Parser.new Exact.arith "x = 9 - 3 - 2;".toList) = .ok () q ∧
      q.vars "x".toList = some (XNum.fin 4)) ∧
    (∃ q, parse 7 (Parser.new Exact.arith "x = 9 / 3 / 2;".toList) = .ok () q ∧
      q.vars "x".toList = some (XNum.fin (3 / 2))) := by
  have h := left_associative Exact.arith "x".toList "9".toList "3".toList "2".toList
    (.fin 9) (.fin 3) (.fin 2) (Env.empty _) [] (by decide) (by decide) (by decide)
    (by decide) (by decide!) (by decide!) (by decide!) 7 (le_refl 7)
  obtain ⟨⟨q1, hq1, hv1, _⟩, ⟨q2, hq2, hv2, _⟩, _⟩ := h
  exact ⟨⟨q1, hq1, by rw [hv1]; decide!⟩, ⟨q2, hq2, by rw [hv2]; decide!⟩⟩

/-- Claim C17: whenever the lexer returns a `Number` token, the unread text is
white space and comments, then the payload, then the rest, where the payload
is an optional `-` followed by a run of digits and points that starts with a
digit and has at most one point; the run is the longest such: the rest is
empty, or starts with a character that is neither digit nor point, or starts
with a point while the run already has one.  The cursor is left at the start
of the rest.  Conversely, a literal with one point that stands in front of
another point is returned as the token, and the cursor is left at that second
point. -/
theorem number_token_shape (L : Lexer) (h : (nextToken L).1.type = .Number) :
    (∃ pre sign body rest,
      L.rest = pre ++ ((sign ++ body) ++ rest) ∧ OnlyBlank pre ∧
      (sign = [] ∨ sign = ['-']) ∧
      (∃ d ds, body = d :: ds ∧ isdigit d = true) ∧
      (∀ c ∈ body, numberChar c = true) ∧ body.count '.' ≤ 1 ∧
      (∀ c ∈ rest.head?, numberChar c = false ∨ (c = '.' ∧ body.count '.' = 1)) ∧
      (nextToken L).1 = ⟨.Number, sign ++ body⟩ ∧
      (nextToken L).2 = ⟨L.src, L.index + (pre.length + (sign ++ body).length)⟩ ∧
      (nextToken L).2.rest = rest) ∧
    (∀ (M : Lexer) (sign body more : List Char), (sign = [] ∨ sign = ['-']) →
      isLiteral body = true → body.count '.' = 1 →
      M.rest = (sign ++ body) ++ '.' :: more →
      nextToken M = (⟨.Number, sign ++ body⟩, ⟨M.src, M.index + (sign ++ body).length⟩) ∧
      (nextToken M).2.rest = '.' :: more) := by
  constructor
  · obtain ⟨pre, t, hs, hpre, ht, hres⟩ := nextTokenAux_skip L.rest.length L.rest (Nat.le_refl _)
    have hL := nextToken_eq L
    rw [hres] at hL
    cases t with
    | nil =>
      rw [hL] at h
      exact TokenType.noConfusion h
    | cons c t =>
      obtain ⟨hc, hcomment⟩ := ht c (by simp)
      have h' : (nextTokenAux ((c :: t).length + 1) (c :: t)).1.type = .Number := by
        rw [hL] at h
        exact h
      obtain ⟨hnum, heq⟩ := nextTokenAux_number hc _ t hcomment h'
      obtain ⟨sign, body, rest, e1, e2, e3, e4, e5, e6, e7⟩ := parseNumber_shape c t hnum
      rw [heq, e7] at hL
      refine ⟨pre, sign, body, rest, by rw [hs, e1], hpre, e2, e3, e4, e5, e6, ?_, ?_, ?_⟩
      · rw [hL]
      · rw [hL]
      · rw [hL, rest_drop, hs, e1, ← List.append_assoc, ← List.length_append, List.drop_left']
        rfl
  · intro M sign body more hsign hb hcount hr
    have hnum : ∃ c s, (sign ++ body) ++ '.' :: more = c :: s ∧
        (isdigit c = true ∨ (c = '-' ∧ isdigit (charAt (c :: s) 1) = true)) := by
      cases body with
      | nil => simp [isLiteral] at hb
      | cons d ds =>
        have hd : isdigit d = true := by
          simp only [isLiteral, Bool.and_eq_true] at hb
          exact hb.1.1
        rcases hsign with rfl | rfl
        · exact ⟨d, ds ++ '.' :: more, rfl, Or.inl hd⟩
        · exact ⟨'-', d :: ds ++ '.' :: more, rfl, Or.inr ⟨rfl, hd⟩⟩
    obtain ⟨c, s, e, hc⟩ := hnum
    have hM := nextToken_at_number M c s (hr.trans e) hc
    rw [← e, parseNumber_point sign body more hsign hb hcount] at hM
    refine ⟨hM, ?_⟩
    rw [hM, rest_drop, hr, List.drop_left']
    rfl

theorem number_token_shape_witness :
    (∃ pre sign body rest,
      (Lexer.new "1.2.3".toList).rest = pre ++ ((sign ++ body) ++ rest) ∧ OnlyBlank pre ∧
      (sign = [] ∨ sign = ['-']) ∧
      (∃ d ds, body = d :: ds ∧ isdigit d = true) ∧
      (∀ c ∈ body, numberChar c = true) ∧ body.count '.' ≤ 1 ∧
      (∀ c ∈ rest.head?, numberChar c = false ∨ (c = '.' ∧ body.count '.' = 1)) ∧
      (nextToken (Lexer.new "1.2.3".toList)).1 = ⟨.Number, sign ++ body⟩ ∧
      (nextToken (Lexer.new "1.2.3".toList)).2 =
        ⟨"1.2.3".toList, 0 + (pre.length + (sign ++ body).length)⟩ ∧
      (nextToken (Lexer.new "1.2.3".toList)).2.rest = rest) ∧
    nextToken (Lexer.new "1.2.3".toList) = (⟨.Number, "1.2".toList⟩, ⟨"1.2.3".toList, 3⟩) ∧
    (nextToken (Lexer.new "1.2.3".toList)).2.rest = ".3".toList ∧
    nextToken (Lexer.new " -4.5.6".toList) = (⟨.Number, "-4.5".toList⟩, ⟨" -4.5.6".toList, 5⟩) :=
  ⟨(number_token_shape (Lexer.new "1.2.3".toList) (by decide)).1, by decide, by decide,
    by decide⟩

/-- Claim C18: when the cursor is at a letter, the lexer consumes the longest
run `w` of letters, digits and underscores found there; the token is `Print`
exactly when `w` is `print`, and otherwise an `Identifier` with payload `w`;
the cursor ends just past `w`, at the end of the text or at a character that
is none of the three.  In particular `printx`, `print_` and `Print` are
identifiers. -/
theorem identifier_or_keyword (L : Lexer) (c : Char) (s : List Char)
    (hr : L.rest = c :: s) (hc : isalpha c = true) :
    ∃ w r, L.rest = w ++ r ∧ w = (c :: s).takeWhile wordChar ∧
      (∀ d ∈ w, wordChar d = true) ∧ (∀ d ∈ r.head?, wordChar d = false) ∧
      ((nextToken L).1.type = .Print ↔ w = "print".toList) ∧
      (w ≠ "print".toList → (nextToken L).1 = ⟨.Identifier, w⟩) ∧
      (nextToken L).1.value = w ∧
      (nextToken L).2 = ⟨L.src, L.index + w.length⟩ ∧
      (nextToken L).2.rest = r ∧
      (nextToken (Lexer.new "printx".toList)).1 = ⟨.Identifier, "printx".toList⟩ ∧
      (nextToken (Lexer.new "print_".toList)).1 = ⟨.Identifier, "print_".toList⟩ ∧
      (nextToken (Lexer.new "Print".toList)).1 = ⟨.Identifier, "Print".toList⟩ ∧
      (nextToken (Lexer.new "print".toList)).1 = ⟨.Print, "print".toList⟩ := by
  have h := nextToken_at_letter L c s hr hc
  refine ⟨(c :: s).takeWhile wordChar, (c :: s).dropWhile wordChar, ?_, rfl, ?_, ?_, ?_, ?_, ?_,
    ?_, ?_, by decide, by decide, by decide, by decide⟩
  · rw [hr, List.takeWhile_append_dropWhile]
  · intro d hd
    exact List.mem_takeWhile_imp hd
  · intro d hd
    have := List.head?_dropWhile_not wordChar (c :: s)
    rw [Option.mem_def] at hd
    rw [hd] at this
    simpa using this
  · rw [h]
    constructor
    · intro ht
      by_contra hne
      rw [if_neg hne] at ht
      exact TokenType.noConfusion ht
    · intro he
      rw [if_pos he]
  · intro hne
    rw [h, if_neg hne]
  · rw [h]
    split <;> rfl
  · rw [h]
  · rw [h, rest_drop, hr, drop_takeWhile_length]

theorem identifier_or_keyword_witness :
    ∃ w r, (Lexer.mk "x = print_1+2".toList 4).rest = w ++ r ∧
      w = "print_1+2".toList.takeWhile wordChar ∧
      (∀ d ∈ w, wordChar d = true) ∧ (∀ d ∈ r.head?, wordChar d = false) ∧
      ((nextToken (Lexer.mk "x = print_1+2".toList 4)).1.type = .Print ↔ w = "print".toList) ∧
      (w ≠ "print".toList →
        (nextToken (Lexer.mk "x = print_1+2".toList 4)).1 = ⟨.Identifier, w⟩) ∧
      (nextToken (Lexer.mk "x = print_1+2".toList 4)).1.value = w ∧
      (nextToken (Lexer.mk "x = print_1+2".toList 4)).2 =
        ⟨"x = print_1+2".toList, 4 + w.length⟩ ∧
      (nextToken (Lexer.mk "x = print_1+2".toList 4)).2.rest = r ∧
      (nextToken (Lexer.new "printx".toList)).1 = ⟨.Identifier, "printx".toList⟩ ∧
      (nextToken (Lexer.new "print_".toList)).1 = ⟨.Identifier, "print_".toList⟩ ∧
      (nextToken (Lexer.new "Print".toList)).1 = ⟨.Identifier, "Print".toList⟩ ∧
      (nextToken (Lexer.new "print".toList)).1 = ⟨.Print, "print".toList⟩ :=
  identifier_or_keyword (Lexer.mk "x = print_1+2".toList 4) 'p' "rint_1+2".toList rfl
    (by decide)

/-- Claim C19: a minus sign directly before a digit is lexed as part of a number.
For non-empty digit strings `a` and `b` the tokens of `a-b` are Number `a`,
Number `-b` and `End`; there is no `Minus` token.  So the programs `x = a-b;` and
`x = a -b;` end in `exit(1)` with the expected-token message of the Semicolon
check, reached with `x` holding the value of `a`, not the difference; and
`x = a - b;` binds `x` to the difference. -/
theorem minus_before_digit_is_sign (a b : List Char) (ha : isDigits a = true)
    (hb : isDigits b = true) :
    tokens 3 (Lexer.new (a ++ '-' :: b)) =
      [⟨.Number, a⟩, ⟨.Number, '-' :: b⟩, ⟨.End, []⟩] ∧
    (∀ (A : Arith) (x : List Char) (va vb : A.D) (vars : Env A) (out : List (List Char))
      (fuel : Nat), isIdentifier x = true → A.stod a = some va → A.stod b = some vb →
      6 ≤ fuel →
      (∃ q, parse fuel (Parser.load A (x ++ [' ', '=', ' '] ++ a ++ '-' :: b ++ [';'])
          vars out) = .halted .exit1 q ∧
        q.err = [.expected .Semicolon .Number] ∧ q.vars x = some va ∧ q.out = out) ∧
      (∃ q, parse fuel (Parser.load A (x ++ [' ', '=', ' '] ++ a ++ ' ' :: '-' :: b ++ [';'])
          vars out) = .halted .exit1 q ∧
        q.err = [.expected .Semicolon .Number] ∧ q.vars x = some va ∧ q.out = out) ∧
      (∃ q, parse fuel (Parser.load A (x ++ [' ', '=', ' '] ++ a ++ [' ', '-', ' '] ++ b ++
          [';']) vars out) = .ok () q ∧
        q.vars x = some (A.sub va vb) ∧ q.out = out ∧ q.err = [])) := by
  have hla := isLiteral_of_isDigits ha
  have hlb := isLiteral_of_isDigits hb
  constructor
  · obtain ⟨t1, s1⟩ := tokens_step (L := Lexer.new (a ++ '-' :: b)) 2 (rest_new _)
      (lexStep_literal_then a '-' b hla (by decide))
    have hneg : lexStep ('-' :: b) = (⟨.Number, '-' :: b⟩, []) := by
      have h := lexStep_negative b [] hb (by simp)
      rwa [List.append_nil] at h
    obtain ⟨t2, s2⟩ := tokens_step 1 s1 hneg
    obtain ⟨t3, _⟩ := tokens_step 0 s2 lexStep_nil
    rw [t1, t2, t3]
    rfl
  · intro A x va vb vars out fuel hx hva hvb hfuel
    obtain ⟨k, rfl⟩ : ∃ k, fuel = k + 6 := ⟨fuel - 6, by omega⟩
    refine ⟨?_, ?_, ?_⟩
    · obtain ⟨q, hq, he, hv, ho⟩ := assign_literal_then_junk (A := A) x a ('-' :: (b ++ [';']))
        [';'] ⟨.Number, '-' :: b⟩ va vars out hx hla hva
        (lexStep_negative b [';'] hb (by simp; decide)) (by simp; decide)
        (fun e => TokenType.noConfusion e) (fun e => TokenType.noConfusion e)
        (fun e => TokenType.noConfusion e) (fun e => TokenType.noConfusion e)
        (fun e => TokenType.noConfusion e) (k + 1)
      refine ⟨q, ?_, he, by rw [hv]; simp [Env.assign], ho⟩
      simpa using hq
    · obtain ⟨q, hq, he, hv, ho⟩ := assign_literal_then_junk (A := A) x a
        (' ' :: '-' :: (b ++ [';'])) [';'] ⟨.Number, '-' :: b⟩ va vars out hx hla hva
        (lexStep_blank_then (lexStep_negative b [';'] hb (by simp; decide))) (by simp; decide)
        (fun e => TokenType.noConfusion e) (fun e => TokenType.noConfusion e)
        (fun e => TokenType.noConfusion e) (fun e => TokenType.noConfusion e)
        (fun e => TokenType.noConfusion e) (k + 1)
      refine ⟨q, ?_, he, by rw [hv]; simp [Env.assign], ho⟩
      simpa using hq
    · obtain ⟨q, hq, hv, ho, he⟩ := assign_additive_chain (A := A) x a [('-', b)] va
        (A.sub va vb) vars out hx hla hva (by simp [hlb])
        (by simp [chainValue, hvb, applyOp_minus]) k
      refine ⟨q, ?_, by rw [hv]; simp [Env.assign], ho, he⟩
      simpa [chainText] using hq

theorem minus_before_digit_is_sign_witness :
    tokens 3 (Lexer.new "5-3".toList) =
      [⟨.Number, "5".toList⟩, ⟨.Number, "-3".toList⟩, ⟨.End, []⟩] ∧
    (∃ q, parse 6 (Parser.new Exact.arith "x = 5-3;".toList) = .halted .exit1 q ∧
      q.err = [.expected .Semicolon .Number] ∧ q.vars "x".toList = some (XNum.fin 5)) ∧
    (∃ q, parse 6 (Parser.new Exact.arith "x = 5 -3;".toList) = .halted .exit1 q ∧
      q.err = [.expected .Semicolon .Number] ∧ q.vars "x".toList = some (XNum.fin 5)) ∧
    (∃ q, parse 6 (Parser.new Exact.arith "x = 5 - 3;".toList) = .ok () q ∧
      q.vars "x".toList = some (XNum.fin 2)) := by
  have h := minus_before_digit_is_sign "5".toList "3".toList (by decide) (by decide)
  obtain ⟨⟨q1, hq1, he1, hv1, _⟩, ⟨q2, hq2, he2, hv2, _⟩, ⟨q3, hq3, hv3, _⟩⟩ :=
    h.2 Exact.arith "x".toList (.fin 5) (.fin 3) (Env.empty _) [] 6 (by decide) (by decide!)
      (by decide!) (le_refl 6)
  exact ⟨h.1, ⟨q1, hq1, he1, hv1⟩, ⟨q2, hq2, he2, hv2⟩, ⟨q3, hq3, by rw [hv3]; decide!⟩⟩

/-- Claim C20: a print statement emits its line before its closing tokens are
checked.  When the parser stands at `print`, the next token is `(` and the
display expression returns a text and stops at a `Semicolon` or at `End`
instead of `)`, then with enough fuel the run ends in `exit(1)` with the
expected-token message for `)`, and the output at that moment is the earlier
output followed by the line built from the display terms. -/
theorem print_emits_before_closing (A : Arith) (p p3 : Parser A) (output : List Char)
    (f fuel : Nat) (h : p.currentToken.type = .Print)
    (h1 : p.advance.currentToken.type = .LParen)
    (he : expression f p.advance.advance = .ok output p3)
    (h3 : p3.currentToken.type = .Semicolon ∨ p3.currentToken.type = .End)
    (hfuel : f + 1 ≤ fuel) :
    ∃ q, parse fuel p = .halted .exit1 q ∧ q.out = p.out ++ [output] ∧
      q.err = p.err ++ [.expected .RParen p3.currentToken.type] ∧ q.vars = p3.vars := by
  obtain ⟨k, rfl⟩ : ∃ k, fuel = k + 1 := ⟨fuel - 1, by omega⟩
  have he' : expression k p.advance.advance = .ok output p3 :=
    expression_fuel (by omega) he
  obtain ⟨fo, fe⟩ := expressionLoop_frame f _ _ _ _ he
  have hne : p3.currentToken.type ≠ .RParen := by
    rcases h3 with h3 | h3 <;> rw [h3] <;> decide
  refine ⟨_, parse_print_halted k h (printStatement_unclosed k h h1 he' hne), ?_, ?_, rfl⟩
  · show p3.out ++ [output] = _
    rw [fo]; rfl
  · show p3.err ++ _ = _
    rw [fe]; rfl

theorem print_emits_before_closing_witness :
    (∃ q, parse 3 (Parser.new Exact.arith "print(\"a\";".toList) = .halted .exit1 q ∧
      q.out = ["a".toList] ∧ q.err = [.expected .RParen .Semicolon]) ∧
    (∃ q, parse 3 (Parser.new Exact.arith "print(\"a\"".toList) = .halted .exit1 q ∧
      q.out = ["a".toList] ∧ q.err = [.expected .RParen .End]) := by
  constructor
  · have c0 : (Parser.new Exact.arith "print(\"a\";".toList).currentToken.type = .Print := by
      decide
    have c1 : (Parser.new Exact.arith "print(\"a\";".toList).advance.currentToken.type =
        .LParen := by decide
    have c2 : (Parser.new Exact.arith "print(\"a\";".toList).advance.advance.currentToken =
        ⟨.String, ['a']⟩ := by decide
    have c3 : (Parser.new Exact.arith
        "print(\"a\";".toList).advance.advance.advance.currentToken.type = .Semicolon := by
      decide
    have he : expression 2 (Parser.new Exact.arith "print(\"a\";".toList).advance.advance =
        .ok ([] ++ ['a']) _ :=
      (expressionLoop_step 1 (by rw [c2]; decide) (by rw [c2]; decide) (by rw [c2]; decide)
        (displayStep_string_last [] c2 (by rw [c3]; decide))).trans
        (expressionLoop_done 0 _ (Or.inr (Or.inl c3)))
    obtain ⟨q, hq, ho, he', _⟩ := print_emits_before_closing Exact.arith _ _ _ 2 3 c0 c1 he
      (Or.inl c3) (le_refl 3)
    exact ⟨q, hq, ho, by rw [he', c3]; rfl⟩
  · have c0 : (Parser.new Exact.arith "print(\"a\"".toList).currentToken.type = .Print := by
      decide
    have c1 : (Parser.new Exact.arith "print(\"a\"".toList).advance.currentToken.type =
        .LParen := by decide
    have c2 : (Parser.new Exact.arith "print(\"a\"".toList).advance.advance.currentToken =
        ⟨.String, ['a']⟩ := by decide
    have c3 : (Parser.new Exact.arith
        "print(\"a\"".toList).advance.advance.advance.currentToken.type = .End := by
      decide
    have he : expression 2 (Parser.new Exact.arith "print(\"a\"".toList).advance.advance =
        .ok ([] ++ ['a']) _ :=
      (expressionLoop_step 1 (by rw [c2]; decide) (by rw [c2]; decide) (by rw [c2]; decide)
        (displayStep_string_last [] c2 (by rw [c3]; decide))).trans
        (expressionLoop_done 0 _ (Or.inl c3))
    obtain ⟨q, hq, ho, he', _⟩ := print_emits_before_closing Exact.arith _ _ _ 2 3 c0 c1 he
      (Or.inr c3) (le_refl 3)
    exact ⟨q, hq, ho, by rw [he', c3]; rfl⟩

end Bitcraft
